import Mathlib

/-!
# Tick-driven CPU scheduling simulators: embedding and verification

Shallow embedding of the three `run_simulation` engines of the repository

* `interrupts_RR_101268848_101281787.cpp`     (Round-Robin, namespace `RR`)
* `interrupts_EP_101268848_101281787.cpp`     (non-preemptive external priority, namespace `EP`)
* `interrupts_EP_RR_101268848_101281787.cpp`  (preemptive priority + Round-Robin, namespace `EP_RR`)

Every engine is a function on an explicit simulation state `Sim` holding the
local variables of `run_simulation`.  One loop iteration is the function `tick`,
itself the composition of the blocks of the loop body in source order.

Modelling conventions.

* The shared header `interrupts_101268848_101281787.hpp` (the `PCB` record,
  `idle_CPU`, `terminate_process`, `assign_memory`, `add_process`, the printing
  helpers) is not part of the sources at hand.  What the engines need from it
  is modelled from the specification and marked as such.
* `assign_memory` is a parameter `mem : Nat → PCB → Bool`: the outcome of the
  `k`-th call of `assign_memory`, made for process `p`, is `mem k p`.  The state
  counts the calls, so every behaviour of the memory gateway, including one
  that depends on the history of earlier calls and releases, is covered.
* `execution_status` is kept as the list of the transition events that
  `print_exec_status` is called with, in call order (header and footer are not
  transitions).
* Times are natural numbers.  `current_time`, `transition_time` and
  `completion_time` are `unsigned int` in the sources; runs are assumed to stay
  below `2^32` simulated milliseconds, so the wrap-around of the clock is not
  modelled.  The decrement `remaining_time--` and the difference
  `processing_time - remaining_time` are modelled with their 32-bit unsigned
  wrap, since an input with `processing_time = 0` reaches it on the first tick.
-/

namespace Sched

/-- Process states used by the engines (`enum states` of the header). -/
inductive States where
  | NOT_ASSIGNED
  | NEW
  | READY
  | RUNNING
  | WAITING
  | TERMINATED
deriving DecidableEq, Repr

/-- Modelled from the spec: the process record `PCB` is declared in the header,
which is not among the sources.  Fields are those of the data model of the
specification (section 3) under the names the engines use. -/
structure PCB where
  PID : Int
  arrival_time : Nat
  start_time : Nat
  processing_time : Nat
  remaining_time : Nat
  state : States
  io_freq : Nat
  io_duration : Nat
deriving DecidableEq, Repr

/-- One call `print_exec_status(time, PID, old_state, new_state)`. -/
structure Event where
  time : Nat
  pid : Int
  old_state : States
  new_state : States
deriving DecidableEq, Repr

/-- Local variables of `run_simulation` (the same in the three engines), plus
the number of `assign_memory` calls made so far. -/
structure Sim where
  list_process : List PCB
  ready_queue : List PCB
  wait_queue : List (PCB × Nat)
  job_list : List PCB
  current_time : Nat
  running : PCB
  execution_status : List Event
  terminated_count : Nat
  mem_calls : Nat
deriving DecidableEq, Repr

/-- Modelled from the spec: one line of the input file (section 6, "Process
input record"). -/
structure InputRecord where
  PID : Int
  arrival_time : Nat
  processing_time : Nat
  io_freq : Nat
  io_duration : Nat
deriving DecidableEq, Repr

/-- Modelled from the spec: `add_process` lives in the header.  The record is
created with `remaining_time` initialised to `processing_time` (section 3). -/
def add_process (r : InputRecord) : PCB :=
  { PID := r.PID, arrival_time := r.arrival_time, start_time := 0,
    processing_time := r.processing_time, remaining_time := r.processing_time,
    state := States.NOT_ASSIGNED, io_freq := r.io_freq, io_duration := r.io_duration }

/-- The reading loop of `main`: every line becomes a `PCB` in state
`NOT_ASSIGNED`, in file order. -/
def load (input : List InputRecord) : List PCB :=
  input.map (fun r => { add_process r with state := States.NOT_ASSIGNED })

/-- Modelled from the spec: `idle_CPU(running)` lives in the header.  It puts the
idle sentinel in the running slot; the engines recognise it by `PID == -1`. -/
def idle_CPU : PCB :=
  { PID := -1, arrival_time := 0, start_time := 0, processing_time := 0,
    remaining_time := 0, state := States.NOT_ASSIGNED, io_freq := 0, io_duration := 0 }

/-- The loop `for (auto &x : l) if (x.PID == p.PID) x = p;`. -/
def sync_all (p : PCB) (l : List PCB) : List PCB :=
  l.map (fun x => if x.PID = p.PID then p else x)

/-- The block `found=false; for(auto &j:job_list) if(j.PID==p.PID) { found=true;
j=p; break; } if(!found) job_list.push_back(p);`. -/
def ensure_job (p : PCB) : List PCB → List PCB
  | [] => [p]
  | j :: js => if j.PID = p.PID then p :: js else j :: ensure_job p js

/-- Modelled from the spec: `terminate_process(running, job_list)` lives in the
header.  The process enters `TERMINATED` and the mirror list is synchronised;
the release of the memory partition is part of the memory gateway. -/
def terminate_process (running : PCB) (job_list : List PCB) : PCB × List PCB :=
  let r := { running with remaining_time := 0, state := States.TERMINATED }
  (r, sync_all r job_list)

/-- The statement `x--` on a 32-bit unsigned value. -/
def udec (x : Nat) : Nat :=
  if x = 0 then 4294967295 else x - 1

/-- The difference `a - b` of two 32-bit unsigned values. -/
def usub (a b : Nat) : Nat :=
  if b ≤ a then a - b else a + 4294967296 - b

/-- A range-for loop over `list_process` whose body may assign to the current
element: `done` are the elements already visited, `todo` those still to visit,
and the state always carries the whole list. -/
def for_each_process (body : PCB → Sim → PCB × Sim) : List PCB → List PCB → Sim → Sim
  | _, [], s => s
  | done, p :: todo, s =>
    let r := body p s
    for_each_process body (done ++ [r.1]) todo
      { r.2 with list_process := done ++ r.1 :: todo }

/-- The success branch shared by all admission sites: `p.state = READY;
ready_queue.push_back(p); execution_status += print_exec_status(now, p.PID,
NEW, READY);`. -/
def make_ready (now : Nat) (p : PCB) (s : Sim) : PCB × Sim :=
  let p1 := { p with state := States.READY }
  (p1, { s with ready_queue := s.ready_queue ++ [p1],
                execution_status := s.execution_status ++ [⟨now, p.PID, States.NEW, States.READY⟩],
                mem_calls := s.mem_calls + 1 })

/-- Body of the lambda `try_assign_pending` (identical in the three engines). -/
def pending_body (mem : Nat → PCB → Bool) (now : Nat) (p : PCB) (s : Sim) : PCB × Sim :=
  if p.arrival_time ≤ now ∧ p.state = States.NOT_ASSIGNED then
    if mem s.mem_calls p then
      let r := make_ready now p s
      (r.1, { r.2 with job_list := ensure_job r.1 r.2.job_list })
    else (p, { s with mem_calls := s.mem_calls + 1 })
  else (p, s)

/-- The lambda `try_assign_pending(now)`. -/
def try_assign_pending (mem : Nat → PCB → Bool) (now : Nat) (s : Sim) : Sim :=
  for_each_process (pending_body mem now) [] s.list_process s

/-- The loop over `wait_queue` that retires the entries whose completion time
is the current tick; `kept` are the visited entries that stay. -/
def io_loop : List (PCB × Nat) → List (PCB × Nat) → Sim → Sim
  | _, [], s => s
  | kept, e :: todo, s =>
    if e.2 = s.current_time then
      let p := { e.1 with state := States.READY }
      io_loop kept todo
        { s with execution_status :=
                   s.execution_status ++ [⟨s.current_time, p.PID, States.WAITING, States.READY⟩],
                 list_process := sync_all p s.list_process,
                 job_list := sync_all p s.job_list,
                 ready_queue := s.ready_queue ++ [p],
                 wait_queue := kept ++ todo }
    else io_loop (kept ++ [e]) todo s

/-- The block "handle I/O completions scheduled for this tick". -/
def io_completions (s : Sim) : Sim :=
  io_loop [] s.wait_queue s

/-- The I/O test of the execute block, on the running process after its
decrement. -/
def io_request (r : PCB) : Bool :=
  decide (r.io_freq > 0 ∧ usub r.processing_time r.remaining_time > 0 ∧
    usub r.processing_time r.remaining_time % r.io_freq = 0 ∧ r.remaining_time > 0)

/-- The `RUNNING -> WAITING` branch of the execute block; `r` is the running
process after its decrement. -/
def block_on_io (r : PCB) (s : Sim) : Sim :=
  let p := { r with state := States.WAITING }
  { s with execution_status :=
             s.execution_status ++ [⟨s.current_time + 1, r.PID, States.RUNNING, States.WAITING⟩],
           wait_queue := s.wait_queue ++ [(p, s.current_time + 1 + r.io_duration)],
           list_process := sync_all p s.list_process,
           job_list := sync_all p s.job_list,
           running := idle_CPU }

/-- The `RUNNING -> TERMINATED` branch of the execute block. -/
def finish (r : PCB) (s : Sim) : Sim :=
  { s with execution_status :=
             s.execution_status ++ [⟨s.current_time + 1, r.PID, States.RUNNING, States.TERMINATED⟩],
           job_list := (terminate_process r s.job_list).2,
           terminated_count := s.terminated_count + 1,
           running := idle_CPU }

/-- The quantum-expiry branch of the execute block (`RR` and `EP_RR`). -/
def quantum_expiry (r : PCB) (s : Sim) : Sim :=
  let p := { r with state := States.READY }
  { s with execution_status :=
             s.execution_status ++ [⟨s.current_time + 1, r.PID, States.RUNNING, States.READY⟩],
           ready_queue := s.ready_queue ++ [p],
           list_process := sync_all p s.list_process,
           job_list := sync_all p s.job_list,
           running := idle_CPU }

/-- The first three statements of the execute block: `running.remaining_time--`
and the two synchronisation loops. -/
def run_one_ms (s : Sim) : Sim :=
  let r := { s.running with remaining_time := udec s.running.remaining_time }
  { s with running := r,
           list_process := sync_all r s.list_process,
           job_list := sync_all r s.job_list }

/-- The block "execute 1 ms if running"; `quantum` is the quantum of the engine,
or `none` for the non-preemptive engine, whose last branch is empty. -/
def execute (quantum : Option Nat) (s : Sim) : Sim :=
  if s.running.PID ≠ -1 then
    let s1 := run_one_ms s
    let r := s1.running
    if io_request r then block_on_io r s1
    else if r.remaining_time = 0 then finish r s1
    else
      match quantum with
      | none => s1
      | some q =>
        if (s1.current_time - r.start_time + 1) % q = 0 then quantum_expiry r s1 else s1
  else s

/-- The statement `current_time++` closing the loop body, with the clock read
as a natural number: it agrees with the `unsigned int` clock of the source
during the first 4294967295 iterations, and so do the times computed from it
(`current_time + 1`, completion times) as long as they stay below 4294967296.
The statement on the 32-bit clock is `advance32`. -/
def advance (s : Sim) : Sim :=
  { s with current_time := s.current_time + 1 }

/-- Start of `run_simulation`: empty queues, idle CPU, time zero. -/
def start (list_process : List PCB) : Sim :=
  { list_process := list_process, ready_queue := [], wait_queue := [], job_list := [],
    current_time := 0, running := idle_CPU, execution_status := [],
    terminated_count := 0, mem_calls := 0 }

/-- The `while (terminated_count < total_processes)` loop around a loop body
`tick`, with a bound on the number of iterations: `none` when the bound is
reached before the loop exits. -/
def while_loop (tick : Sim → Sim) (total_processes : Nat) : Nat → Sim → Option Sim
  | 0, s => if s.terminated_count < total_processes then none else some s
  | fuel + 1, s =>
    if s.terminated_count < total_processes then while_loop tick total_processes fuel (tick s)
    else some s

/-- The `PID`s of the `RUNNING -> TERMINATED` events of a log, in log order. -/
def terminated_pids (log : List Event) : List Int :=
  (log.filter (fun e => decide (e.old_state = States.RUNNING ∧
    e.new_state = States.TERMINATED))).map Event.pid

/-! ## Round-Robin engine -/

namespace RR

/-- The constant `RR_QUANTUM`. -/
def RR_QUANTUM : Nat := 100

/-- Body of the loop "initialize processes with arrival_time == 0". -/
def init_body (mem : Nat → PCB → Bool) (p : PCB) (s : Sim) : PCB × Sim :=
  if p.arrival_time = 0 then
    if mem s.mem_calls p then
      let p1 := { p with state := States.READY }
      (p1, { s with ready_queue := s.ready_queue ++ [p1],
                    job_list := s.job_list ++ [p1],
                    execution_status :=
                      s.execution_status ++ [⟨0, p.PID, States.NEW, States.READY⟩],
                    mem_calls := s.mem_calls + 1 })
    else
      let p1 := { p with state := States.NOT_ASSIGNED }
      (p1, { s with job_list := s.job_list ++ [p1], mem_calls := s.mem_calls + 1 })
  else ({ p with state := States.NOT_ASSIGNED }, s)

/-- State on entry to the `while` loop. -/
def init (mem : Nat → PCB → Bool) (list_process : List PCB) : Sim :=
  for_each_process (init_body mem) [] list_process (start list_process)

/-- Body of the loop "arrivals at this tick". -/
def arrival_body (mem : Nat → PCB → Bool) (p : PCB) (s : Sim) : PCB × Sim :=
  if p.arrival_time = s.current_time ∧ p.arrival_time ≠ 0 then
    if p.state = States.NOT_ASSIGNED then
      let r := if mem s.mem_calls p then make_ready s.current_time p s
               else ({ p with state := States.NOT_ASSIGNED },
                     { s with mem_calls := s.mem_calls + 1 })
      (r.1, { r.2 with job_list := ensure_job r.1 r.2.job_list })
    else (p, s)
  else (p, s)

/-- The block "arrivals at this tick". -/
def arrivals (mem : Nat → PCB → Bool) (s : Sim) : Sim :=
  for_each_process (arrival_body mem) [] s.list_process s

/-- The block "Scheduler dispatch if CPU idle": the head of the queue runs. -/
def dispatch (s : Sim) : Sim :=
  if s.running.PID = -1 then
    match s.ready_queue with
    | [] => s
    | front :: rest =>
      let next := { front with state := States.RUNNING, start_time := s.current_time }
      { s with ready_queue := rest,
               list_process := sync_all next s.list_process,
               job_list := sync_all next s.job_list,
               execution_status :=
                 s.execution_status ++ [⟨s.current_time, next.PID, States.READY, States.RUNNING⟩],
               running := next }
  else s

/-- The part of the loop body that precedes the execute block. -/
def schedule (mem : Nat → PCB → Bool) (s : Sim) : Sim :=
  dispatch (io_completions (try_assign_pending mem s.current_time (arrivals mem s)))

/-- One iteration of the `while` loop. -/
def tick (mem : Nat → PCB → Bool) (s : Sim) : Sim :=
  advance (execute (some RR_QUANTUM) (schedule mem s))

/-- State after `n` iterations of the loop body. -/
def after (mem : Nat → PCB → Bool) (list_process : List PCB) (n : Nat) : Sim :=
  (tick mem)^[n] (init mem list_process)

/-- The function `run_simulation`, with a bound on the number of iterations. -/
def run_simulation (mem : Nat → PCB → Bool) (list_process : List PCB) (fuel : Nat) :
    Option Sim :=
  while_loop (tick mem) list_process.length fuel (init mem list_process)

end RR

/-! ## Priority engines: ordering of the ready queue -/

/-- Insertion into a list kept in descending `PID` order, ahead of the entries
with the same `PID`. -/
def insert_desc (p : PCB) : List PCB → List PCB
  | [] => [p]
  | q :: qs => if q.PID ≤ p.PID then p :: q :: qs else q :: insert_desc p qs

/-- The call `std::sort(ready_queue.begin(), ready_queue.end(), [](const PCB &a,
const PCB &b){ return a.PID > b.PID; })`: the queue in descending `PID` order,
smallest `PID` last.  `std::sort` leaves the relative order of entries with the
same `PID` unspecified; this model keeps their order, as the insertion sort
that libstdc++ applies to ranges of at most 16 elements does. -/
def sort_ready_by_priority : List PCB → List PCB
  | [] => []
  | p :: ps => insert_desc p (sort_ready_by_priority ps)

/-- Body of the first loop of the priority engines:
`for (auto &p : list_process) p.state = NOT_ASSIGNED;`. -/
def reset_states (l : List PCB) : List PCB :=
  l.map (fun p => { p with state := States.NOT_ASSIGNED })

/-- Body of the loop "process arrivals at time 0" of the priority engines. -/
def init_body_priority (mem : Nat → PCB → Bool) (p : PCB) (s : Sim) : PCB × Sim :=
  if p.arrival_time = 0 then
    let r := if mem s.mem_calls p then make_ready 0 p s
             else ({ p with state := States.NOT_ASSIGNED },
                   { s with mem_calls := s.mem_calls + 1 })
    (r.1, { r.2 with job_list := r.2.job_list ++ [r.1] })
  else (p, s)

/-- State of a priority engine on entry to the `while` loop. -/
def init_priority (mem : Nat → PCB → Bool) (list_process : List PCB) : Sim :=
  for_each_process (init_body_priority mem) [] (reset_states list_process)
    (start (reset_states list_process))

/-- Body of the loop "arrivals at this tick" of the priority engines (no test
of the state of the process). -/
def arrival_body_priority (mem : Nat → PCB → Bool) (p : PCB) (s : Sim) : PCB × Sim :=
  if p.arrival_time = s.current_time ∧ p.arrival_time ≠ 0 then
    let r := if mem s.mem_calls p then make_ready s.current_time p s
             else ({ p with state := States.NOT_ASSIGNED },
                   { s with mem_calls := s.mem_calls + 1 })
    (r.1, { r.2 with job_list := ensure_job r.1 r.2.job_list })
  else (p, s)

/-- The block "arrivals at this tick" of the priority engines. -/
def arrivals_priority (mem : Nat → PCB → Bool) (s : Sim) : Sim :=
  for_each_process (arrival_body_priority mem) [] s.list_process s

/-- Arrivals, pending retries and I/O completions of a priority engine. -/
def intake_priority (mem : Nat → PCB → Bool) (s : Sim) : Sim :=
  io_completions (try_assign_pending mem s.current_time (arrivals_priority mem s))

/-! ## Non-preemptive external-priority engine -/

namespace EP

/-- The loop `for (auto &jp : job_list) if (jp.PID == next.PID) { jp = next;
return true; }` of `pick_highest_priority`: the updated list, and whether the
`return` inside the loop was taken. -/
def sync_job_return (next : PCB) : List PCB → List PCB × Bool
  | [] => ([], false)
  | j :: js =>
    if j.PID = next.PID then (next :: js, true)
    else ((sync_job_return next js).1.cons j, (sync_job_return next js).2)

/-- The lambda `pick_highest_priority`. -/
def pick_highest_priority (s : Sim) : Sim :=
  match (sort_ready_by_priority s.ready_queue).reverse with
  | [] => s
  | back :: rest =>
    let next := { back with state := States.RUNNING, start_time := s.current_time }
    let s1 : Sim :=
      { s with ready_queue := rest.reverse,
               execution_status := s.execution_status ++
                 [⟨s.current_time, next.PID, States.READY, States.RUNNING⟩],
               list_process := sync_all next s.list_process }
    let j := sync_job_return next s1.job_list
    if j.2 then { s1 with job_list := j.1 }
    else { s1 with job_list := j.1 ++ [next], running := next }

/-- The block "schedule (non-preemptive) if CPU idle". -/
def dispatch (s : Sim) : Sim :=
  if s.running.PID = -1 then
    if s.ready_queue ≠ [] then pick_highest_priority s else s
  else s

/-- State on entry to the `while` loop. -/
def init (mem : Nat → PCB → Bool) (list_process : List PCB) : Sim :=
  init_priority mem list_process

/-- The part of the loop body that precedes the execute block. -/
def schedule (mem : Nat → PCB → Bool) (s : Sim) : Sim :=
  dispatch (intake_priority mem s)

/-- One iteration of the `while` loop. -/
def tick (mem : Nat → PCB → Bool) (s : Sim) : Sim :=
  advance (execute none (schedule mem s))

/-- State after `n` iterations of the loop body. -/
def after (mem : Nat → PCB → Bool) (list_process : List PCB) (n : Nat) : Sim :=
  (tick mem)^[n] (init mem list_process)

/-- The function `run_simulation`, with a bound on the number of iterations. -/
def run_simulation (mem : Nat → PCB → Bool) (list_process : List PCB) (fuel : Nat) :
    Option Sim :=
  while_loop (tick mem) list_process.length fuel (init mem list_process)

end EP

/-! ## Preemptive external-priority + Round-Robin engine -/

namespace EP_RR

/-- The constant `RR_ER_QUANTUM`. -/
def RR_ER_QUANTUM : Nat := 100

/-- The block "Preemption", entered with the ready queue sorted.  The statements
are taken in source order: `ready_queue.push_back(running)` is followed by
`ready_queue.pop_back()`, which removes the entry just pushed. -/
def preempt (s : Sim) : Sim :=
  if s.running.PID ≠ -1 then
    match s.ready_queue.reverse with
    | [] => s
    | top :: _ =>
      if top.PID < s.running.PID then
        let demoted := { s.running with state := States.READY }
        let pushed := s.ready_queue ++ [demoted]
        let next := { top with state := States.RUNNING, start_time := s.current_time }
        { s with execution_status := s.execution_status ++
                   [⟨s.current_time, s.running.PID, States.RUNNING, States.READY⟩,
                    ⟨s.current_time, next.PID, States.READY, States.RUNNING⟩],
                 ready_queue := pushed.dropLast,
                 list_process := sync_all next s.list_process,
                 job_list := sync_all next s.job_list,
                 running := next }
      else s
  else s

/-- The block "If CPU idle, dispatch highest priority". -/
def dispatch (s : Sim) : Sim :=
  if s.running.PID = -1 then
    match (sort_ready_by_priority s.ready_queue).reverse with
    | [] => s
    | back :: rest =>
      let next := { back with state := States.RUNNING, start_time := s.current_time }
      { s with ready_queue := rest.reverse,
               execution_status := s.execution_status ++
                 [⟨s.current_time, next.PID, States.READY, States.RUNNING⟩],
               list_process := sync_all next s.list_process,
               job_list := ensure_job next s.job_list,
               running := next }
  else s

/-- The call `sort_ready_by_priority()` that precedes the preemption block. -/
def sort_ready (s : Sim) : Sim :=
  { s with ready_queue := sort_ready_by_priority s.ready_queue }

/-- State on entry to the `while` loop. -/
def init (mem : Nat → PCB → Bool) (list_process : List PCB) : Sim :=
  init_priority mem list_process

/-- The part of the loop body that precedes the execute block. -/
def schedule (mem : Nat → PCB → Bool) (s : Sim) : Sim :=
  dispatch (preempt (sort_ready (intake_priority mem s)))

/-- One iteration of the `while` loop. -/
def tick (mem : Nat → PCB → Bool) (s : Sim) : Sim :=
  advance (execute (some RR_ER_QUANTUM) (schedule mem s))

/-- State after `n` iterations of the loop body. -/
def after (mem : Nat → PCB → Bool) (list_process : List PCB) (n : Nat) : Sim :=
  (tick mem)^[n] (init mem list_process)

/-- The function `run_simulation`, with a bound on the number of iterations. -/
def run_simulation (mem : Nat → PCB → Bool) (list_process : List PCB) (fuel : Nat) :
    Option Sim :=
  while_loop (tick mem) list_process.length fuel (init mem list_process)

end EP_RR

/-! ## Predicates used in the statements -/

/-- Number of `RUNNING -> TERMINATED` events of `pid` in a log. -/
def termination_events (log : List Event) (pid : Int) : Nat :=
  (terminated_pids log).count pid

/-- The input in which memory admission never fails. -/
def always_admitted : Nat → PCB → Bool :=
  fun _ _ => true

/-- State of the non-preemptive priority engine in which nothing can run: the
CPU is idle, nothing waits, nothing has terminated and every queued process has
an entry in `job_list`. -/
def EP.Stuck (s : Sim) : Prop :=
  s.running = idle_CPU ∧ s.terminated_count = 0 ∧ s.wait_queue = [] ∧
    ∀ q ∈ s.ready_queue, q.PID ∈ s.job_list.map PCB.PID

/-- The events appended to the log between an earlier and a later state. -/
def new_events (before later : Sim) : List Event :=
  later.execution_status.drop before.execution_status.length

/-- A `READY -> RUNNING` event. -/
@[reducible]
def is_dispatch (e : Event) : Prop :=
  e.old_state = States.READY ∧ e.new_state = States.RUNNING

/-- The number `pid` is the smallest `PID` of the entries of `queue`. -/
@[reducible]
def min_pid (queue : List PCB) (pid : Int) : Prop :=
  pid ∈ queue.map PCB.PID ∧ ∀ q ∈ queue, pid ≤ q.PID

/-- The process that the execute block runs for one millisecond when entered in
state `s`: the occupant of the running slot, unless the slot holds the idle
sentinel (the guard `running.PID != -1`). -/
def executing (s : Sim) : Option Int :=
  if s.running.PID ≠ -1 then some s.running.PID else none

/-- The log of `s` is the log of `base` followed by events that all satisfy
`Q`. -/
def appended (Q : Event → Prop) (base s : Sim) : Prop :=
  ∃ evs, s.execution_status = base.execution_status ++ evs ∧ ∀ e ∈ evs, Q e

/-- Coherence of the bookkeeping of the Round-Robin engine: every copy of a
process held in the ready queue, the wait queue or the running slot is the
record of `list_process` with that `PID`, the state stored in `list_process`
tells where the process is, and the log and the termination counter agree with
the records. -/
structure RR.Coherent (s : Sim) : Prop where
  nodup : (s.list_process.map PCB.PID).Nodup
  ready_mem : ∀ q ∈ s.ready_queue, q ∈ s.list_process ∧ q.state = States.READY
  wait_mem : ∀ q ∈ s.wait_queue.map Prod.fst, q ∈ s.list_process ∧ q.state = States.WAITING
  run_mem : s.running.PID ≠ -1 → s.running ∈ s.list_process ∧ s.running.state = States.RUNNING
  ready_nodup : s.ready_queue.Nodup
  wait_nodup : (s.wait_queue.map Prod.fst).Nodup
  ready_all : ∀ p ∈ s.list_process, p.state = States.READY → p ∈ s.ready_queue
  wait_all : ∀ p ∈ s.list_process, p.state = States.WAITING → p ∈ s.wait_queue.map Prod.fst
  states : ∀ p ∈ s.list_process, p.state = States.NOT_ASSIGNED ∨ p.state = States.READY ∨
    p.state = States.WAITING ∨ p.state = States.RUNNING
  term_imp : ∀ p ∈ s.list_process, p.PID ∈ terminated_pids s.execution_status →
    p.state = States.RUNNING ∧ p.PID ≠ s.running.PID
  term_sentinel : (-1 : Int) ∉ terminated_pids s.execution_status
  done_imp : ∀ p ∈ s.list_process, p.PID ≠ -1 → p.state = States.RUNNING →
    p.PID ≠ s.running.PID → p.PID ∈ terminated_pids s.execution_status
  term_nodup : (terminated_pids s.execution_status).Nodup
  term_sub : ∀ pid ∈ terminated_pids s.execution_status, pid ∈ s.list_process.map PCB.PID
  count : s.terminated_count = (terminated_pids s.execution_status).length

/-- The record `q` is a later version of the record `p` of the same process,
`p` having run for `spent` milliseconds in between: same identity and static
data, `remaining_time` lowered by `spent`, and no return to `NOT_ASSIGNED`. -/
def carried (spent : Nat) (p q : PCB) : Prop :=
  q.PID = p.PID ∧ q.arrival_time = p.arrival_time ∧ q.processing_time = p.processing_time ∧
    q.io_freq = p.io_freq ∧ q.io_duration = p.io_duration ∧
    q.remaining_time + spent = p.remaining_time ∧
    (q.state = States.NOT_ASSIGNED → p.state = States.NOT_ASSIGNED)

/-- The state `t` follows `s` by steps that only move processes between
places: no CPU time is consumed, no termination is logged, the clock stands
still and nothing is added to the wait queue. -/
def RR.Placed (s t : Sim) : Prop :=
  List.Forall₂ (carried 0) s.list_process t.list_process ∧
    terminated_pids t.execution_status = terminated_pids s.execution_status ∧
    t.current_time = s.current_time ∧ t.terminated_count = s.terminated_count ∧
    t.wait_queue.Sublist s.wait_queue

/-- One millisecond for the process `o`, nothing for the others. -/
def spent_on (o : Option Int) (p : PCB) : Nat :=
  if o = some p.PID then 1 else 0

/-- The CPU budget of the Round-Robin engine: a record has no remaining time
exactly when the termination of its process is logged. -/
def RR.Budget (s : Sim) : Prop :=
  ∀ p ∈ s.list_process, p.remaining_time = 0 ↔ p.PID ∈ terminated_pids s.execution_status

/-- Number of iterations among the first `n` in which the execute block runs
process `pid`. -/
def RR.executed_ticks (mem : Nat → PCB → Bool) (list_process : List PCB) (pid : Int) :
    Nat → Nat
  | 0 => 0
  | n + 1 => RR.executed_ticks mem list_process pid n +
      (if executing (RR.schedule mem (RR.after mem list_process n)) = some pid then 1 else 0)

/-- In how many of the five places of the partition the process `pid` is found:
not yet admitted (its record is in state `NOT_ASSIGNED`), entries of the ready
queue, the running slot, entries of the wait queue, logged terminations. -/
def RR.place_count (s : Sim) (pid : Int) : Nat :=
  (if ∃ p ∈ s.list_process, p.PID = pid ∧ p.state = States.NOT_ASSIGNED then 1 else 0) +
    (s.ready_queue.map PCB.PID).count pid +
    (if s.running.PID = pid then 1 else 0) +
    ((s.wait_queue.map Prod.fst).map PCB.PID).count pid +
    termination_events s.execution_status pid

/-- The `PID`s held by the ready queue, the wait queue and the running slot. -/
def occupants (s : Sim) : List Int :=
  s.ready_queue.map PCB.PID ++ ((s.wait_queue.map Prod.fst).map PCB.PID ++
    (if s.running.PID = -1 then [] else [s.running.PID]))

/-- Total CPU time still owed to the processes. -/
def RR.work (s : Sim) : Nat :=
  (s.list_process.map PCB.remaining_time).sum

/-- Total time until the pending arrivals and the pending I/O completions. -/
def RR.idle_wait (s : Sim) : Nat :=
  (s.list_process.map (fun p =>
      if p.state = States.NOT_ASSIGNED then p.arrival_time + 1 - s.current_time else 0)).sum +
    (s.wait_queue.map (fun e => e.2 - s.current_time)).sum

/-- Timing of the Round-Robin engine at a tick boundary when admission always
succeeds: a process not yet admitted has not arrived yet, an I/O completion is
never in the past, and no process bears the idle sentinel as its `PID`. -/
structure RR.Timed (s : Sim) : Prop where
  arrive : ∀ p ∈ s.list_process, p.state = States.NOT_ASSIGNED →
    s.current_time ≤ p.arrival_time ∧ p.arrival_time ≠ 0
  wake : ∀ e ∈ s.wait_queue, s.current_time ≤ e.2
  no_sentinel : ∀ p ∈ s.list_process, p.PID ≠ -1

/-- Timing inside an iteration, once arrivals and I/O completions of the tick
have been handled. -/
structure RR.Settled (s : Sim) : Prop where
  arrive : ∀ p ∈ s.list_process, p.state = States.NOT_ASSIGNED →
    s.current_time < p.arrival_time
  wake : ∀ e ∈ s.wait_queue, s.current_time < e.2
  no_sentinel : ∀ p ∈ s.list_process, p.PID ≠ -1

/-! ## Inputs used as examples -/

/-- Scenario A of the specification: one process, PID=1, arrival_time=0,
processing_time=5, no I/O. -/
def scenario_A : List InputRecord :=
  [⟨1, 0, 5, 0, 0⟩]

/-- Scenario B of the specification: PID=1 and PID=2, both arrival_time=0,
processing_time=10, no I/O. -/
def scenario_B : List InputRecord :=
  [⟨1, 0, 10, 0, 0⟩, ⟨2, 0, 10, 0, 0⟩]

/-- Scenario E of the specification: PID=2 arrival_time=0 processing_time=20 and
PID=1 arrival_time=5, the latter with processing_time=3; no I/O. -/
def scenario_E : List InputRecord :=
  [⟨2, 0, 20, 0, 0⟩, ⟨1, 5, 3, 0, 0⟩]

/-- An input in which one process bears the value of the idle sentinel as its
identifier: PID=-1 and PID=1, both arrival_time=0, processing_time=5. -/
def sentinel_input : List InputRecord :=
  [⟨-1, 0, 5, 0, 0⟩, ⟨1, 0, 5, 0, 0⟩]

/-- An input in which the process with the sentinel identifier arrives while
another one runs: PID=0 arrival_time=0 processing_time=10, PID=-1 arrival_time=2
processing_time=5. -/
def sentinel_arrival : List InputRecord :=
  [⟨0, 0, 10, 0, 0⟩, ⟨-1, 2, 5, 0, 0⟩]


/-! ## Atomic steps of the scheduling part of a tick -/

/-- The three sources: `interrupts_RR`, `interrupts_EP` and `interrupts_EP_RR`. -/
inductive Engine where
  | rr
  | ep
  | ep_rr
  deriving DecidableEq, Repr

/-- One atomic step of the part of a loop body that precedes the execute block
(and of the initial admission loop): one iteration of an admission loop, one
retired entry of the wait queue, a sort of the ready queue, one dispatch or one
preemption.  Every block of the three engines is a sequence of such steps. -/
inductive Move (mem : Nat → PCB → Bool) (eng : Engine) : Sim → Sim → Prop where
  /-- An iteration of an admission loop that admits nothing. -/
  | skip (s : Sim) (jl : List PCB) (k : Nat) :
      Move mem eng s { s with job_list := jl, mem_calls := k }
  /-- A successful call of `assign_memory` at an admission site. -/
  | admission (s : Sim) (done : List PCB) (p : PCB) (todo jl : List PCB)
      (hl : s.list_process = done ++ p :: todo)
      (hs : p.state = States.NOT_ASSIGNED)
      (ha : p.arrival_time ≤ s.current_time)
      (hm : mem s.mem_calls p = true) :
      Move mem eng s
        { s with list_process := done ++ { p with state := States.READY } :: todo,
                 ready_queue := s.ready_queue ++ [{ p with state := States.READY }],
                 execution_status := s.execution_status ++
                   [⟨s.current_time, p.PID, States.NEW, States.READY⟩],
                 job_list := jl, mem_calls := s.mem_calls + 1 }
  /-- An entry of the wait queue whose completion time is the current tick. -/
  | io_done (s : Sim) (kept : List (PCB × Nat)) (e : PCB × Nat) (todo : List (PCB × Nat))
      (hw : s.wait_queue = kept ++ e :: todo) (hc : e.2 = s.current_time) :
      Move mem eng s
        { s with execution_status := s.execution_status ++
                   [⟨s.current_time, e.1.PID, States.WAITING, States.READY⟩],
                 list_process := sync_all { e.1 with state := States.READY } s.list_process,
                 job_list := sync_all { e.1 with state := States.READY } s.job_list,
                 ready_queue := s.ready_queue ++ [{ e.1 with state := States.READY }],
                 wait_queue := kept ++ todo }
  /-- The dispatch of `interrupts_RR`: the head of the queue runs. -/
  | rr_dispatch (s : Sim) (front : PCB) (rest : List PCB)
      (he : eng = Engine.rr) (hr : s.running.PID = -1) (hq : s.ready_queue = front :: rest) :
      Move mem eng s
        { s with ready_queue := rest,
                 list_process := sync_all
                   { front with state := States.RUNNING, start_time := s.current_time }
                   s.list_process,
                 job_list := sync_all
                   { front with state := States.RUNNING, start_time := s.current_time }
                   s.job_list,
                 execution_status := s.execution_status ++
                   [⟨s.current_time, front.PID, States.READY, States.RUNNING⟩],
                 running := { front with state := States.RUNNING, start_time := s.current_time } }
  /-- A call of `sort_ready_by_priority` (priority engines). -/
  | sort (s : Sim) (he : eng ≠ Engine.rr) :
      Move mem eng s { s with ready_queue := sort_ready_by_priority s.ready_queue }
  /-- The `pick_highest_priority` of `interrupts_EP` when it returns from inside the
  loop over `job_list`: the entry leaves the queue and the running slot is not
  assigned. -/
  | pick_return (s : Sim) (back : PCB) (rest jl : List PCB)
      (he : eng = Engine.ep) (hr : s.running.PID = -1) (hq : s.ready_queue = rest ++ [back])
      (hmin : ∀ q ∈ s.ready_queue, back.PID ≤ q.PID) :
      Move mem eng s
        { s with ready_queue := rest,
                 execution_status := s.execution_status ++
                   [⟨s.current_time, back.PID, States.READY, States.RUNNING⟩],
                 list_process := sync_all
                   { back with state := States.RUNNING, start_time := s.current_time }
                   s.list_process,
                 job_list := jl }
  /-- The dispatch of a priority engine: the last entry of the sorted queue runs. -/
  | pick (s : Sim) (back : PCB) (rest jl : List PCB)
      (he : eng ≠ Engine.rr) (hr : s.running.PID = -1) (hq : s.ready_queue = rest ++ [back])
      (hmin : ∀ q ∈ s.ready_queue, back.PID ≤ q.PID) :
      Move mem eng s
        { s with ready_queue := rest,
                 execution_status := s.execution_status ++
                   [⟨s.current_time, back.PID, States.READY, States.RUNNING⟩],
                 list_process := sync_all
                   { back with state := States.RUNNING, start_time := s.current_time }
                   s.list_process,
                 job_list := jl,
                 running := { back with state := States.RUNNING, start_time := s.current_time } }
  /-- The preemption block of `interrupts_EP_RR`: the ready queue is left as it
  was (the demoted process is pushed and popped), `top` takes the running slot. -/
  | preemption (s : Sim) (top : PCB) (rest : List PCB)
      (he : eng = Engine.ep_rr) (hr : s.running.PID ≠ -1) (hq : s.ready_queue = rest ++ [top])
      (hlt : top.PID < s.running.PID) :
      Move mem eng s
        { s with execution_status := s.execution_status ++
                   [⟨s.current_time, s.running.PID, States.RUNNING, States.READY⟩,
                    ⟨s.current_time, top.PID, States.READY, States.RUNNING⟩],
                 list_process := sync_all
                   { top with state := States.RUNNING, start_time := s.current_time }
                   s.list_process,
                 job_list := sync_all
                   { top with state := States.RUNNING, start_time := s.current_time }
                   s.job_list,
                 running := { top with state := States.RUNNING, start_time := s.current_time } }

/-- Sequences of atomic steps. -/
def Moves (mem : Nat → PCB → Bool) (eng : Engine) : Sim → Sim → Prop :=
  Relation.ReflTransGen (Move mem eng)

/-- The part of the loop body that precedes the execute block, by engine. -/
def Engine.schedule (mem : Nat → PCB → Bool) : Engine → Sim → Sim
  | Engine.rr => RR.schedule mem
  | Engine.ep => EP.schedule mem
  | Engine.ep_rr => EP_RR.schedule mem

/-- The quantum of the execute block, by engine. -/
def Engine.quantum : Engine → Option Nat
  | Engine.rr => some RR.RR_QUANTUM
  | Engine.ep => none
  | Engine.ep_rr => some EP_RR.RR_ER_QUANTUM

/-- State on entry to the `while` loop, by engine. -/
def Engine.init (mem : Nat → PCB → Bool) : Engine → List PCB → Sim
  | Engine.rr => RR.init mem
  | Engine.ep => EP.init mem
  | Engine.ep_rr => EP_RR.init mem

/-- One iteration of the `while` loop, by engine. -/
def Engine.tick (mem : Nat → PCB → Bool) (eng : Engine) (s : Sim) : Sim :=
  advance (execute eng.quantum (eng.schedule mem s))

/-- State after `n` iterations of the loop body, by engine. -/
def Engine.after (mem : Nat → PCB → Bool) (eng : Engine) (list_process : List PCB)
    (n : Nat) : Sim :=
  (eng.tick mem)^[n] (eng.init mem list_process)

/-- Admitted processes have arrived: every record that left `NOT_ASSIGNED`, and
every record in a queue or in the running slot, has its arrival at or before
the current tick. -/
structure Arrived (s : Sim) : Prop where
  listed : ∀ p ∈ s.list_process, p.state ≠ States.NOT_ASSIGNED →
    p.arrival_time ≤ s.current_time
  ready : ∀ q ∈ s.ready_queue, q.arrival_time ≤ s.current_time
  waiting : ∀ e ∈ s.wait_queue, e.1.arrival_time ≤ s.current_time
  running : s.running.arrival_time ≤ s.current_time

/-- At the start of a tick, the records that left `NOT_ASSIGNED` arrived strictly
before it, or at time zero. -/
def Punctual (s : Sim) : Prop :=
  Arrived s ∧ ∀ p ∈ s.list_process, p.state ≠ States.NOT_ASSIGNED →
    p.arrival_time < s.current_time ∨ p.arrival_time = 0

/-- The timestamps of a log never decrease, and none is later than the clock. -/
def Stamped (s : Sim) : Prop :=
  s.execution_status.Pairwise (fun a b => a.time ≤ b.time) ∧
    ∀ e ∈ s.execution_status, e.time ≤ s.current_time

/-- The `PID`s of the events that enter `READY` (`NEW -> READY`,
`WAITING -> READY`, `RUNNING -> READY`), in log order. -/
def entered_pids (log : List Event) : List Int :=
  (log.filter (fun e => decide (e.new_state = States.READY))).map Event.pid

/-- The `PID`s of the `READY -> RUNNING` events, in log order. -/
def dispatched_pids (log : List Event) : List Int :=
  (log.filter (fun e => decide (is_dispatch e))).map Event.pid

/-- A record with some time left and no more than its processing time (when
`processing_time` is zero the decrement wraps and only the 32-bit range is
known). -/
def within_budget (q : PCB) : Prop :=
  (1 ≤ q.processing_time → 1 ≤ q.remaining_time ∧ q.remaining_time ≤ q.processing_time) ∧
    (q.processing_time = 0 → q.remaining_time ≤ 4294967295)

/-- The remaining time of every record that can reach the CPU is within its
budget; the running process moreover has executed, since its dispatch, at most
what its budget allows. -/
structure Bounded (s : Sim) : Prop where
  fresh : ∀ p ∈ s.list_process, p.state = States.NOT_ASSIGNED →
    p.remaining_time = p.processing_time
  ready : ∀ q ∈ s.ready_queue, within_budget q
  waiting : ∀ e ∈ s.wait_queue, within_budget e.1
  running : s.running.PID ≠ -1 →
    s.running.state ≠ States.NOT_ASSIGNED ∧ s.running.start_time ≤ s.current_time ∧
    (1 ≤ s.running.processing_time → 1 ≤ s.running.remaining_time ∧
      s.running.remaining_time + (s.current_time - s.running.start_time) ≤
        s.running.processing_time) ∧
    (s.running.processing_time = 0 → s.running.remaining_time ≤ 4294967295)

/-- The record `q` carries the fixed fields of one line of the input. -/
def descends (input : List InputRecord) (q : PCB) : Prop :=
  ∃ r ∈ input, r.PID = q.PID ∧ r.arrival_time = q.arrival_time ∧
    r.processing_time = q.processing_time ∧ r.io_freq = q.io_freq ∧
    r.io_duration = q.io_duration

/-- Every record of the state (process list, queues, running slot unless idle)
satisfies `R`. -/
structure Everywhere (R : PCB → Prop) (s : Sim) : Prop where
  listed : ∀ p ∈ s.list_process, R p
  ready : ∀ q ∈ s.ready_queue, R q
  waiting : ∀ e ∈ s.wait_queue, R e.1
  running : s.running.PID ≠ -1 → R s.running

/-- A property of records that only reads the fields fixed at load time. -/
def Static (R : PCB → Prop) : Prop :=
  ∀ p q : PCB, p.PID = q.PID → p.arrival_time = q.arrival_time →
    p.processing_time = q.processing_time → p.io_freq = q.io_freq →
    p.io_duration = q.io_duration → R p → R q

/-- Every `RUNNING -> READY` event of the log carries the `PID` of an input
process whose processing time is outside `1 .. RR_QUANTUM`. -/
def rr_long_demotions (input : List InputRecord) (s : Sim) : Prop :=
  ∀ e ∈ s.execution_status, e.old_state = States.RUNNING → e.new_state = States.READY →
    ∃ r ∈ input, r.PID = e.pid ∧
      ¬ (1 ≤ r.processing_time ∧ r.processing_time ≤ RR.RR_QUANTUM)

/-- The `PID`s of the `NEW -> READY` events of a log, in log order. -/
def admitted_pids (log : List Event) : List Int :=
  (log.filter (fun e => decide (e.old_state = States.NEW ∧
    e.new_state = States.READY))).map Event.pid

/-- The first event of a log that mentions a `PID` is a `NEW -> READY` event. -/
def first_mention_is_admission (log : List Event) : Prop :=
  ∀ pre e post, log = pre ++ e :: post → (∀ x ∈ pre, x.pid ≠ e.pid) →
    e.old_state = States.NEW ∧ e.new_state = States.READY

/-- The log starts every process with its `NEW -> READY` event, and every
record in a queue or in the running slot has already been mentioned. -/
structure Announced (s : Sim) : Prop where
  log : first_mention_is_admission s.execution_status
  ready : ∀ q ∈ s.ready_queue, q.PID ∈ s.execution_status.map Event.pid
  waiting : ∀ e ∈ s.wait_queue, e.1.PID ∈ s.execution_status.map Event.pid
  running : s.running.PID ≠ -1 → s.running.PID ∈ s.execution_status.map Event.pid

/-- The process `pid` is nowhere: not in the log, not in a queue, not in the
running slot. -/
structure Unseen (pid : Int) (s : Sim) : Prop where
  log : ∀ e ∈ s.execution_status, e.pid ≠ pid
  ready : ∀ q ∈ s.ready_queue, q.PID ≠ pid
  waiting : ∀ e ∈ s.wait_queue, e.1.PID ≠ pid
  running : s.running.PID ≠ -1 → s.running.PID ≠ pid

/-- Every `NEW -> READY` event carries the `PID` of an input process that had
arrived by then. -/
def admitted_after_arrival (input : List InputRecord) (log : List Event) : Prop :=
  ∀ e ∈ log, e.old_state = States.NEW → e.new_state = States.READY →
    ∃ r ∈ input, r.PID = e.pid ∧ r.arrival_time ≤ e.time

/-- Number of records of `l` with identifier `pid` still in state
`NOT_ASSIGNED`. -/
def pending_count (pid : Int) (l : List PCB) : Nat :=
  l.countP (fun p => decide (p.PID = pid ∧ p.state = States.NOT_ASSIGNED))

/-- For every `PID`, the `NEW -> READY` events logged so far and the records
still to admit together are no more than the input processes with that `PID`. -/
def Counted (input : List InputRecord) (s : Sim) : Prop :=
  ∀ pid, (admitted_pids s.execution_status).count pid + pending_count pid s.list_process ≤
    (input.map InputRecord.PID).count pid

/-- The block "arrivals at this tick", by engine. -/
def Engine.arrivals (mem : Nat → PCB → Bool) : Engine → Sim → Sim
  | Engine.rr => RR.arrivals mem
  | Engine.ep => arrivals_priority mem
  | Engine.ep_rr => arrivals_priority mem

/-- Every `NEW -> READY` event of `pid` carries the arrival time of an input
process with that `PID`. -/
def admitted_on_arrival (input : List InputRecord) (pid : Int) (log : List Event) : Prop :=
  ∀ e ∈ log, e.old_state = States.NEW → e.new_state = States.READY → e.pid = pid →
    ∃ r ∈ input, r.PID = pid ∧ e.time = r.arrival_time

/-- Admission visibility of a log: the first event that mentions a `PID` is a
`NEW -> READY` event; a `PID` has no more such events than input processes
(at most one when the `PID`s are pairwise distinct); each carries a timestamp at
or after the arrival of an input process with that `PID`, equal to it for a
process that the gateway never refuses; and a process that the gateway always
refuses is in no event. -/
def admission_visible (mem : Nat → PCB → Bool) (input : List InputRecord)
    (log : List Event) : Prop :=
  first_mention_is_admission log ∧
  (∀ pid, (admitted_pids log).count pid ≤ (input.map InputRecord.PID).count pid) ∧
  ((input.map InputRecord.PID).Nodup → (admitted_pids log).Nodup) ∧
  admitted_after_arrival input log ∧
  (∀ pid, (∀ k p, p.PID = pid → mem k p = true) → admitted_on_arrival input pid log) ∧
  (∀ pid, (∀ k p, p.PID = pid → mem k p = false) → ∀ e ∈ log, e.pid ≠ pid)

/-- Before its arrival tick a process has not been offered to the gateway: at
a tick boundary, a record whose (non-zero) arrival time is not before the clock
is still in state `NOT_ASSIGNED`. -/
def pending_until_arrival (s : Sim) : Prop :=
  ∀ p ∈ s.list_process, s.current_time ≤ p.arrival_time → p.arrival_time ≠ 0 →
    p.state = States.NOT_ASSIGNED

/-- At the site where a process is first offered to the gateway (the initial
loop for `arrival_time = 0`, the arrival loop of its arrival tick otherwise), a
successful call logs `NEW -> READY` with the arrival time as timestamp. -/
def first_attempt_stamps_arrival (mem : Nat → PCB → Bool) : Prop :=
  (∀ p s, p.arrival_time = 0 → mem s.mem_calls p = true →
    (RR.init_body mem p s).2.execution_status =
      s.execution_status ++ [⟨p.arrival_time, p.PID, States.NEW, States.READY⟩]) ∧
  (∀ p s, p.arrival_time = 0 → mem s.mem_calls p = true →
    (init_body_priority mem p s).2.execution_status =
      s.execution_status ++ [⟨p.arrival_time, p.PID, States.NEW, States.READY⟩]) ∧
  (∀ p s, p.arrival_time = s.current_time → p.arrival_time ≠ 0 →
    p.state = States.NOT_ASSIGNED → mem s.mem_calls p = true →
    (RR.arrival_body mem p s).2.execution_status =
      s.execution_status ++ [⟨p.arrival_time, p.PID, States.NEW, States.READY⟩]) ∧
  (∀ p s, p.arrival_time = s.current_time → p.arrival_time ≠ 0 →
    mem s.mem_calls p = true →
    (arrival_body_priority mem p s).2.execution_status =
      s.execution_status ++ [⟨p.arrival_time, p.PID, States.NEW, States.READY⟩])

/-- Scenario D: one process with an I/O request every 3 ms of CPU time. -/
def scenario_D : List InputRecord :=
  [⟨1, 0, 10, 3, 2⟩]

/-- A preemption by a process that requests I/O: PID 2 runs from time 0, PID 1
arrives at 5 and asks for I/O every 2 ms of CPU time, for 5 ms. -/
def scenario_io_preempted : List InputRecord :=
  [⟨2, 0, 20, 0, 0⟩, ⟨1, 5, 10, 2, 5⟩]

/-- The log of Scenario D as the claim gives it. -/
def scenario_D_claimed_log : List Event :=
  [⟨0, 1, States.NEW, States.READY⟩, ⟨0, 1, States.READY, States.RUNNING⟩,
   ⟨3, 1, States.RUNNING, States.WAITING⟩, ⟨5, 1, States.WAITING, States.READY⟩,
   ⟨5, 1, States.READY, States.RUNNING⟩, ⟨8, 1, States.RUNNING, States.WAITING⟩,
   ⟨10, 1, States.WAITING, States.READY⟩, ⟨10, 1, States.READY, States.RUNNING⟩,
   ⟨13, 1, States.RUNNING, States.TERMINATED⟩]

/-- The log of Scenario D as the code produces it. -/
def scenario_D_log : List Event :=
  [⟨0, 1, States.NEW, States.READY⟩, ⟨0, 1, States.READY, States.RUNNING⟩,
   ⟨3, 1, States.RUNNING, States.WAITING⟩, ⟨5, 1, States.WAITING, States.READY⟩,
   ⟨5, 1, States.READY, States.RUNNING⟩, ⟨8, 1, States.RUNNING, States.WAITING⟩,
   ⟨10, 1, States.WAITING, States.READY⟩, ⟨10, 1, States.READY, States.RUNNING⟩,
   ⟨13, 1, States.RUNNING, States.WAITING⟩, ⟨15, 1, States.WAITING, States.READY⟩,
   ⟨15, 1, States.READY, States.RUNNING⟩, ⟨16, 1, States.RUNNING, States.TERMINATED⟩]

/-- The log of Scenario A as the claim gives it. -/
def scenario_A_log : List Event :=
  [⟨0, 1, States.NEW, States.READY⟩, ⟨0, 1, States.READY, States.RUNNING⟩,
   ⟨5, 1, States.RUNNING, States.TERMINATED⟩]

/-- Number of records of `l` still in state `NOT_ASSIGNED`. -/
def unassigned_count (l : List PCB) : Nat :=
  l.countP (fun p => decide (p.state = States.NOT_ASSIGNED))

/-- Every process is counted at most once: as terminated, in the ready queue,
in the wait queue, in the running slot, or as not yet admitted. -/
def Accounted (total : Nat) (s : Sim) : Prop :=
  s.terminated_count + s.ready_queue.length + s.wait_queue.length +
    (if s.running.PID = -1 then 0 else 1) + unassigned_count s.list_process ≤ total

/-- The gateway that refuses the process `pid` at every call and admits every
other process. -/
def refuse (pid : Int) : Nat → PCB → Bool :=
  fun _ p => decide (p.PID ≠ pid)

/-- Between `base` and `s` the running slot is untouched and the ready queue
grew at its tail by one entry per event logged, with the same `PID`s in the same
order. -/
def entered (base s : Sim) : Prop :=
  s.running = base.running ∧
    ∃ evs added, s.execution_status = base.execution_status ++ evs ∧
      s.ready_queue = base.ready_queue ++ added ∧ evs.map Event.pid = added.map PCB.PID

/-- Two processes arriving together: PID 1 needs more than one quantum, PID 2
less. -/
def scenario_long_pair : List InputRecord :=
  [⟨1, 0, 150, 0, 0⟩, ⟨2, 0, 10, 0, 0⟩]

/-! ## The clock as a 32-bit unsigned value -/

/-- The statement `current_time++` on the `unsigned int` clock of the source:
after 4294967295 comes 0. -/
def advance32 (s : Sim) : Sim :=
  { s with current_time := (s.current_time + 1) % 4294967296 }

/-- The value `unsigned int transition_time = current_time + 1`. -/
def transition_time (s : Sim) : Nat :=
  (s.current_time + 1) % 4294967296

/-- The `RUNNING -> WAITING` branch of the execute block with 32-bit unsigned
`transition_time` and `completion_time`. -/
def block_on_io32 (r : PCB) (s : Sim) : Sim :=
  let p := { r with state := States.WAITING }
  { s with execution_status :=
             s.execution_status ++ [⟨transition_time s, r.PID, States.RUNNING, States.WAITING⟩],
           wait_queue := s.wait_queue ++ [(p, (transition_time s + r.io_duration) % 4294967296)],
           list_process := sync_all p s.list_process,
           job_list := sync_all p s.job_list,
           running := idle_CPU }

/-- The `RUNNING -> TERMINATED` branch of the execute block with 32-bit unsigned
`transition_time`. -/
def finish32 (r : PCB) (s : Sim) : Sim :=
  { s with execution_status :=
             s.execution_status ++ [⟨transition_time s, r.PID, States.RUNNING, States.TERMINATED⟩],
           job_list := (terminate_process r s.job_list).2,
           terminated_count := s.terminated_count + 1,
           running := idle_CPU }

/-- The quantum-expiry branch of the execute block with 32-bit unsigned
`transition_time`. -/
def quantum_expiry32 (r : PCB) (s : Sim) : Sim :=
  let p := { r with state := States.READY }
  { s with execution_status :=
             s.execution_status ++ [⟨transition_time s, r.PID, States.RUNNING, States.READY⟩],
           ready_queue := s.ready_queue ++ [p],
           list_process := sync_all p s.list_process,
           job_list := sync_all p s.job_list,
           running := idle_CPU }

/-- The block "execute 1 ms if running" with every time computed in 32-bit
unsigned arithmetic. -/
def execute32 (quantum : Option Nat) (s : Sim) : Sim :=
  if s.running.PID ≠ -1 then
    let s1 := run_one_ms s
    let r := s1.running
    if io_request r then block_on_io32 r s1
    else if r.remaining_time = 0 then finish32 r s1
    else
      match quantum with
      | none => s1
      | some q =>
        if (usub s1.current_time r.start_time + 1) % 4294967296 % q = 0 then
          quantum_expiry32 r s1
        else s1
  else s

/-- One iteration of the `while` loop of the non-preemptive priority engine,
with the clock as a 32-bit unsigned value. -/
def EP.tick32 (mem : Nat → PCB → Bool) (s : Sim) : Sim :=
  advance32 (execute32 none (EP.schedule mem s))

/-- State of the non-preemptive priority engine after `n` iterations of the
loop body, with the clock as a 32-bit unsigned value. -/
def EP.after32 (mem : Nat → PCB → Bool) (list_process : List PCB) (n : Nat) : Sim :=
  (EP.tick32 mem)^[n] (EP.init mem list_process)

/-- One process that arrives at time 5 and needs 5 ms. -/
def scenario_late : List InputRecord :=
  [⟨1, 5, 5, 0, 0⟩]

end Sched

/-! # Verification -/

namespace Sched

/-! ## Loops -/

theorem for_each_process_induct_split (body : PCB → Sim → PCB × Sim)
    (P : List PCB → List PCB → Sim → Prop)
    (hbody : ∀ done p todo s, s.list_process = done ++ p :: todo → P done (p :: todo) s →
      P (done ++ [(body p s).1]) todo
        { (body p s).2 with list_process := done ++ (body p s).1 :: todo }) :
    ∀ todo done s, s.list_process = done ++ todo → P done todo s →
      P (for_each_process body done todo s).list_process []
        (for_each_process body done todo s) := by
  intro todo
  induction todo with
  | nil =>
    intro done s hl h
    rw [List.append_nil] at hl
    simpa [for_each_process, hl] using h
  | cons p todo ih =>
    intro done s hl h
    rw [for_each_process]
    exact ih _ _ (by simp) (hbody done p todo s hl h)

theorem for_each_process_induct_todo (body : PCB → Sim → PCB × Sim) (P : List PCB → Sim → Prop)
    (hbody : ∀ done p todo s, s.list_process = done ++ p :: todo → P (p :: todo) s →
      P todo { (body p s).2 with list_process := done ++ (body p s).1 :: todo }) :
    ∀ todo done s, s.list_process = done ++ todo → P todo s →
      P [] (for_each_process body done todo s) :=
  for_each_process_induct_split body (fun _ todo s => P todo s) hbody

theorem for_each_process_induct (body : PCB → Sim → PCB × Sim) (P : Sim → Prop)
    (hbody : ∀ done p todo s, s.list_process = done ++ p :: todo → P s →
      P { (body p s).2 with list_process := done ++ (body p s).1 :: todo }) :
    ∀ todo done s, s.list_process = done ++ todo → P s →
      P (for_each_process body done todo s) :=
  for_each_process_induct_todo body (fun _ s => P s) hbody

theorem io_loop_induct (P : Sim → Prop)
    (hstep : ∀ kept e todo s, s.wait_queue = kept ++ e :: todo → e.2 = s.current_time → P s →
      P { s with execution_status := s.execution_status ++
                   [⟨s.current_time, e.1.PID, States.WAITING, States.READY⟩],
                 list_process := sync_all { e.1 with state := States.READY } s.list_process,
                 job_list := sync_all { e.1 with state := States.READY } s.job_list,
                 ready_queue := s.ready_queue ++ [{ e.1 with state := States.READY }],
                 wait_queue := kept ++ todo }) :
    ∀ todo kept s, s.wait_queue = kept ++ todo → P s → P (io_loop kept todo s) := by
  intro todo
  induction todo with
  | nil =>
    intro kept s _ h
    simpa [io_loop] using h
  | cons e todo ih =>
    intro kept s hw h
    rw [io_loop]
    split
    · rename_i hc
      exact ih _ _ rfl (hstep kept e todo s hw hc h)
    · exact ih _ _ (by simp [hw]) h

/-! ## The mirror list -/

theorem map_pid_sync_all (p : PCB) (l : List PCB) :
    (sync_all p l).map PCB.PID = l.map PCB.PID := by
  induction l with
  | nil => rfl
  | cons x xs ih =>
    simp only [sync_all, List.map_cons] at ih ⊢
    rw [ih]
    by_cases h : x.PID = p.PID <;> simp [h]

theorem pid_mem_ensure_job_self (p : PCB) (l : List PCB) :
    p.PID ∈ (ensure_job p l).map PCB.PID := by
  induction l with
  | nil => simp [ensure_job]
  | cons x xs ih =>
    by_cases h : x.PID = p.PID
    · simp [ensure_job, h]
    · simp only [ensure_job, h, if_false, List.map_cons, List.mem_cons]
      exact Or.inr ih

theorem pid_mem_ensure_job_of_mem (p : PCB) (l : List PCB) (x : Int)
    (hx : x ∈ l.map PCB.PID) : x ∈ (ensure_job p l).map PCB.PID := by
  induction l with
  | nil => simp at hx
  | cons y ys ih =>
    by_cases h : y.PID = p.PID
    · simp only [ensure_job, h, if_true, List.map_cons, List.mem_cons] at hx ⊢
      rcases hx with hx | hx
      · exact Or.inl hx
      · exact Or.inr hx
    · simp only [ensure_job, h, if_false, List.map_cons, List.mem_cons] at hx ⊢
      rcases hx with hx | hx
      · exact Or.inl hx
      · exact Or.inr (ih hx)

/-! ## Ordering of the ready queue -/

theorem perm_insert_desc (p : PCB) (l : List PCB) : (insert_desc p l).Perm (p :: l) := by
  induction l with
  | nil => simp [insert_desc]
  | cons q qs ih =>
    by_cases h : q.PID ≤ p.PID
    · simp [insert_desc, h]
    · simp only [insert_desc, h, if_false]
      exact (List.Perm.cons q ih).trans (List.Perm.swap p q qs)

theorem perm_sort_ready_by_priority (l : List PCB) : (sort_ready_by_priority l).Perm l := by
  induction l with
  | nil => simp [sort_ready_by_priority]
  | cons p ps ih =>
    simp only [sort_ready_by_priority]
    exact (perm_insert_desc p _).trans (List.Perm.cons p ih)

theorem mem_sort_ready_by_priority (l : List PCB) (x : PCB) :
    x ∈ sort_ready_by_priority l ↔ x ∈ l :=
  (perm_sort_ready_by_priority l).mem_iff

end Sched

namespace Sched

/-! ## The non-preemptive priority engine never fills the running slot -/

theorem EP.stuck_make_ready (now : Nat) (p : PCB) (s : Sim) (l : List PCB) (f : PCB → List PCB → List PCB)
    (hf : ∀ q jl, q.PID ∈ (f q jl).map PCB.PID ∧ ∀ x ∈ jl.map PCB.PID, x ∈ (f q jl).map PCB.PID)
    (h : EP.Stuck s) :
    EP.Stuck { (make_ready now p s).2 with
      job_list := f (make_ready now p s).1 (make_ready now p s).2.job_list, list_process := l } := by
  obtain ⟨h1, h2, h3, h4⟩ := h
  refine ⟨h1, h2, h3, ?_⟩
  intro q hq
  simp only [make_ready, List.mem_append, List.mem_singleton] at hq ⊢
  rcases hq with hq | hq
  · exact (hf _ _).2 _ (h4 q hq)
  · rw [hq]
    exact (hf _ _).1

theorem EP.stuck_skip (s : Sim) (l jl : List PCB) (k : Nat)
    (hjl : ∀ x ∈ s.job_list.map PCB.PID, x ∈ jl.map PCB.PID) (h : EP.Stuck s) :
    EP.Stuck { s with mem_calls := k, job_list := jl, list_process := l } := by
  obtain ⟨h1, h2, h3, h4⟩ := h
  exact ⟨h1, h2, h3, fun q hq => hjl _ (h4 q hq)⟩

theorem EP.stuck_list (s : Sim) (l : List PCB) (h : EP.Stuck s) :
    EP.Stuck { s with list_process := l } := by
  obtain ⟨h1, h2, h3, h4⟩ := h
  exact ⟨h1, h2, h3, h4⟩

theorem EP.stuck_init_body (mem : Nat → PCB → Bool) (done : List PCB) (p : PCB) (todo : List PCB)
    (s : Sim) (h : EP.Stuck s) :
    EP.Stuck { (init_body_priority mem p s).2 with
      list_process := done ++ (init_body_priority mem p s).1 :: todo } := by
  by_cases ha : p.arrival_time = 0
  · by_cases hm : mem s.mem_calls p = true
    · simp only [init_body_priority, if_pos ha, if_pos hm]
      exact EP.stuck_make_ready 0 p s _ (fun q jl => jl ++ [q])
        (fun q jl => ⟨by simp, fun x hx => by
          simp only [List.map_append, List.mem_append]
          exact Or.inl hx⟩) h
    · simp only [init_body_priority, if_pos ha, if_neg hm]
      exact EP.stuck_skip s _ _ _ (fun x hx => by
        simp only [List.map_append, List.mem_append]
        exact Or.inl hx) h
  · simp only [init_body_priority, if_neg ha]
    exact EP.stuck_list s _ h

theorem EP.stuck_arrival_body (mem : Nat → PCB → Bool) (done : List PCB) (p : PCB)
    (todo : List PCB) (s : Sim) (h : EP.Stuck s) :
    EP.Stuck { (arrival_body_priority mem p s).2 with
      list_process := done ++ (arrival_body_priority mem p s).1 :: todo } := by
  by_cases ha : p.arrival_time = s.current_time ∧ p.arrival_time ≠ 0
  · by_cases hm : mem s.mem_calls p = true
    · simp only [arrival_body_priority, if_pos ha, if_pos hm]
      exact EP.stuck_make_ready _ p s _ ensure_job
        (fun q jl => ⟨pid_mem_ensure_job_self q jl, pid_mem_ensure_job_of_mem q jl⟩) h
    · simp only [arrival_body_priority, if_pos ha, if_neg hm]
      exact EP.stuck_skip s _ _ _ (pid_mem_ensure_job_of_mem _ _) h
  · simp only [arrival_body_priority, if_neg ha]
    exact EP.stuck_list s _ h

theorem EP.stuck_pending_body (mem : Nat → PCB → Bool) (now : Nat) (done : List PCB) (p : PCB)
    (todo : List PCB) (s : Sim) (h : EP.Stuck s) :
    EP.Stuck { (pending_body mem now p s).2 with
      list_process := done ++ (pending_body mem now p s).1 :: todo } := by
  by_cases ha : p.arrival_time ≤ now ∧ p.state = States.NOT_ASSIGNED
  · by_cases hm : mem s.mem_calls p = true
    · simp only [pending_body, if_pos ha, if_pos hm]
      exact EP.stuck_make_ready _ p s _ ensure_job
        (fun q jl => ⟨pid_mem_ensure_job_self q jl, pid_mem_ensure_job_of_mem q jl⟩) h
    · simp only [pending_body, if_pos ha, if_neg hm]
      exact EP.stuck_skip s _ _ _ (fun x hx => hx) h
  · simp only [pending_body, if_neg ha]
    exact EP.stuck_list s _ h

theorem EP.stuck_init (mem : Nat → PCB → Bool) (l : List PCB) : EP.Stuck (EP.init mem l) := by
  unfold EP.init init_priority
  apply for_each_process_induct _ EP.Stuck
  · intro done p todo s _ h
    exact EP.stuck_init_body mem done p todo s h
  · simp [start]
  · simp [EP.Stuck, start]

theorem EP.stuck_intake (mem : Nat → PCB → Bool) (s : Sim) (h : EP.Stuck s) :
    EP.Stuck (intake_priority mem s) := by
  have h1 : EP.Stuck (arrivals_priority mem s) := by
    unfold arrivals_priority
    exact for_each_process_induct _ EP.Stuck
      (fun done p todo s _ h => EP.stuck_arrival_body mem done p todo s h) _ _ _ (by simp) h
  have h2 : EP.Stuck (try_assign_pending mem s.current_time (arrivals_priority mem s)) := by
    unfold try_assign_pending
    exact for_each_process_induct _ EP.Stuck
      (fun done p todo s _ h => EP.stuck_pending_body mem _ done p todo s h) _ _ _ (by simp) h1
  unfold intake_priority io_completions
  rw [h2.2.2.1]
  simpa [io_loop] using h2

theorem EP.sync_job_return_found (next : PCB) (jl : List PCB)
    (h : next.PID ∈ jl.map PCB.PID) : (EP.sync_job_return next jl).2 = true := by
  induction jl with
  | nil => simp at h
  | cons j js ih =>
    by_cases hj : j.PID = next.PID
    · simp [EP.sync_job_return, hj]
    · simp only [EP.sync_job_return, hj, if_false]
      simp only [List.map_cons, List.mem_cons] at h
      rcases h with h | h
      · exact absurd h.symm hj
      · exact ih h

theorem EP.map_pid_sync_job_return (next : PCB) (jl : List PCB) :
    (EP.sync_job_return next jl).1.map PCB.PID = jl.map PCB.PID := by
  induction jl with
  | nil => rfl
  | cons j js ih =>
    by_cases hj : j.PID = next.PID
    · simp [EP.sync_job_return, hj]
    · simp [EP.sync_job_return, hj, ih]

theorem EP.stuck_pick (s : Sim) (h : EP.Stuck s) : EP.Stuck (EP.pick_highest_priority s) := by
  obtain ⟨h1, h2, h3, h4⟩ := h
  unfold EP.pick_highest_priority
  split
  · exact ⟨h1, h2, h3, h4⟩
  · rename_i back rest hrev
    have hsorted : sort_ready_by_priority s.ready_queue = rest.reverse ++ [back] := by
      have := congrArg List.reverse hrev
      simpa using this
    have hmem : ∀ x, x ∈ rest.reverse ++ [back] → x ∈ s.ready_queue := by
      intro x hx
      rw [← hsorted] at hx
      exact (mem_sort_ready_by_priority _ _).1 hx
    have hback : back.PID ∈ s.job_list.map PCB.PID := h4 back (hmem back (by simp))
    have hfound := EP.sync_job_return_found
      { back with state := States.RUNNING, start_time := s.current_time } s.job_list hback
    simp only [hfound, if_true]
    refine ⟨h1, h2, h3, ?_⟩
    intro q hq
    simp only [EP.map_pid_sync_job_return]
    exact h4 q (hmem q (by simp at hq ⊢; exact Or.inl hq))

theorem EP.stuck_tick (mem : Nat → PCB → Bool) (s : Sim) (h : EP.Stuck s) :
    EP.Stuck (EP.tick mem s) := by
  have h1 := EP.stuck_intake mem s h
  have h2 : EP.Stuck (EP.schedule mem s) := by
    unfold EP.schedule EP.dispatch
    split
    · split
      · exact EP.stuck_pick _ h1
      · exact h1
    · exact h1
  have h3 : execute none (EP.schedule mem s) = EP.schedule mem s := by
    unfold execute
    rw [h2.1]
    simp [idle_CPU]
  unfold EP.tick
  rw [h3]
  obtain ⟨a, b, c, d⟩ := h2
  exact ⟨a, b, c, d⟩

theorem EP.stuck_after (mem : Nat → PCB → Bool) (l : List PCB) (n : Nat) :
    EP.Stuck (EP.after mem l n) := by
  unfold EP.after
  induction n with
  | zero => exact EP.stuck_init mem l
  | succ n ih =>
    rw [Function.iterate_succ_apply']
    exact EP.stuck_tick mem _ ih

theorem while_loop_none (tick : Sim → Sim) (total : Nat) (fuel : Nat) (s : Sim)
    (h : ∀ n, (tick^[n] s).terminated_count < total) : while_loop tick total fuel s = none := by
  induction fuel generalizing s with
  | zero => simpa [while_loop] using h 0
  | succ fuel ih =>
    have h0 := h 0
    simp only [Function.iterate_zero, id_eq] at h0
    simp only [while_loop, h0, if_true]
    apply ih
    intro n
    have := h (n + 1)
    rwa [Function.iterate_succ_apply] at this

/-- Whatever the input and the behaviour of the memory gateway, the loop of the
non-preemptive priority engine cannot exit once the input is not empty. -/
theorem EP.run_simulation_none (mem : Nat → PCB → Bool) (l : List PCB) (hl : l ≠ [])
    (fuel : Nat) : EP.run_simulation mem l fuel = none := by
  unfold EP.run_simulation
  apply while_loop_none
  intro n
  have h := (EP.stuck_after mem l n).2.1
  unfold EP.after at h
  rw [h]
  exact List.length_pos.2 hl

/-- With the running slot idle, both queues empty and every process already
admitted at time 0, an iteration of the non-preemptive priority engine only
advances the clock. -/
theorem ep_tick_quiescent (mem : Nat → PCB → Bool) (s : Sim) (hr : s.running.PID = -1)
    (hq : s.ready_queue = []) (hw : s.wait_queue = [])
    (hl : ∀ p ∈ s.list_process, p.arrival_time = 0 ∧ p.state ≠ States.NOT_ASSIGNED) :
    EP.tick mem s = advance s := by
  have hskip : ∀ (body : PCB → Sim → PCB × Sim),
      (∀ p ∈ s.list_process, body p s = (p, s)) →
      for_each_process body [] s.list_process s = s := by
    intro body hb
    have key : ∀ todo done, s.list_process = done ++ todo →
        for_each_process body done todo s = s := by
      intro todo
      induction todo with
      | nil =>
        intro done _
        rfl
      | cons p todo ih =>
        intro done hd
        have hp : p ∈ s.list_process := by rw [hd]; simp
        rw [for_each_process, hb p hp]
        have hs : ({ s with list_process := done ++ p :: todo } : Sim) = s := by
          rw [← hd]
        simp only [hs]
        exact ih _ (by rw [hd]; simp)
    exact key _ _ (by simp)
  have h1 : arrivals_priority mem s = s := by
    unfold arrivals_priority
    apply hskip
    intro p hp
    unfold arrival_body_priority
    rw [if_neg]
    intro h
    exact h.2 (hl p hp).1
  have h2 : try_assign_pending mem s.current_time s = s := by
    unfold try_assign_pending
    apply hskip
    intro p hp
    unfold pending_body
    rw [if_neg]
    intro h
    exact (hl p hp).2 h.2
  have h3 : io_completions s = s := by
    unfold io_completions
    rw [hw]
    rfl
  have h4 : execute none s = s := by
    unfold execute
    rw [if_neg (not_not.2 hr)]
  unfold EP.tick EP.schedule intake_priority
  rw [h1, h2, h3]
  unfold EP.dispatch
  rw [if_pos hr, if_neg (by rw [hq]; simp), h4]

/-- From a quiescent state on, the log of the non-preemptive priority engine
does not change any more. -/
theorem ep_log_quiescent (mem : Nat → PCB → Bool) (s : Sim) (hr : s.running.PID = -1)
    (hq : s.ready_queue = []) (hw : s.wait_queue = [])
    (hl : ∀ p ∈ s.list_process, p.arrival_time = 0 ∧ p.state ≠ States.NOT_ASSIGNED)
    (n : Nat) :
    ((EP.tick mem)^[n] s).execution_status = s.execution_status := by
  induction n generalizing s with
  | zero => rfl
  | succ n ih =>
    rw [Function.iterate_succ_apply, ep_tick_quiescent mem s hr hq hw hl]
    exact ih (advance s) hr hq hw hl

end Sched

namespace Sched

/-! ## Events appended by the blocks of the loop body -/

theorem appended_refl (Q : Event → Prop) (s : Sim) : appended Q s s :=
  ⟨[], by simp, by simp⟩

theorem appended_trans {Q : Event → Prop} {a b c : Sim} (h1 : appended Q a b)
    (h2 : appended Q b c) : appended Q a c := by
  obtain ⟨e1, he1, hq1⟩ := h1
  obtain ⟨e2, he2, hq2⟩ := h2
  refine ⟨e1 ++ e2, by rw [he2, he1, List.append_assoc], ?_⟩
  intro e he
  rcases List.mem_append.1 he with h | h
  · exact hq1 e h
  · exact hq2 e h

theorem appended_mono {Q R : Event → Prop} {a b : Sim} (h : appended Q a b)
    (hqr : ∀ e, Q e → R e) : appended R a b := by
  obtain ⟨e1, he1, hq1⟩ := h
  exact ⟨e1, he1, fun e he => hqr e (hq1 e he)⟩

theorem appended_of_log_eq {Q : Event → Prop} {a b c : Sim} (h : appended Q a b)
    (hc : c.execution_status = b.execution_status) : appended Q a c := by
  obtain ⟨e1, he1, hq1⟩ := h
  exact ⟨e1, by rw [hc, he1], hq1⟩

theorem appended_snoc {Q : Event → Prop} {a b c : Sim} (e : Event) (h : appended Q a b)
    (hc : c.execution_status = b.execution_status ++ [e]) (he : Q e) : appended Q a c := by
  obtain ⟨e1, he1, hq1⟩ := h
  refine ⟨e1 ++ [e], by rw [hc, he1, List.append_assoc], ?_⟩
  intro x hx
  rcases List.mem_append.1 hx with h | h
  · exact hq1 x h
  · rw [List.mem_singleton.1 h]
    exact he

theorem mem_new_events {Q : Event → Prop} {a b : Sim} (h : appended Q a b) (e : Event)
    (he : e ∈ new_events a b) : Q e := by
  obtain ⟨e1, he1, hq1⟩ := h
  unfold new_events at he
  rw [he1, List.drop_left] at he
  exact hq1 e he

theorem new_events_of_eq {a b : Sim} {evs : List Event}
    (h : b.execution_status = a.execution_status ++ evs) : new_events a b = evs := by
  unfold new_events
  rw [h, List.drop_left]

/-- Events written when a process enters the ready queue from outside the CPU. -/
theorem appended_pending_body (mem : Nat → PCB → Bool) (now : Nat) (base : Sim) (done : List PCB)
    (p : PCB) (todo : List PCB) (s : Sim)
    (h : appended (fun e => e.new_state = States.READY) base s) :
    appended (fun e => e.new_state = States.READY) base
      { (pending_body mem now p s).2 with
        list_process := done ++ (pending_body mem now p s).1 :: todo } := by
  by_cases ha : p.arrival_time ≤ now ∧ p.state = States.NOT_ASSIGNED
  · by_cases hm : mem s.mem_calls p = true
    · simp only [pending_body, if_pos ha, if_pos hm]
      exact appended_snoc _ h rfl rfl
    · simp only [pending_body, if_pos ha, if_neg hm]
      exact appended_of_log_eq h rfl
  · simp only [pending_body, if_neg ha]
    exact appended_of_log_eq h rfl

theorem appended_arrival_body_priority (mem : Nat → PCB → Bool) (base : Sim) (done : List PCB)
    (p : PCB) (todo : List PCB) (s : Sim)
    (h : appended (fun e => e.new_state = States.READY) base s) :
    appended (fun e => e.new_state = States.READY) base
      { (arrival_body_priority mem p s).2 with
        list_process := done ++ (arrival_body_priority mem p s).1 :: todo } := by
  by_cases ha : p.arrival_time = s.current_time ∧ p.arrival_time ≠ 0
  · by_cases hm : mem s.mem_calls p = true
    · simp only [arrival_body_priority, if_pos ha, if_pos hm]
      exact appended_snoc _ h rfl rfl
    · simp only [arrival_body_priority, if_pos ha, if_neg hm]
      exact appended_of_log_eq h rfl
  · simp only [arrival_body_priority, if_neg ha]
    exact appended_of_log_eq h rfl

theorem appended_try_assign_pending (mem : Nat → PCB → Bool) (now : Nat) (s : Sim) :
    appended (fun e => e.new_state = States.READY) s (try_assign_pending mem now s) := by
  unfold try_assign_pending
  exact for_each_process_induct _ (appended (fun e => e.new_state = States.READY) s)
    (fun done p todo s1 _ h => appended_pending_body mem now s done p todo s1 h) _ _ _
    (by simp) (appended_refl _ s)

theorem appended_io_completions (s : Sim) :
    appended (fun e => e.new_state = States.READY) s (io_completions s) := by
  unfold io_completions
  exact io_loop_induct (appended (fun e => e.new_state = States.READY) s)
    (fun kept e todo s1 _ _ h => appended_snoc _ h rfl rfl) _ _ _ (by simp) (appended_refl _ s)

theorem appended_intake_priority (mem : Nat → PCB → Bool) (s : Sim) :
    appended (fun e => e.new_state = States.READY) s (intake_priority mem s) := by
  have h1 : appended (fun e => e.new_state = States.READY) s (arrivals_priority mem s) := by
    unfold arrivals_priority
    exact for_each_process_induct _ (appended (fun e => e.new_state = States.READY) s)
      (fun done p todo s1 _ h => appended_arrival_body_priority mem s done p todo s1 h) _ _ _
      (by simp) (appended_refl _ s)
  unfold intake_priority
  exact appended_trans (appended_trans h1 (appended_try_assign_pending mem _ _))
    (appended_io_completions _)

theorem appended_execute (quantum : Option Nat) (s : Sim) :
    appended (fun e => e.old_state = States.RUNNING) s (execute quantum s) := by
  unfold execute
  split
  · simp only []
    split
    · exact ⟨_, rfl, by simp⟩
    · split
      · exact ⟨_, rfl, by simp⟩
      · split
        · exact ⟨[], by simp [run_one_ms], by simp⟩
        · split
          · exact ⟨_, rfl, by simp⟩
          · exact ⟨[], by simp [run_one_ms], by simp⟩
  · exact appended_refl _ s

/-! ## The ready queue in priority order -/

theorem sorted_insert_desc (p : PCB) (l : List PCB)
    (h : l.Pairwise (fun a b => b.PID ≤ a.PID)) :
    (insert_desc p l).Pairwise (fun a b => b.PID ≤ a.PID) := by
  induction l with
  | nil => simp [insert_desc]
  | cons q qs ih =>
    rw [List.pairwise_cons] at h
    by_cases hq : q.PID ≤ p.PID
    · simp only [insert_desc, if_pos hq]
      refine List.Pairwise.cons ?_ (List.Pairwise.cons h.1 h.2)
      intro x hx
      rcases List.mem_cons.1 hx with hx | hx
      · rw [hx]
        exact hq
      · exact le_trans (h.1 x hx) hq
    · simp only [insert_desc, if_neg hq]
      refine List.Pairwise.cons ?_ (ih h.2)
      intro x hx
      rcases List.mem_cons.1 ((perm_insert_desc p qs).mem_iff.1 hx) with hx | hx
      · rw [hx]
        exact le_of_lt (not_le.1 hq)
      · exact h.1 x hx

theorem sorted_sort_ready_by_priority (l : List PCB) :
    (sort_ready_by_priority l).Pairwise (fun a b => b.PID ≤ a.PID) := by
  induction l with
  | nil => simp [sort_ready_by_priority]
  | cons p ps ih => exact sorted_insert_desc p _ ih

/-- The entry at the back of the sorted queue has the smallest `PID` of the
queue. -/
theorem back_is_min (l : List PCB) (back : PCB) (rest : List PCB)
    (h : (sort_ready_by_priority l).reverse = back :: rest) : min_pid l back.PID := by
  have hsorted : sort_ready_by_priority l = rest.reverse ++ [back] := by
    have := congrArg List.reverse h
    simpa using this
  have hpw := sorted_sort_ready_by_priority l
  rw [hsorted, List.pairwise_append] at hpw
  constructor
  · apply List.mem_map.2
    exact ⟨back, (mem_sort_ready_by_priority l back).1 (by rw [hsorted]; simp), rfl⟩
  · intro q hq
    have hq2 : q ∈ rest.reverse ++ [back] := by
      rw [← hsorted]
      exact (mem_sort_ready_by_priority l q).2 hq
    rcases List.mem_append.1 hq2 with hq3 | hq3
    · exact hpw.2.2 q hq3 back (by simp)
    · rw [List.mem_singleton.1 hq3]

theorem min_pid_sorted (l : List PCB) (m : Int) :
    min_pid (sort_ready_by_priority l) m ↔ min_pid l m := by
  unfold min_pid
  constructor
  · rintro ⟨h1, h2⟩
    refine ⟨?_, fun q hq => h2 q ((mem_sort_ready_by_priority l q).2 hq)⟩
    obtain ⟨x, hx, hxm⟩ := List.mem_map.1 h1
    exact List.mem_map.2 ⟨x, (mem_sort_ready_by_priority l x).1 hx, hxm⟩
  · rintro ⟨h1, h2⟩
    refine ⟨?_, fun q hq => h2 q ((mem_sort_ready_by_priority l q).1 hq)⟩
    obtain ⟨x, hx, hxm⟩ := List.mem_map.1 h1
    exact List.mem_map.2 ⟨x, (mem_sort_ready_by_priority l x).2 hx, hxm⟩

/-! ## Dispatch decisions of the priority engines -/

theorem ep_appended_dispatch (s : Sim) :
    appended (fun e => is_dispatch e → min_pid s.ready_queue e.pid) s (EP.dispatch s) := by
  unfold EP.dispatch
  split
  · split
    · unfold EP.pick_highest_priority
      split
      · exact appended_refl _ s
      · rename_i back rest hrev
        have hmin := back_is_min s.ready_queue back rest hrev
        simp only []
        split
        · exact ⟨_, rfl, by simpa using hmin⟩
        · exact ⟨_, rfl, by simpa using hmin⟩
    · exact appended_refl _ s
  · exact appended_refl _ s

theorem ep_rr_appended_dispatch (s : Sim) :
    appended (fun e => is_dispatch e → min_pid s.ready_queue e.pid) s (EP_RR.dispatch s) := by
  unfold EP_RR.dispatch
  split
  · split
    · exact appended_refl _ s
    · rename_i back rest hrev
      have hmin := back_is_min s.ready_queue back rest hrev
      exact ⟨_, rfl, by simpa using hmin⟩
  · exact appended_refl _ s

theorem EP_RR.appended_preempt (s : Sim) :
    appended (fun e => is_dispatch e → min_pid s.ready_queue e.pid) s
      (EP_RR.preempt (EP_RR.sort_ready s)) := by
  unfold EP_RR.preempt
  split
  · split
    · exact ⟨[], by simp [EP_RR.sort_ready], by simp⟩
    · rename_i top rest hrev
      have hmin := back_is_min s.ready_queue top rest hrev
      split
      · refine ⟨_, rfl, ?_⟩
        intro e he hd
        simp only [List.mem_cons, List.mem_singleton, List.not_mem_nil, or_false] at he
        rcases he with he | he
        · rw [he] at hd
          exact absurd hd.1 (by simp)
        · rw [he]
          exact hmin
      · exact ⟨[], by simp [EP_RR.sort_ready], by simp⟩
  · exact ⟨[], by simp [EP_RR.sort_ready], by simp⟩

theorem ep_appended_tick (mem : Nat → PCB → Bool) (s : Sim) :
    appended (fun e => is_dispatch e → min_pid (intake_priority mem s).ready_queue e.pid) s
      (EP.tick mem s) := by
  have h1 := appended_mono (appended_intake_priority mem s)
    (R := fun e => is_dispatch e → min_pid (intake_priority mem s).ready_queue e.pid)
    (fun e he hd => absurd (he.symm.trans hd.2) (by decide))
  have h2 := ep_appended_dispatch (intake_priority mem s)
  have h3 := appended_mono (appended_execute none (EP.schedule mem s))
    (R := fun e => is_dispatch e → min_pid (intake_priority mem s).ready_queue e.pid)
    (fun e he hd => absurd (he.symm.trans hd.1) (by decide))
  exact appended_of_log_eq (appended_trans (appended_trans h1 h2) h3) rfl

theorem ep_rr_appended_tick (mem : Nat → PCB → Bool) (s : Sim) :
    appended (fun e => is_dispatch e → (min_pid (intake_priority mem s).ready_queue e.pid ∨
        min_pid (EP_RR.preempt (EP_RR.sort_ready (intake_priority mem s))).ready_queue e.pid)) s
      (EP_RR.tick mem s) := by
  have h1 := appended_mono (appended_intake_priority mem s)
    (R := fun e => is_dispatch e → (min_pid (intake_priority mem s).ready_queue e.pid ∨
        min_pid (EP_RR.preempt (EP_RR.sort_ready (intake_priority mem s))).ready_queue e.pid))
    (fun e he hd => absurd (he.symm.trans hd.2) (by decide))
  have h2 := appended_mono (EP_RR.appended_preempt (intake_priority mem s))
    (R := fun e => is_dispatch e → (min_pid (intake_priority mem s).ready_queue e.pid ∨
        min_pid (EP_RR.preempt (EP_RR.sort_ready (intake_priority mem s))).ready_queue e.pid))
    (fun e he hd => Or.inl (he hd))
  have h3 := appended_mono
    (ep_rr_appended_dispatch (EP_RR.preempt (EP_RR.sort_ready (intake_priority mem s))))
    (R := fun e => is_dispatch e → (min_pid (intake_priority mem s).ready_queue e.pid ∨
        min_pid (EP_RR.preempt (EP_RR.sort_ready (intake_priority mem s))).ready_queue e.pid))
    (fun e he hd => Or.inr (he hd))
  have h4 := appended_mono (appended_execute (some EP_RR.RR_ER_QUANTUM) (EP_RR.schedule mem s))
    (R := fun e => is_dispatch e → (min_pid (intake_priority mem s).ready_queue e.pid ∨
        min_pid (EP_RR.preempt (EP_RR.sort_ready (intake_priority mem s))).ready_queue e.pid))
    (fun e he hd => absurd (he.symm.trans hd.1) (by decide))
  exact appended_of_log_eq (appended_trans (appended_trans (appended_trans h1 h2) h3) h4) rfl

theorem min_pid_unique (l : List PCB) (m n : Int) (hm : min_pid l m) (hn : min_pid l n) :
    m = n := by
  obtain ⟨x, hx, hxm⟩ := List.mem_map.1 hm.1
  obtain ⟨y, hy, hyn⟩ := List.mem_map.1 hn.1
  have h1 := hm.2 y hy
  have h2 := hn.2 x hx
  rw [hxm] at h2
  rw [hyn] at h1
  exact le_antisymm h1 h2

/-- The preemption block fires exactly when the smallest ready `PID` is below
the one of the running process, and then logs the demotion and the dispatch. -/
theorem EP_RR.preempt_fires (s : Sim) (m : Int) (hrun : s.running.PID ≠ -1)
    (hlt : ∃ q ∈ s.ready_queue, q.PID < s.running.PID) (hm : min_pid s.ready_queue m) :
    (EP_RR.preempt (EP_RR.sort_ready s)).execution_status = s.execution_status ++
        [⟨s.current_time, s.running.PID, States.RUNNING, States.READY⟩,
         ⟨s.current_time, m, States.READY, States.RUNNING⟩] ∧
      (EP_RR.preempt (EP_RR.sort_ready s)).running.PID = m := by
  obtain ⟨q, hq, hqlt⟩ := hlt
  unfold EP_RR.preempt
  rw [if_pos (by simpa [EP_RR.sort_ready] using hrun)]
  split
  · rename_i hrev
    have hnil : sort_ready_by_priority s.ready_queue = [] := by
      simpa [EP_RR.sort_ready] using hrev
    have := (mem_sort_ready_by_priority s.ready_queue q).2 hq
    rw [hnil] at this
    simp at this
  · rename_i top rest hrev
    have hmin := back_is_min s.ready_queue top rest hrev
    have htop : top.PID = m := min_pid_unique _ _ _ hmin hm
    have hlt2 : top.PID < s.running.PID := lt_of_le_of_lt (hmin.2 q hq) hqlt
    rw [if_pos (by simpa [EP_RR.sort_ready] using hlt2)]
    simp [EP_RR.sort_ready, htop]

theorem EP_RR.preempt_quiet (s : Sim) (h : ¬ ∃ q ∈ s.ready_queue, q.PID < s.running.PID) :
    EP_RR.preempt (EP_RR.sort_ready s) = EP_RR.sort_ready s := by
  unfold EP_RR.preempt
  split
  · split
    · rfl
    · rename_i top rest hrev
      have hmin := back_is_min s.ready_queue top rest hrev
      obtain ⟨x, hx, hxm⟩ := List.mem_map.1 hmin.1
      rw [if_neg]
      intro hlt
      apply h
      refine ⟨x, hx, ?_⟩
      rw [hxm]
      simpa [EP_RR.sort_ready] using hlt
  · rfl

theorem EP_RR.dispatch_of_busy (s : Sim) (h : s.running.PID ≠ -1) : EP_RR.dispatch s = s := by
  unfold EP_RR.dispatch
  rw [if_neg h]

end Sched

namespace Sched

/-! ## Records, lists of records and `sync_all` -/

theorem eq_of_pid_eq {l : List PCB} (hn : (l.map PCB.PID).Nodup) {x y : PCB} (hx : x ∈ l)
    (hy : y ∈ l) (h : x.PID = y.PID) : x = y :=
  List.inj_on_of_nodup_map hn hx hy h

theorem mem_sync_all_self {l : List PCB} {o q : PCB} (ho : o ∈ l) (hq : q.PID = o.PID) :
    q ∈ sync_all q l := by
  unfold sync_all
  exact List.mem_map.2 ⟨o, ho, by rw [if_pos hq.symm]⟩

theorem mem_sync_all_of_ne {l : List PCB} {q x : PCB} (hx : x ∈ l) (hne : x.PID ≠ q.PID) :
    x ∈ sync_all q l := by
  unfold sync_all
  exact List.mem_map.2 ⟨x, hx, by rw [if_neg hne]⟩

theorem mem_sync_all_cases {l : List PCB} {q x : PCB} (hx : x ∈ sync_all q l) :
    x = q ∨ (x ∈ l ∧ x.PID ≠ q.PID) := by
  unfold sync_all at hx
  obtain ⟨y, hy, hyx⟩ := List.mem_map.1 hx
  by_cases h : y.PID = q.PID
  · rw [if_pos h] at hyx
    exact Or.inl hyx.symm
  · rw [if_neg h] at hyx
    rw [← hyx]
    exact Or.inr ⟨hy, h⟩

theorem pid_ne_of_ne {l : List PCB} (hn : (l.map PCB.PID).Nodup) {x y : PCB} (hx : x ∈ l)
    (hy : y ∈ l) (h : x ≠ y) : x.PID ≠ y.PID :=
  fun hp => h (eq_of_pid_eq hn hx hy hp)

/-- Replacing one record in place is the same as synchronising by `PID` when the
identifiers are pairwise distinct. -/
theorem replace_eq_sync_all (done : List PCB) (p q : PCB) (todo : List PCB)
    (hn : ((done ++ p :: todo).map PCB.PID).Nodup) (hq : q.PID = p.PID) :
    done ++ q :: todo = sync_all q (done ++ p :: todo) := by
  have hp : p ∈ done ++ p :: todo := by simp
  have hfix : ∀ l : List PCB, (∀ x ∈ l, x ∈ done ++ p :: todo ∧ x ≠ p) → sync_all q l = l := by
    intro l hl
    unfold sync_all
    conv_rhs => rw [← List.map_id l]
    apply List.map_congr_left
    intro x hx
    rw [id, if_neg]
    rw [hq]
    exact pid_ne_of_ne hn (hl x hx).1 hp (hl x hx).2
  have hnd : (done ++ p :: todo).Nodup := List.Nodup.of_map _ hn
  rw [List.nodup_append] at hnd
  obtain ⟨_, hnd2, hdisj⟩ := hnd
  rw [List.nodup_cons] at hnd2
  have h1 : sync_all q done = done := by
    apply hfix
    intro x hx
    refine ⟨by simp [hx], ?_⟩
    intro hxp
    exact hdisj hx (by rw [hxp]; simp)
  have h2 : sync_all q todo = todo := by
    apply hfix
    intro x hx
    refine ⟨by simp [hx], ?_⟩
    intro hxp
    exact hnd2.1 (by rw [← hxp]; exact hx)
  have h3 : sync_all q (done ++ p :: todo) = sync_all q done ++ q :: sync_all q todo := by
    simp [sync_all, hq]
  rw [h3, h1, h2]

/-! ## The admission sites of the Round-Robin engine -/

theorem set_not_assigned (p : PCB) (h : p.state = States.NOT_ASSIGNED) :
    { p with state := States.NOT_ASSIGNED } = p := by
  cases p
  simp only [PCB.mk.injEq, true_and] at h ⊢
  simp_all

/-- What an admission site does to the current record and to the state: nothing
that the bookkeeping sees, or the admission of a record in state
`NOT_ASSIGNED`. -/
theorem rr_arrival_body_cases (mem : Nat → PCB → Bool) (p : PCB) (s : Sim) :
    (∃ jl k, RR.arrival_body mem p s = (p, { s with job_list := jl, mem_calls := k }) ∧
      (mem s.mem_calls p = true →
        ¬ (p.arrival_time = s.current_time ∧ p.arrival_time ≠ 0 ∧
          p.state = States.NOT_ASSIGNED))) ∨
    (p.state = States.NOT_ASSIGNED ∧ ∃ jl,
      RR.arrival_body mem p s = ({ p with state := States.READY },
        { s with ready_queue := s.ready_queue ++ [{ p with state := States.READY }],
                 execution_status := s.execution_status ++
                   [⟨s.current_time, p.PID, States.NEW, States.READY⟩],
                 job_list := jl, mem_calls := s.mem_calls + 1 })) := by
  by_cases ha : p.arrival_time = s.current_time ∧ p.arrival_time ≠ 0
  · by_cases hs : p.state = States.NOT_ASSIGNED
    · by_cases hm : mem s.mem_calls p = true
      · right
        refine ⟨hs, ensure_job { p with state := States.READY } s.job_list, ?_⟩
        simp only [RR.arrival_body, if_pos ha, if_pos hs, if_pos hm, make_ready]
      · left
        refine ⟨ensure_job p s.job_list, s.mem_calls + 1, ?_, fun h => absurd h hm⟩
        simp only [RR.arrival_body, if_pos ha, if_pos hs, if_neg hm, set_not_assigned p hs]
    · left
      refine ⟨s.job_list, s.mem_calls, ?_, fun _ h => hs h.2.2⟩
      simp only [RR.arrival_body, if_pos ha, if_neg hs]
  · left
    refine ⟨s.job_list, s.mem_calls, ?_, fun _ h => ha ⟨h.1, h.2.1⟩⟩
    simp only [RR.arrival_body, if_neg ha]

theorem pending_body_cases (mem : Nat → PCB → Bool) (now : Nat) (p : PCB) (s : Sim) :
    (∃ jl k, pending_body mem now p s = (p, { s with job_list := jl, mem_calls := k }) ∧
      (mem s.mem_calls p = true →
        ¬ (p.arrival_time ≤ now ∧ p.state = States.NOT_ASSIGNED))) ∨
    (p.state = States.NOT_ASSIGNED ∧ ∃ jl,
      pending_body mem now p s = ({ p with state := States.READY },
        { s with ready_queue := s.ready_queue ++ [{ p with state := States.READY }],
                 execution_status := s.execution_status ++
                   [⟨now, p.PID, States.NEW, States.READY⟩],
                 job_list := jl, mem_calls := s.mem_calls + 1 })) := by
  by_cases ha : p.arrival_time ≤ now ∧ p.state = States.NOT_ASSIGNED
  · by_cases hm : mem s.mem_calls p = true
    · right
      refine ⟨ha.2, ensure_job { p with state := States.READY } s.job_list, ?_⟩
      simp only [pending_body, if_pos ha, if_pos hm, make_ready]
    · left
      refine ⟨s.job_list, s.mem_calls + 1, ?_, fun h => absurd h hm⟩
      simp only [pending_body, if_pos ha, if_neg hm]
  · left
    refine ⟨s.job_list, s.mem_calls, ?_, fun _ h => ha h⟩
    simp only [pending_body, if_neg ha]

/-- Induction over an admission loop: a property that ignores `job_list` and
`mem_calls` and survives every admission holds after the loop. -/
theorem admission_loop_induct (body : PCB → Sim → PCB × Sim) (P : Sim → Prop)
    (hcases : ∀ p s, (∃ jl k, body p s = (p, { s with job_list := jl, mem_calls := k })) ∨
      (p.state = States.NOT_ASSIGNED ∧ ∃ jl tm,
        body p s = ({ p with state := States.READY },
          { s with ready_queue := s.ready_queue ++ [{ p with state := States.READY }],
                   execution_status := s.execution_status ++
                     [⟨tm, p.PID, States.NEW, States.READY⟩],
                   job_list := jl, mem_calls := s.mem_calls + 1 })))
    (hskip : ∀ s jl k, P s → P { s with job_list := jl, mem_calls := k })
    (hadm : ∀ done p todo s tm, s.list_process = done ++ p :: todo →
      p.state = States.NOT_ASSIGNED → P s →
      P { s with list_process := done ++ { p with state := States.READY } :: todo,
                 ready_queue := s.ready_queue ++ [{ p with state := States.READY }],
                 execution_status := s.execution_status ++
                   [⟨tm, p.PID, States.NEW, States.READY⟩] })
    (s : Sim) (h : P s) : P (for_each_process body [] s.list_process s) := by
  apply for_each_process_induct body P _ _ _ _ (by simp) h
  intro done p todo s1 hl h1
  rcases hcases p s1 with ⟨jl, k, hb⟩ | ⟨hs, jl, tm, hb⟩
  · rw [hb]
    have := hskip s1 jl k h1
    have hl2 : done ++ p :: todo = s1.list_process := hl.symm
    simpa [hl2] using this
  · rw [hb]
    have := hskip _ jl (s1.mem_calls + 1) (hadm done p todo s1 tm hl hs h1)
    simpa using this

end Sched

namespace Sched

/-! ## The log and the terminated processes -/

theorem terminated_pids_append_other (log : List Event) (e : Event)
    (he : e.new_state ≠ States.TERMINATED) :
    terminated_pids (log ++ [e]) = terminated_pids log := by
  simp [terminated_pids, List.filter_append, List.filter_cons, he]

theorem terminated_pids_append_term (log : List Event) (t : Nat) (pid : Int) :
    terminated_pids (log ++ [⟨t, pid, States.RUNNING, States.TERMINATED⟩]) =
      terminated_pids log ++ [pid] := by
  simp [terminated_pids, List.filter_append, List.filter_cons]

/-! ## Moving one process between the places of the Round-Robin engine -/

/-- The general step of the bookkeeping: the record `o` of `list_process` is
replaced by `q` (same `PID`), `q` sits in the place named by its state, the other
processes stay where they are, and no termination is logged. -/
theorem rr_relocate (s t : Sim) (o q : PCB) (h : RR.Coherent s)
    (ho : o ∈ s.list_process) (hq : q.PID = o.PID)
    (hqs : q.state = States.READY ∨ q.state = States.WAITING ∨ q.state = States.RUNNING)
    (hoT : o.state ≠ States.RUNNING ∨ o.PID = s.running.PID)
    (hl : t.list_process = sync_all q s.list_process)
    (hready : ∀ x, x ∈ t.ready_queue ↔
      (x ∈ s.ready_queue ∧ x ≠ o) ∨ (x = q ∧ q.state = States.READY))
    (hrn : t.ready_queue.Nodup)
    (hwait : ∀ x, x ∈ t.wait_queue.map Prod.fst ↔
      (x ∈ s.wait_queue.map Prod.fst ∧ x ≠ o) ∨ (x = q ∧ q.state = States.WAITING))
    (hwn : (t.wait_queue.map Prod.fst).Nodup)
    (hrun : t.running.PID ≠ -1 →
      (t.running = q ∧ q.state = States.RUNNING) ∨ (t.running = s.running ∧ s.running ≠ o))
    (hrunq : q.state = States.RUNNING → t.running.PID = q.PID)
    (hA : t.running.PID = s.running.PID ∨ t.running.PID = o.PID ∨ t.running.PID = -1)
    (hB : s.running.PID = t.running.PID ∨ s.running.PID = o.PID ∨ s.running.PID = -1)
    (hlog : terminated_pids t.execution_status = terminated_pids s.execution_status)
    (hcount : t.terminated_count = s.terminated_count) : RR.Coherent t := by
  have hkeep : ∀ x, x ∈ s.list_process → x ≠ o → x ∈ t.list_process := by
    intro x hx hne
    rw [hl]
    apply mem_sync_all_of_ne hx
    rw [hq]
    exact pid_ne_of_ne h.nodup hx ho hne
  have hqmem : q ∈ t.list_process := by
    rw [hl]
    exact mem_sync_all_self ho hq
  have hcases : ∀ x, x ∈ t.list_process → x = q ∨ (x ∈ s.list_process ∧ x.PID ≠ o.PID) := by
    intro x hx
    rw [hl] at hx
    rcases mem_sync_all_cases hx with hx | hx
    · exact Or.inl hx
    · rw [hq] at hx
      exact Or.inr hx
  have hne_of_pid : ∀ x : PCB, x.PID ≠ o.PID → x ≠ o := fun x hx hxo => hx (by rw [hxo])
  constructor
  · rw [hl, map_pid_sync_all]
    exact h.nodup
  · intro x hx
    rcases (hready x).1 hx with ⟨hx1, hx2⟩ | ⟨hx1, hx2⟩
    · exact ⟨hkeep x (h.ready_mem x hx1).1 hx2, (h.ready_mem x hx1).2⟩
    · rw [hx1]
      exact ⟨hqmem, hx2⟩
  · intro x hx
    rcases (hwait x).1 hx with ⟨hx1, hx2⟩ | ⟨hx1, hx2⟩
    · exact ⟨hkeep x (h.wait_mem x hx1).1 hx2, (h.wait_mem x hx1).2⟩
    · rw [hx1]
      exact ⟨hqmem, hx2⟩
  · intro hr
    rcases hrun hr with ⟨h1, h2⟩ | ⟨h1, h2⟩
    · rw [h1]
      exact ⟨hqmem, h2⟩
    · rw [h1] at hr ⊢
      exact ⟨hkeep _ (h.run_mem hr).1 h2, (h.run_mem hr).2⟩
  · exact hrn
  · exact hwn
  · intro x hx hxs
    rcases hcases x hx with hxq | ⟨hx1, hx2⟩
    · exact (hready x).2 (Or.inr ⟨hxq, by rw [← hxq]; exact hxs⟩)
    · exact (hready x).2 (Or.inl ⟨h.ready_all x hx1 hxs, hne_of_pid x hx2⟩)
  · intro x hx hxs
    rcases hcases x hx with hxq | ⟨hx1, hx2⟩
    · exact (hwait x).2 (Or.inr ⟨hxq, by rw [← hxq]; exact hxs⟩)
    · exact (hwait x).2 (Or.inl ⟨h.wait_all x hx1 hxs, hne_of_pid x hx2⟩)
  · intro x hx
    rcases hcases x hx with hxq | ⟨hx1, _⟩
    · rw [hxq]
      exact Or.inr hqs
    · exact h.states x hx1
  · intro x hx hxT
    rw [hlog] at hxT
    rcases hcases x hx with hxq | ⟨hx1, hx2⟩
    · rw [hxq, hq] at hxT
      have := h.term_imp o ho hxT
      rcases hoT with hoT | hoT
      · exact absurd this.1 hoT
      · exact absurd hoT this.2
    · have := h.term_imp x hx1 hxT
      refine ⟨this.1, ?_⟩
      rcases hA with hA | hA | hA
      · rw [hA]
        exact this.2
      · rw [hA]
        exact hx2
      · rw [hA]
        intro hx3
        rw [hx3] at hxT
        exact h.term_sentinel hxT
  · rw [hlog]
    exact h.term_sentinel
  · intro x hx hx1 hxs hxr
    rw [hlog]
    rcases hcases x hx with hxq | ⟨hx2, hx3⟩
    · rw [hxq] at hxs hxr
      exact absurd (hrunq hxs).symm hxr
    · apply h.done_imp x hx2 hx1 hxs
      rcases hB with hB | hB | hB
      · rw [hB]
        exact hxr
      · rw [hB]
        exact hx3
      · rw [hB]
        exact hx1
  · rw [hlog]
    exact h.term_nodup
  · intro pid hpid
    rw [hlog] at hpid
    rw [hl, map_pid_sync_all]
    exact h.term_sub pid hpid
  · rw [hcount, hlog]
    exact h.count

/-- Fields that the bookkeeping does not read. -/
theorem rr_coherent_congr (s t : Sim) (h : RR.Coherent s)
    (h1 : t.list_process = s.list_process) (h2 : t.ready_queue = s.ready_queue)
    (h3 : t.wait_queue = s.wait_queue) (h4 : t.running = s.running)
    (h5 : t.execution_status = s.execution_status)
    (h6 : t.terminated_count = s.terminated_count) : RR.Coherent t := by
  constructor
  · rw [h1]; exact h.nodup
  · rw [h1, h2]; exact h.ready_mem
  · rw [h1, h3]; exact h.wait_mem
  · rw [h1, h4]; exact h.run_mem
  · rw [h2]; exact h.ready_nodup
  · rw [h3]; exact h.wait_nodup
  · rw [h1, h2]; exact h.ready_all
  · rw [h1, h3]; exact h.wait_all
  · rw [h1]; exact h.states
  · rw [h1, h4, h5]; exact h.term_imp
  · rw [h5]; exact h.term_sentinel
  · rw [h1, h4, h5]; exact h.done_imp
  · rw [h5]; exact h.term_nodup
  · rw [h1, h5]; exact h.term_sub
  · rw [h5, h6]; exact h.count

/-- A queue that does not hold the moved process and is left alone. -/
theorem queue_untouched {Q : List PCB} {o q : PCB} {tag : States} (ho : o ∉ Q)
    (hq : q.state ≠ tag) (x : PCB) :
    x ∈ Q ↔ (x ∈ Q ∧ x ≠ o) ∨ (x = q ∧ q.state = tag) := by
  constructor
  · intro hx
    exact Or.inl ⟨hx, fun hxo => ho (hxo ▸ hx)⟩
  · rintro (⟨hx, _⟩ | ⟨_, hx⟩)
    · exact hx
    · exact absurd hx hq

/-- A queue that does not hold the moved process and receives its new record at
the back. -/
theorem queue_pushed {Q : List PCB} {o q : PCB} {tag : States} (ho : o ∉ Q)
    (hq : q.state = tag) (x : PCB) :
    x ∈ Q ++ [q] ↔ (x ∈ Q ∧ x ≠ o) ∨ (x = q ∧ q.state = tag) := by
  rw [List.mem_append, List.mem_singleton]
  constructor
  · rintro (hx | hx)
    · exact Or.inl ⟨hx, fun hxo => ho (hxo ▸ hx)⟩
    · exact Or.inr ⟨hx, hq⟩
  · rintro (⟨hx, _⟩ | ⟨hx, _⟩)
    · exact Or.inl hx
    · exact Or.inr hx

/-- A duplicate-free queue from which the moved process is taken out. -/
theorem queue_removed {A B : List PCB} {o q : PCB} {tag : States}
    (hn : (A ++ o :: B).Nodup) (hq : q.state ≠ tag) (x : PCB) :
    x ∈ A ++ B ↔ (x ∈ A ++ o :: B ∧ x ≠ o) ∨ (x = q ∧ q.state = tag) := by
  have ho : o ∉ A ++ B := by
    rw [List.nodup_append] at hn
    obtain ⟨_, h2, h3⟩ := hn
    rw [List.nodup_cons] at h2
    intro hmem
    rcases List.mem_append.1 hmem with hmem | hmem
    · exact h3 hmem (by simp)
    · exact h2.1 hmem
  constructor
  · intro hx
    refine Or.inl ⟨?_, fun hxo => ho (hxo ▸ hx)⟩
    rcases List.mem_append.1 hx with hx | hx
    · exact List.mem_append.2 (Or.inl hx)
    · exact List.mem_append.2 (Or.inr (List.mem_cons_of_mem _ hx))
  · rintro (⟨hx, hxo⟩ | ⟨_, hx⟩)
    · rcases List.mem_append.1 hx with hx | hx
      · exact List.mem_append.2 (Or.inl hx)
      · rcases List.mem_cons.1 hx with hx | hx
        · exact absurd hx hxo
        · exact List.mem_append.2 (Or.inr hx)
    · exact absurd hx hq

theorem not_mem_ready_of_state {s : Sim} (h : RR.Coherent s) {o : PCB}
    (ho : o.state ≠ States.READY) : o ∉ s.ready_queue :=
  fun hmem => ho (h.ready_mem o hmem).2

theorem not_mem_wait_of_state {s : Sim} (h : RR.Coherent s) {o : PCB}
    (ho : o.state ≠ States.WAITING) : o ∉ s.wait_queue.map Prod.fst :=
  fun hmem => ho (h.wait_mem o hmem).2

end Sched

namespace Sched

/-! ## The blocks of the Round-Robin loop keep the bookkeeping coherent -/

theorem rr_coherent_admission (s : Sim) (done : List PCB) (p : PCB) (todo : List PCB) (tm : Nat)
    (hl : s.list_process = done ++ p :: todo) (hp : p.state = States.NOT_ASSIGNED)
    (h : RR.Coherent s) :
    RR.Coherent { s with
      list_process := done ++ { p with state := States.READY } :: todo,
      ready_queue := s.ready_queue ++ [{ p with state := States.READY }],
      execution_status := s.execution_status ++ [⟨tm, p.PID, States.NEW, States.READY⟩] } := by
  have hmem : p ∈ s.list_process := by rw [hl]; simp
  apply rr_relocate s _ p { p with state := States.READY } h hmem rfl (Or.inl rfl)
    (Or.inl (by rw [hp]; decide))
  · show done ++ { p with state := States.READY } :: todo = sync_all _ s.list_process
    rw [hl]
    exact replace_eq_sync_all done p _ todo (by rw [← hl]; exact h.nodup) rfl
  · exact queue_pushed (not_mem_ready_of_state h (by rw [hp]; decide)) rfl
  · exact h.ready_nodup.append (List.nodup_singleton _) (by
      intro x hx hx2
      rw [List.mem_singleton] at hx2
      have hx3 := (h.ready_mem x hx).1
      rw [hx2] at hx3
      have := eq_of_pid_eq h.nodup hx3 hmem rfl
      rw [← this] at hp
      exact absurd hp (by simp))
  · exact queue_untouched (not_mem_wait_of_state h (by rw [hp]; decide)) (by simp)
  · exact h.wait_nodup
  · intro hr
    refine Or.inr ⟨rfl, ?_⟩
    intro heq
    have := (h.run_mem hr).2
    rw [heq, hp] at this
    exact absurd this (by simp)
  · intro hq
    exact absurd hq (by simp)
  · exact Or.inl rfl
  · exact Or.inl rfl
  · exact terminated_pids_append_other _ _ (by simp)
  · rfl

theorem rr_coherent_skip (s : Sim) (jl : List PCB) (k : Nat) (h : RR.Coherent s) :
    RR.Coherent { s with job_list := jl, mem_calls := k } :=
  rr_coherent_congr s _ h rfl rfl rfl rfl rfl rfl

theorem rr_coherent_arrivals (mem : Nat → PCB → Bool) (s : Sim) (h : RR.Coherent s) :
    RR.Coherent (RR.arrivals mem s) := by
  unfold RR.arrivals
  apply admission_loop_induct (RR.arrival_body mem) RR.Coherent _ rr_coherent_skip
    (fun done p todo s1 tm hl hp h1 => rr_coherent_admission s1 done p todo tm hl hp h1) s h
  intro p s1
  rcases rr_arrival_body_cases mem p s1 with ⟨jl, k, hb, _⟩ | ⟨hs, jl, hb⟩
  · exact Or.inl ⟨jl, k, hb⟩
  · exact Or.inr ⟨hs, jl, _, hb⟩

theorem rr_coherent_pending (mem : Nat → PCB → Bool) (now : Nat) (s : Sim)
    (h : RR.Coherent s) : RR.Coherent (try_assign_pending mem now s) := by
  unfold try_assign_pending
  apply admission_loop_induct (pending_body mem now) RR.Coherent _ rr_coherent_skip
    (fun done p todo s1 tm hl hp h1 => rr_coherent_admission s1 done p todo tm hl hp h1) s h
  intro p s1
  rcases pending_body_cases mem now p s1 with ⟨jl, k, hb, _⟩ | ⟨hs, jl, hb⟩
  · exact Or.inl ⟨jl, k, hb⟩
  · exact Or.inr ⟨hs, jl, _, hb⟩

theorem rr_coherent_io_step (s : Sim) (kept : List (PCB × Nat)) (e : PCB × Nat)
    (todo : List (PCB × Nat)) (hw : s.wait_queue = kept ++ e :: todo) (h : RR.Coherent s) :
    RR.Coherent { s with
      execution_status := s.execution_status ++
        [⟨s.current_time, e.1.PID, States.WAITING, States.READY⟩],
      list_process := sync_all { e.1 with state := States.READY } s.list_process,
      job_list := sync_all { e.1 with state := States.READY } s.job_list,
      ready_queue := s.ready_queue ++ [{ e.1 with state := States.READY }],
      wait_queue := kept ++ todo } := by
  have hew : e.1 ∈ s.wait_queue.map Prod.fst := by rw [hw]; simp
  have hmem := (h.wait_mem e.1 hew).1
  have hst := (h.wait_mem e.1 hew).2
  have hnd : (kept.map Prod.fst ++ e.1 :: todo.map Prod.fst).Nodup := by
    have := h.wait_nodup
    rw [hw] at this
    simpa using this
  apply rr_relocate s _ e.1 { e.1 with state := States.READY } h hmem rfl (Or.inl rfl)
    (Or.inl (by rw [hst]; decide))
  · rfl
  · exact queue_pushed (not_mem_ready_of_state h (by rw [hst]; decide)) rfl
  · exact h.ready_nodup.append (List.nodup_singleton _) (by
      intro x hx hx2
      rw [List.mem_singleton] at hx2
      have hx3 := (h.ready_mem x hx).1
      rw [hx2] at hx3
      have := eq_of_pid_eq h.nodup hx3 hmem rfl
      rw [← this] at hst
      exact absurd hst (by simp))
  · intro x
    show x ∈ (kept ++ todo).map Prod.fst ↔ _
    rw [hw, List.map_append, List.map_append, List.map_cons]
    exact queue_removed hnd (by simp) x
  · show ((kept ++ todo).map Prod.fst).Nodup
    rw [List.map_append]
    exact hnd.sublist ((List.Sublist.refl _).append (List.sublist_cons_self _ _))
  · intro hr
    refine Or.inr ⟨rfl, ?_⟩
    intro heq
    have := (h.run_mem hr).2
    rw [heq, hst] at this
    exact absurd this (by simp)
  · intro hq
    exact absurd hq (by simp)
  · exact Or.inl rfl
  · exact Or.inl rfl
  · exact terminated_pids_append_other _ _ (by simp)
  · rfl

theorem rr_coherent_io (s : Sim) (h : RR.Coherent s) : RR.Coherent (io_completions s) := by
  unfold io_completions
  exact io_loop_induct RR.Coherent
    (fun kept e todo s1 hw _ h1 => rr_coherent_io_step s1 kept e todo hw h1) _ _ _ (by simp) h

theorem rr_coherent_dispatch (s : Sim) (h : RR.Coherent s) : RR.Coherent (RR.dispatch s) := by
  unfold RR.dispatch
  split
  · rename_i hidle
    split
    · exact h
    · rename_i front rest hrq
      have hfm : front ∈ s.ready_queue := by rw [hrq]; simp
      have hmem := (h.ready_mem front hfm).1
      have hst := (h.ready_mem front hfm).2
      have hnd : (([] : List PCB) ++ front :: rest).Nodup := by
        have := h.ready_nodup
        rw [hrq] at this
        simpa using this
      apply rr_relocate s _ front
        { front with state := States.RUNNING, start_time := s.current_time } h hmem rfl
        (Or.inr (Or.inr rfl)) (Or.inl (by rw [hst]; decide))
      · rfl
      · intro x
        show x ∈ rest ↔ _
        rw [hrq]
        exact queue_removed (A := []) hnd (by simp) x
      · exact (List.nodup_cons.1 (by simpa using hnd)).2
      · exact queue_untouched (not_mem_wait_of_state h (by rw [hst]; decide)) (by simp)
      · exact h.wait_nodup
      · intro _
        exact Or.inl ⟨rfl, rfl⟩
      · intro _
        rfl
      · exact Or.inr (Or.inl rfl)
      · exact Or.inr (Or.inr hidle)
      · exact terminated_pids_append_other _ _ (by simp)
      · rfl
  · exact h

theorem rr_coherent_run_one_ms (s : Sim) (hr : s.running.PID ≠ -1) (h : RR.Coherent s) :
    RR.Coherent (run_one_ms s) := by
  have hmem := (h.run_mem hr).1
  have hst := (h.run_mem hr).2
  apply rr_relocate s _ s.running
    { s.running with remaining_time := udec s.running.remaining_time } h hmem rfl
    (Or.inr (Or.inr hst)) (Or.inr rfl)
  · rfl
  · exact queue_untouched (not_mem_ready_of_state h (by rw [hst]; decide))
      (by show s.running.state ≠ _; rw [hst]; decide)
  · exact h.ready_nodup
  · exact queue_untouched (not_mem_wait_of_state h (by rw [hst]; decide))
      (by show s.running.state ≠ _; rw [hst]; decide)
  · exact h.wait_nodup
  · intro _
    exact Or.inl ⟨rfl, hst⟩
  · intro _
    rfl
  · exact Or.inl rfl
  · exact Or.inl rfl
  · rfl
  · rfl

theorem rr_coherent_block_on_io (s : Sim) (hr : s.running.PID ≠ -1) (h : RR.Coherent s) :
    RR.Coherent (block_on_io s.running s) := by
  have hmem := (h.run_mem hr).1
  have hst := (h.run_mem hr).2
  apply rr_relocate s _ s.running { s.running with state := States.WAITING } h hmem rfl
    (Or.inr (Or.inl rfl)) (Or.inr rfl)
  · rfl
  · exact queue_untouched (not_mem_ready_of_state h (by rw [hst]; decide)) (by simp)
  · exact h.ready_nodup
  · intro x
    show x ∈ (s.wait_queue ++ [_]).map Prod.fst ↔ _
    rw [List.map_append, List.map_singleton]
    exact queue_pushed (not_mem_wait_of_state h (by rw [hst]; decide)) rfl x
  · show ((s.wait_queue ++ [_]).map Prod.fst).Nodup
    rw [List.map_append, List.map_singleton]
    exact h.wait_nodup.append (List.nodup_singleton _) (by
      intro x hx hx2
      rw [List.mem_singleton] at hx2
      have hx3 := (h.wait_mem x hx).1
      rw [hx2] at hx3
      have := eq_of_pid_eq h.nodup hx3 hmem rfl
      rw [← this] at hst
      exact absurd hst (by simp))
  · intro hid
    exact absurd rfl hid
  · intro hq
    exact absurd hq (by simp)
  · exact Or.inr (Or.inr rfl)
  · exact Or.inr (Or.inl rfl)
  · exact terminated_pids_append_other _ _ (by simp)
  · rfl

theorem rr_coherent_quantum_expiry (s : Sim) (hr : s.running.PID ≠ -1) (h : RR.Coherent s) :
    RR.Coherent (quantum_expiry s.running s) := by
  have hmem := (h.run_mem hr).1
  have hst := (h.run_mem hr).2
  apply rr_relocate s _ s.running { s.running with state := States.READY } h hmem rfl
    (Or.inl rfl) (Or.inr rfl)
  · rfl
  · exact queue_pushed (not_mem_ready_of_state h (by rw [hst]; decide)) rfl
  · exact h.ready_nodup.append (List.nodup_singleton _) (by
      intro x hx hx2
      rw [List.mem_singleton] at hx2
      have hx3 := (h.ready_mem x hx).1
      rw [hx2] at hx3
      have := eq_of_pid_eq h.nodup hx3 hmem rfl
      rw [← this] at hst
      exact absurd hst (by simp))
  · exact queue_untouched (not_mem_wait_of_state h (by rw [hst]; decide)) (by simp)
  · exact h.wait_nodup
  · intro hid
    exact absurd rfl hid
  · intro hq
    exact absurd hq (by simp)
  · exact Or.inr (Or.inr rfl)
  · exact Or.inr (Or.inl rfl)
  · exact terminated_pids_append_other _ _ (by simp)
  · rfl

theorem rr_coherent_finish (s : Sim) (hr : s.running.PID ≠ -1) (h : RR.Coherent s) :
    RR.Coherent (finish s.running s) := by
  have hmem := (h.run_mem hr).1
  have hst := (h.run_mem hr).2
  have hlog : terminated_pids (finish s.running s).execution_status =
      terminated_pids s.execution_status ++ [s.running.PID] :=
    terminated_pids_append_term _ _ _
  have hnew : s.running.PID ∉ terminated_pids s.execution_status :=
    fun hT => (h.term_imp _ hmem hT).2 rfl
  constructor
  · exact h.nodup
  · exact h.ready_mem
  · exact h.wait_mem
  · intro hid
    exact absurd rfl hid
  · exact h.ready_nodup
  · exact h.wait_nodup
  · exact h.ready_all
  · exact h.wait_all
  · exact h.states
  · intro x hx hxT
    rw [hlog, List.mem_append, List.mem_singleton] at hxT
    rcases hxT with hxT | hxT
    · refine ⟨(h.term_imp x hx hxT).1, ?_⟩
      intro hx2
      rw [hx2] at hxT
      exact h.term_sentinel hxT
    · have := eq_of_pid_eq h.nodup hx hmem hxT
      rw [this]
      exact ⟨hst, hr⟩
  · rw [hlog, List.mem_append, List.mem_singleton]
    rintro (h1 | h1)
    · exact h.term_sentinel h1
    · exact hr h1.symm
  · intro x hx hx1 hxs _
    rw [hlog, List.mem_append, List.mem_singleton]
    by_cases hxr : x.PID = s.running.PID
    · exact Or.inr hxr
    · exact Or.inl (h.done_imp x hx hx1 hxs hxr)
  · rw [hlog]
    exact h.term_nodup.append (List.nodup_singleton _) (by
      intro x hx hx2
      rw [List.mem_singleton] at hx2
      rw [hx2] at hx
      exact hnew hx)
  · intro pid hpid
    rw [hlog, List.mem_append, List.mem_singleton] at hpid
    rcases hpid with hpid | hpid
    · exact h.term_sub pid hpid
    · rw [hpid]
      exact List.mem_map.2 ⟨_, hmem, rfl⟩
  · rw [hlog, List.length_append, List.length_singleton]
    show s.terminated_count + 1 = _
    rw [h.count]

theorem rr_coherent_execute (quantum : Option Nat) (s : Sim) (h : RR.Coherent s) :
    RR.Coherent (execute quantum s) := by
  unfold execute
  split
  · rename_i hr
    have h1 := rr_coherent_run_one_ms s hr h
    have hr1 : (run_one_ms s).running.PID ≠ -1 := hr
    simp only []
    split
    · exact rr_coherent_block_on_io _ hr1 h1
    · split
      · exact rr_coherent_finish _ hr1 h1
      · split
        · exact h1
        · split
          · exact rr_coherent_quantum_expiry _ hr1 h1
          · exact h1
  · exact h

theorem rr_coherent_tick (mem : Nat → PCB → Bool) (s : Sim) (h : RR.Coherent s) :
    RR.Coherent (RR.tick mem s) := by
  have h1 := rr_coherent_arrivals mem s h
  have h2 := rr_coherent_pending mem s.current_time _ h1
  have h3 := rr_coherent_io _ h2
  have h4 := rr_coherent_dispatch _ h3
  have h5 := rr_coherent_execute (some RR.RR_QUANTUM) _ h4
  exact rr_coherent_congr _ _ h5 rfl rfl rfl rfl rfl rfl

end Sched

namespace Sched

/-! ## What the blocks of the Round-Robin loop do to the records -/

theorem carried_refl (p : PCB) : carried 0 p p :=
  ⟨rfl, rfl, rfl, rfl, rfl, rfl, fun h => h⟩

theorem carried_trans {a b : Nat} {p q r : PCB} (h1 : carried a p q) (h2 : carried b q r) :
    carried (a + b) p r := by
  obtain ⟨a1, a2, a3, a4, a5, a6, a7⟩ := h1
  obtain ⟨b1, b2, b3, b4, b5, b6, b7⟩ := h2
  refine ⟨b1.trans a1, b2.trans a2, b3.trans a3, b4.trans a4, b5.trans a5, ?_,
    fun h => a7 (b7 h)⟩
  omega

theorem forall₂_comp {R S T : PCB → PCB → Prop} (h : ∀ a b c, R a b → S b c → T a c) :
    ∀ {l1 l2 l3 : List PCB}, List.Forall₂ R l1 l2 → List.Forall₂ S l2 l3 →
      List.Forall₂ T l1 l3 := by
  intro l1 l2 l3 h1
  induction h1 generalizing l3 with
  | nil =>
    intro h2
    cases h2
    exact List.Forall₂.nil
  | cons hab _ ih =>
    intro h2
    cases h2 with
    | cons hbc h2 => exact List.Forall₂.cons (h _ _ _ hab hbc) (ih h2)

theorem forall₂_carried_refl (l : List PCB) : List.Forall₂ (carried 0) l l :=
  List.forall₂_same.2 (fun x _ => carried_refl x)

theorem forall₂_carried_trans {l1 l2 l3 : List PCB} (h1 : List.Forall₂ (carried 0) l1 l2)
    (h2 : List.Forall₂ (carried 0) l2 l3) : List.Forall₂ (carried 0) l1 l3 :=
  forall₂_comp (R := carried 0) (S := carried 0) (T := carried 0)
    (fun _ _ _ hab hbc => carried_trans hab hbc) h1 h2

theorem forall₂_replace {R : PCB → PCB → Prop} (hrefl : ∀ x, R x x) (done : List PCB)
    (p q : PCB) (todo : List PCB) (h : R p q) :
    List.Forall₂ R (done ++ p :: todo) (done ++ q :: todo) :=
  List.rel_append (List.forall₂_same.2 (fun x _ => hrefl x))
    (List.Forall₂.cons h (List.forall₂_same.2 (fun x _ => hrefl x)))

theorem forall₂_sync_all {R : PCB → PCB → Prop} (q : PCB) (l : List PCB)
    (hrefl : ∀ x ∈ l, x.PID ≠ q.PID → R x x)
    (h : ∀ x ∈ l, x.PID = q.PID → R x q) : List.Forall₂ R l (sync_all q l) := by
  induction l with
  | nil => exact List.Forall₂.nil
  | cons x xs ih =>
    have ih2 := ih (fun y hy => hrefl y (List.mem_cons_of_mem _ hy))
      (fun y hy => h y (List.mem_cons_of_mem _ hy))
    by_cases hx : x.PID = q.PID
    · simp only [sync_all, List.map_cons, if_pos hx]
      exact List.Forall₂.cons (h x (List.mem_cons_self _ _) hx) ih2
    · simp only [sync_all, List.map_cons, if_neg hx]
      exact List.Forall₂.cons (hrefl x (List.mem_cons_self _ _) hx) ih2

theorem forall₂_exists_left {R : PCB → PCB → Prop} {l1 l2 : List PCB}
    (h : List.Forall₂ R l1 l2) : ∀ b ∈ l2, ∃ a ∈ l1, R a b := by
  induction h with
  | nil => intro b hb; simp at hb
  | cons hab _ ih =>
    intro b hb
    rcases List.mem_cons.1 hb with hb | hb
    · exact ⟨_, List.mem_cons_self _ _, hb ▸ hab⟩
    · obtain ⟨a, ha, hr⟩ := ih b hb
      exact ⟨a, List.mem_cons_of_mem _ ha, hr⟩

theorem forall₂_exists_right {R : PCB → PCB → Prop} {l1 l2 : List PCB}
    (h : List.Forall₂ R l1 l2) : ∀ a ∈ l1, ∃ b ∈ l2, R a b := by
  induction h with
  | nil => intro b hb; simp at hb
  | cons hab _ ih =>
    intro a ha
    rcases List.mem_cons.1 ha with ha | ha
    · exact ⟨_, List.mem_cons_self _ _, ha ▸ hab⟩
    · obtain ⟨b, hb, hr⟩ := ih a ha
      exact ⟨b, List.mem_cons_of_mem _ hb, hr⟩

theorem forall₂_carried_pids {R : PCB → PCB → Prop} (hR : ∀ a b, R a b → b.PID = a.PID)
    {l1 l2 : List PCB} (h : List.Forall₂ R l1 l2) : l2.map PCB.PID = l1.map PCB.PID := by
  induction h with
  | nil => rfl
  | cons hab _ ih => simp [hR _ _ hab, ih]

/-! ## Steps that only move processes -/

theorem rr_placed_refl (s : Sim) : RR.Placed s s :=
  ⟨forall₂_carried_refl _, rfl, rfl, rfl, List.Sublist.refl _⟩

theorem rr_placed_trans {a b c : Sim} (h1 : RR.Placed a b) (h2 : RR.Placed b c) :
    RR.Placed a c :=
  ⟨forall₂_carried_trans h1.1 h2.1, h2.2.1.trans h1.2.1, h2.2.2.1.trans h1.2.2.1,
    h2.2.2.2.1.trans h1.2.2.2.1, h2.2.2.2.2.trans h1.2.2.2.2⟩

theorem rr_placed_admission_loop (body : PCB → Sim → PCB × Sim)
    (hcases : ∀ p s, (∃ jl k, body p s = (p, { s with job_list := jl, mem_calls := k })) ∨
      (p.state = States.NOT_ASSIGNED ∧ ∃ jl tm,
        body p s = ({ p with state := States.READY },
          { s with ready_queue := s.ready_queue ++ [{ p with state := States.READY }],
                   execution_status := s.execution_status ++
                     [⟨tm, p.PID, States.NEW, States.READY⟩],
                   job_list := jl, mem_calls := s.mem_calls + 1 })))
    (s : Sim) : RR.Placed s (for_each_process body [] s.list_process s) := by
  apply admission_loop_induct body (RR.Placed s) hcases _ _ s (rr_placed_refl s)
  · intro s1 jl k h
    exact h
  · intro done p todo s1 tm hl _ h
    refine ⟨?_, ?_, h.2.2.1, h.2.2.2.1, h.2.2.2.2⟩
    · apply forall₂_carried_trans h.1
      rw [hl]
      exact forall₂_replace carried_refl done p _ todo
        ⟨rfl, rfl, rfl, rfl, rfl, rfl, fun h => by simp at h⟩
    · show terminated_pids (s1.execution_status ++ _) = _
      rw [terminated_pids_append_other _ _ (by simp)]
      exact h.2.1

theorem rr_placed_arrivals (mem : Nat → PCB → Bool) (s : Sim) :
    RR.Placed s (RR.arrivals mem s) := by
  unfold RR.arrivals
  apply rr_placed_admission_loop
  intro p s1
  rcases rr_arrival_body_cases mem p s1 with ⟨jl, k, hb, _⟩ | ⟨hs, jl, hb⟩
  · exact Or.inl ⟨jl, k, hb⟩
  · exact Or.inr ⟨hs, jl, _, hb⟩

theorem rr_placed_pending (mem : Nat → PCB → Bool) (now : Nat) (s : Sim) :
    RR.Placed s (try_assign_pending mem now s) := by
  unfold try_assign_pending
  apply rr_placed_admission_loop
  intro p s1
  rcases pending_body_cases mem now p s1 with ⟨jl, k, hb, _⟩ | ⟨hs, jl, hb⟩
  · exact Or.inl ⟨jl, k, hb⟩
  · exact Or.inr ⟨hs, jl, _, hb⟩

theorem rr_placed_io (s : Sim) (h : RR.Coherent s) : RR.Placed s (io_completions s) := by
  unfold io_completions
  have := io_loop_induct (fun s1 => RR.Coherent s1 ∧ RR.Placed s s1)
    (fun kept e todo s1 hw _ h1 => by
      refine ⟨rr_coherent_io_step s1 kept e todo hw h1.1, ?_, ?_, h1.2.2.2.1, h1.2.2.2.2.1, ?_⟩
      · apply forall₂_carried_trans h1.2.1
        apply forall₂_sync_all _ _ (fun x _ _ => carried_refl x)
        intro x hx hpid
        have hew : e.1 ∈ s1.wait_queue.map Prod.fst := by rw [hw]; simp
        have hmem := (h1.1.wait_mem e.1 hew).1
        have hst := (h1.1.wait_mem e.1 hew).2
        have hxe : x = e.1 := eq_of_pid_eq h1.1.nodup hx hmem hpid
        rw [hxe]
        exact ⟨rfl, rfl, rfl, rfl, rfl, rfl, fun h => by simp at h⟩
      · show terminated_pids (s1.execution_status ++ _) = _
        rw [terminated_pids_append_other _ _ (by simp)]
        exact h1.2.2.1
      · refine List.Sublist.trans ?_ h1.2.2.2.2.2
        rw [hw]
        exact (List.Sublist.refl _).append (List.sublist_cons_self _ _))
    s.wait_queue [] s (by simp) ⟨h, rr_placed_refl s⟩
  exact this.2

theorem rr_placed_dispatch (s : Sim) (h : RR.Coherent s) : RR.Placed s (RR.dispatch s) := by
  unfold RR.dispatch
  split
  · split
    · exact rr_placed_refl s
    · rename_i front rest hrq
      have hfm : front ∈ s.ready_queue := by rw [hrq]; simp
      have hmem := (h.ready_mem front hfm).1
      have hst := (h.ready_mem front hfm).2
      refine ⟨?_, ?_, rfl, rfl, List.Sublist.refl _⟩
      · apply forall₂_sync_all _ _ (fun x _ _ => carried_refl x)
        intro x hx hpid
        have hxe : x = front := eq_of_pid_eq h.nodup hx hmem hpid
        rw [hxe]
        exact ⟨rfl, rfl, rfl, rfl, rfl, rfl, fun h => by simp at h⟩
      · show terminated_pids (s.execution_status ++ _) = _
        exact terminated_pids_append_other _ _ (by simp)
  · exact rr_placed_refl s

theorem rr_coherent_schedule (mem : Nat → PCB → Bool) (s : Sim) (h : RR.Coherent s) :
    RR.Coherent (RR.schedule mem s) :=
  rr_coherent_dispatch _ (rr_coherent_io _ (rr_coherent_pending mem _ _
    (rr_coherent_arrivals mem s h)))

theorem rr_placed_schedule (mem : Nat → PCB → Bool) (s : Sim) (h : RR.Coherent s) :
    RR.Placed s (RR.schedule mem s) := by
  have h1 := rr_coherent_arrivals mem s h
  have h2 := rr_coherent_pending mem s.current_time _ h1
  have h3 := rr_coherent_io _ h2
  exact rr_placed_trans (rr_placed_trans (rr_placed_trans (rr_placed_arrivals mem s)
    (rr_placed_pending mem _ _)) (rr_placed_io _ h2)) (rr_placed_dispatch _ h3)

end Sched

namespace Sched

/-! ## The start of the Round-Robin engine -/

theorem rr_init_body_cases (mem : Nat → PCB → Bool) (p : PCB) (s : Sim)
    (hp : p.state = States.NOT_ASSIGNED) :
    (∃ jl k, RR.init_body mem p s = (p, { s with job_list := jl, mem_calls := k }) ∧
      (mem s.mem_calls p = true → p.arrival_time ≠ 0)) ∨
    (∃ jl, RR.init_body mem p s = ({ p with state := States.READY },
        { s with ready_queue := s.ready_queue ++ [{ p with state := States.READY }],
                 execution_status := s.execution_status ++
                   [⟨0, p.PID, States.NEW, States.READY⟩],
                 job_list := jl, mem_calls := s.mem_calls + 1 })) := by
  by_cases ha : p.arrival_time = 0
  · by_cases hm : mem s.mem_calls p = true
    · right
      refine ⟨s.job_list ++ [{ p with state := States.READY }], ?_⟩
      simp only [RR.init_body, if_pos ha, if_pos hm]
    · left
      refine ⟨s.job_list ++ [p], s.mem_calls + 1, ?_, fun h => absurd h hm⟩
      simp only [RR.init_body, if_pos ha, if_neg hm, set_not_assigned p hp]
  · left
    refine ⟨s.job_list, s.mem_calls, ?_, fun _ => ha⟩
    simp only [RR.init_body, if_neg ha, set_not_assigned p hp]

/-- Induction over an admission loop entered with every record in state
`NOT_ASSIGNED`. -/
theorem admission_loop_induct_na (body : PCB → Sim → PCB × Sim) (P : Sim → Prop)
    (hcases : ∀ p s, p.state = States.NOT_ASSIGNED →
      (∃ jl k, body p s = (p, { s with job_list := jl, mem_calls := k })) ∨
      (∃ jl tm,
        body p s = ({ p with state := States.READY },
          { s with ready_queue := s.ready_queue ++ [{ p with state := States.READY }],
                   execution_status := s.execution_status ++
                     [⟨tm, p.PID, States.NEW, States.READY⟩],
                   job_list := jl, mem_calls := s.mem_calls + 1 })))
    (hskip : ∀ s jl k, P s → P { s with job_list := jl, mem_calls := k })
    (hadm : ∀ done p todo s tm, s.list_process = done ++ p :: todo →
      p.state = States.NOT_ASSIGNED → P s →
      P { s with list_process := done ++ { p with state := States.READY } :: todo,
                 ready_queue := s.ready_queue ++ [{ p with state := States.READY }],
                 execution_status := s.execution_status ++
                   [⟨tm, p.PID, States.NEW, States.READY⟩] })
    (s : Sim) (hall : ∀ x ∈ s.list_process, x.state = States.NOT_ASSIGNED) (h : P s) :
    P (for_each_process body [] s.list_process s) := by
  have := for_each_process_induct_todo body
    (fun todo s1 => P s1 ∧ ∀ x ∈ todo, x.state = States.NOT_ASSIGNED) ?_
    s.list_process [] s (by simp) ⟨h, hall⟩
  · exact this.1
  intro done p todo s1 hl h1
  have hp : p.state = States.NOT_ASSIGNED := h1.2 p (List.mem_cons_self _ _)
  refine ⟨?_, fun x hx => h1.2 x (List.mem_cons_of_mem _ hx)⟩
  rcases hcases p s1 hp with ⟨jl, k, hb⟩ | ⟨jl, tm, hb⟩
  · rw [hb]
    have := hskip s1 jl k h1.1
    have hl2 : done ++ p :: todo = s1.list_process := hl.symm
    simpa [hl2] using this
  · rw [hb]
    have := hskip _ jl (s1.mem_calls + 1) (hadm done p todo s1 tm hl hp h1.1)
    simpa using this

theorem rr_coherent_start (l : List PCB) (hn : (l.map PCB.PID).Nodup)
    (hall : ∀ x ∈ l, x.state = States.NOT_ASSIGNED) : RR.Coherent (start l) := by
  constructor
  · exact hn
  · intro q hq
    simp [start] at hq
  · intro q hq
    simp [start] at hq
  · intro hr
    exact absurd rfl hr
  · simp [start]
  · simp [start]
  · intro p hp hs
    rw [hall p hp] at hs
    exact absurd hs (by decide)
  · intro p hp hs
    rw [hall p hp] at hs
    exact absurd hs (by decide)
  · intro p hp
    exact Or.inl (hall p hp)
  · intro p _ hT
    simp [start, terminated_pids] at hT
  · simp [start, terminated_pids]
  · intro p hp _ hs
    rw [hall p hp] at hs
    exact absurd hs (by decide)
  · simp [start, terminated_pids]
  · intro pid hpid
    simp [start, terminated_pids] at hpid
  · simp [start, terminated_pids]

theorem rr_coherent_init (mem : Nat → PCB → Bool) (l : List PCB) (hn : (l.map PCB.PID).Nodup)
    (hall : ∀ x ∈ l, x.state = States.NOT_ASSIGNED) : RR.Coherent (RR.init mem l) := by
  unfold RR.init
  apply admission_loop_induct_na (RR.init_body mem) RR.Coherent _ rr_coherent_skip
    (fun done p todo s1 tm hl hp h1 => rr_coherent_admission s1 done p todo tm hl hp h1)
    (start l) hall (rr_coherent_start l hn hall)
  intro p s1 hp
  rcases rr_init_body_cases mem p s1 hp with ⟨jl, k, hb, _⟩ | ⟨jl, hb⟩
  · exact Or.inl ⟨jl, k, hb⟩
  · exact Or.inr ⟨jl, _, hb⟩

theorem rr_placed_init (mem : Nat → PCB → Bool) (l : List PCB)
    (hall : ∀ x ∈ l, x.state = States.NOT_ASSIGNED) : RR.Placed (start l) (RR.init mem l) := by
  unfold RR.init
  apply admission_loop_induct_na (RR.init_body mem) (RR.Placed (start l)) _ _ _
    (start l) hall (rr_placed_refl _)
  · intro p s1 hp
    rcases rr_init_body_cases mem p s1 hp with ⟨jl, k, hb, _⟩ | ⟨jl, hb⟩
    · exact Or.inl ⟨jl, k, hb⟩
    · exact Or.inr ⟨jl, _, hb⟩
  · intro s1 jl k h
    exact h
  · intro done p todo s1 tm hl _ h
    refine ⟨?_, ?_, h.2.2.1, h.2.2.2.1, h.2.2.2.2⟩
    · apply forall₂_carried_trans h.1
      rw [hl]
      exact forall₂_replace carried_refl done p _ todo
        ⟨rfl, rfl, rfl, rfl, rfl, rfl, fun h => by simp at h⟩
    · show terminated_pids (s1.execution_status ++ _) = _
      rw [terminated_pids_append_other _ _ (by simp)]
      exact h.2.1

/-! ## The CPU budget -/

theorem rr_budget_of_placed {s t : Sim} (hp : RR.Placed s t) (hb : RR.Budget s) :
    RR.Budget t := by
  intro q hq
  obtain ⟨p, hpm, hc⟩ := forall₂_exists_left hp.1 q hq
  obtain ⟨c1, _, _, _, _, c6, _⟩ := hc
  rw [hp.2.1, c1]
  have : q.remaining_time = p.remaining_time := by omega
  rw [this]
  exact hb p hpm

theorem udec_pos (x : Nat) (h : x ≠ 0) : udec x + 1 = x := by
  unfold udec
  rw [if_neg h]
  omega

end Sched

namespace Sched

/-! ## The execute block -/

/-- The four ways out of the execute block when a process runs. -/
theorem execute_cases (quantum : Option Nat) (s : Sim) (hr : s.running.PID ≠ -1) :
    (execute quantum s = block_on_io (run_one_ms s).running (run_one_ms s) ∧
      0 < (run_one_ms s).running.remaining_time) ∨
    (execute quantum s = finish (run_one_ms s).running (run_one_ms s) ∧
      (run_one_ms s).running.remaining_time = 0) ∨
    (execute quantum s = run_one_ms s ∧ (run_one_ms s).running.remaining_time ≠ 0) ∨
    (execute quantum s = quantum_expiry (run_one_ms s).running (run_one_ms s) ∧
      (run_one_ms s).running.remaining_time ≠ 0) := by
  unfold execute
  rw [if_pos hr]
  simp only []
  by_cases hio : io_request (run_one_ms s).running = true
  · rw [if_pos hio]
    left
    refine ⟨rfl, ?_⟩
    unfold io_request at hio
    exact (of_decide_eq_true hio).2.2.2
  · rw [if_neg hio]
    by_cases hz : (run_one_ms s).running.remaining_time = 0
    · rw [if_pos hz]
      exact Or.inr (Or.inl ⟨rfl, hz⟩)
    · rw [if_neg hz]
      cases quantum with
      | none => exact Or.inr (Or.inr (Or.inl ⟨rfl, hz⟩))
      | some q =>
        simp only []
        split
        · exact Or.inr (Or.inr (Or.inr ⟨rfl, hz⟩))
        · exact Or.inr (Or.inr (Or.inl ⟨rfl, hz⟩))

theorem execute_idle (quantum : Option Nat) (s : Sim) (hr : s.running.PID = -1) :
    execute quantum s = s := by
  unfold execute
  rw [if_neg (not_not.2 hr)]

theorem executing_busy (s : Sim) (hr : s.running.PID ≠ -1) :
    executing s = some s.running.PID := by
  unfold executing
  rw [if_pos hr]

theorem executing_idle (s : Sim) (hr : s.running.PID = -1) : executing s = none := by
  unfold executing
  rw [if_neg (not_not.2 hr)]

theorem rr_running_has_budget (s : Sim) (hc : RR.Coherent s) (hb : RR.Budget s)
    (hr : s.running.PID ≠ -1) : s.running.remaining_time ≠ 0 := by
  intro hz
  have hmem := (hc.run_mem hr).1
  exact (hc.term_imp _ hmem ((hb _ hmem).1 hz)).2 rfl

theorem rr_frame_run_one_ms (s : Sim) (hc : RR.Coherent s) (hb : RR.Budget s)
    (hr : s.running.PID ≠ -1) :
    List.Forall₂ (fun p q => carried (spent_on (some s.running.PID) p) p q)
      s.list_process (run_one_ms s).list_process := by
  have hmem := (hc.run_mem hr).1
  have hrem := rr_running_has_budget s hc hb hr
  apply forall₂_sync_all
  · intro x _ hx
    have : spent_on (some s.running.PID) x = 0 := by
      unfold spent_on
      rw [if_neg]
      intro h
      exact hx (Option.some.inj h).symm
    rw [this]
    exact carried_refl x
  · intro x hx hpid
    have hxe : x = s.running := eq_of_pid_eq hc.nodup hx hmem hpid
    rw [hxe]
    have : spent_on (some s.running.PID) s.running = 1 := by
      unfold spent_on
      rw [if_pos rfl]
    rw [this]
    exact ⟨rfl, rfl, rfl, rfl, rfl, udec_pos _ hrem, fun h => h⟩

/-- After a run of one millisecond the budget is again in order, whether or not
the termination of the running process was logged. -/
theorem rr_budget_after_run (s t : Sim) (hc : RR.Coherent s) (hb : RR.Budget s)
    (hr : s.running.PID ≠ -1)
    (hF : List.Forall₂ (fun p q => carried (spent_on (some s.running.PID) p) p q)
      s.list_process t.list_process)
    (hT : (terminated_pids t.execution_status = terminated_pids s.execution_status ∧
        s.running.remaining_time ≠ 1) ∨
      (terminated_pids t.execution_status =
        terminated_pids s.execution_status ++ [s.running.PID] ∧
        s.running.remaining_time = 1)) : RR.Budget t := by
  have hmem := (hc.run_mem hr).1
  have hnotT : s.running.PID ∉ terminated_pids s.execution_status :=
    fun h => (hc.term_imp _ hmem h).2 rfl
  intro q hq
  obtain ⟨p, hpm, c1, _, _, _, _, c6, _⟩ := forall₂_exists_left hF q hq
  by_cases hp : p.PID = s.running.PID
  · have hpe : p = s.running := eq_of_pid_eq hc.nodup hpm hmem hp
    have hs : spent_on (some s.running.PID) p = 1 := by
      unfold spent_on
      rw [if_pos (by rw [hp])]
    rw [hs, hpe] at c6
    rw [c1, hp]
    rcases hT with ⟨h1, h2⟩ | ⟨h1, h2⟩
    · rw [h1]
      constructor
      · intro hz
        omega
      · intro h
        exact absurd h hnotT
    · rw [h1]
      constructor
      · intro _
        simp
      · intro _
        omega
  · have hs : spent_on (some s.running.PID) p = 0 := by
      unfold spent_on
      rw [if_neg]
      intro h
      exact hp (Option.some.inj h).symm
    rw [hs] at c6
    have hqr : q.remaining_time = p.remaining_time := by omega
    rw [c1, hqr, hb p hpm]
    rcases hT with ⟨h1, _⟩ | ⟨h1, _⟩
    · rw [h1]
    · rw [h1, List.mem_append, List.mem_singleton]
      constructor
      · exact Or.inl
      · rintro (h | h)
        · exact h
        · exact absurd h hp

theorem forall₂_charged_then_carried {o : Option Int} {l1 l2 l3 : List PCB}
    (h1 : List.Forall₂ (fun p q => carried (spent_on o p) p q) l1 l2)
    (h2 : List.Forall₂ (carried 0) l2 l3) :
    List.Forall₂ (fun p q => carried (spent_on o p) p q) l1 l3 :=
  forall₂_comp (R := fun p q => carried (spent_on o p) p q) (S := carried 0)
    (T := fun p q => carried (spent_on o p) p q)
    (fun _ _ _ hab hbc => carried_trans hab hbc) h1 h2

theorem forall₂_carried_then_charged {o : Option Int} {l1 l2 l3 : List PCB}
    (h1 : List.Forall₂ (carried 0) l1 l2)
    (h2 : List.Forall₂ (fun p q => carried (spent_on o p) p q) l2 l3) :
    List.Forall₂ (fun p q => carried (spent_on o p) p q) l1 l3 :=
  forall₂_comp (R := carried 0) (S := fun p q => carried (spent_on o p) p q)
    (T := fun p q => carried (spent_on o p) p q)
    (fun a b c hab hbc => by
      have h := carried_trans hab hbc
      have hpid : spent_on o b = spent_on o a := by
        unfold spent_on
        rw [hab.1]
      rw [hpid, Nat.zero_add] at h
      exact h) h1 h2

theorem rr_frame_after_sync (s : Sim) (hc : RR.Coherent s) (hr : s.running.PID ≠ -1)
    (q : PCB) (hq : carried 0 s.running q) :
    List.Forall₂ (carried 0) s.list_process (sync_all q s.list_process) := by
  have hmem := (hc.run_mem hr).1
  apply forall₂_sync_all _ _ (fun x _ _ => carried_refl x)
  intro x hx hpid
  have hxe : x = s.running := eq_of_pid_eq hc.nodup hx hmem (hpid.trans hq.1)
  rw [hxe]
  exact hq

/-- The execute block charges one millisecond to the process it runs and
nothing to the others. -/
theorem rr_execute_step (quantum : Option Nat) (s : Sim) (hc : RR.Coherent s)
    (hb : RR.Budget s) :
    List.Forall₂ (fun p q => carried (spent_on (executing s) p) p q)
        s.list_process (execute quantum s).list_process ∧
      RR.Budget (execute quantum s) := by
  by_cases hr : s.running.PID ≠ -1
  · rw [executing_busy s hr]
    have hF := rr_frame_run_one_ms s hc hb hr
    have hc1 := rr_coherent_run_one_ms s hr hc
    have hr1 : (run_one_ms s).running.PID ≠ -1 := hr
    have hrem := rr_running_has_budget s hc hb hr
    have hdec : (run_one_ms s).running.remaining_time + 1 = s.running.remaining_time :=
      udec_pos _ hrem
    have hst : (run_one_ms s).running.state = States.RUNNING := (hc.run_mem hr).2
    rcases execute_cases quantum s hr with ⟨he, h1⟩ | ⟨he, h1⟩ | ⟨he, h1⟩ | ⟨he, h1⟩
    · rw [he]
      have hF2 : List.Forall₂ (fun p q => carried (spent_on (some s.running.PID) p) p q)
          s.list_process (block_on_io (run_one_ms s).running (run_one_ms s)).list_process :=
        forall₂_charged_then_carried hF (rr_frame_after_sync _ hc1 hr1 _
          ⟨rfl, rfl, rfl, rfl, rfl, rfl, fun h => by simp at h⟩)
      refine ⟨hF2, rr_budget_after_run s _ hc hb hr hF2 (Or.inl ⟨?_, by omega⟩)⟩
      exact terminated_pids_append_other _ _ (by simp)
    · rw [he]
      have hF2 : List.Forall₂ (fun p q => carried (spent_on (some s.running.PID) p) p q)
          s.list_process (finish (run_one_ms s).running (run_one_ms s)).list_process := hF
      refine ⟨hF2, rr_budget_after_run s _ hc hb hr hF2 (Or.inr ⟨?_, by omega⟩)⟩
      exact terminated_pids_append_term _ _ _
    · rw [he]
      exact ⟨hF, rr_budget_after_run s _ hc hb hr hF (Or.inl ⟨rfl, by omega⟩)⟩
    · rw [he]
      have hF2 : List.Forall₂ (fun p q => carried (spent_on (some s.running.PID) p) p q)
          s.list_process
          (quantum_expiry (run_one_ms s).running (run_one_ms s)).list_process :=
        forall₂_charged_then_carried hF (rr_frame_after_sync _ hc1 hr1 _
          ⟨rfl, rfl, rfl, rfl, rfl, rfl, fun h => by simp at h⟩)
      refine ⟨hF2, rr_budget_after_run s _ hc hb hr hF2 (Or.inl ⟨?_, by omega⟩)⟩
      exact terminated_pids_append_other _ _ (by simp)
  · have hr2 : s.running.PID = -1 := not_not.1 hr
    rw [execute_idle quantum s hr2, executing_idle s hr2]
    refine ⟨?_, hb⟩
    have : (fun p q => carried (spent_on none p) p q) = carried 0 := by
      funext p q
      simp [spent_on]
    rw [this]
    exact forall₂_carried_refl _

/-- One iteration of the Round-Robin loop: the bookkeeping stays coherent, the
budget stays in order, and exactly the process run by the execute block is
charged one millisecond. -/
theorem rr_tick_step (mem : Nat → PCB → Bool) (s : Sim) (hc : RR.Coherent s)
    (hb : RR.Budget s) :
    RR.Coherent (RR.tick mem s) ∧ RR.Budget (RR.tick mem s) ∧
      List.Forall₂ (fun p q => carried (spent_on (executing (RR.schedule mem s)) p) p q)
        s.list_process (RR.tick mem s).list_process := by
  have hc4 := rr_coherent_schedule mem s hc
  have hp4 := rr_placed_schedule mem s hc
  have hb4 := rr_budget_of_placed hp4 hb
  have h5 := rr_execute_step (some RR.RR_QUANTUM) _ hc4 hb4
  exact ⟨rr_coherent_tick mem s hc, h5.2, forall₂_carried_then_charged hp4.1 h5.1⟩

end Sched

namespace Sched

/-! ## Runs of the Round-Robin engine -/

theorem map_pid_load (input : List InputRecord) :
    (load input).map PCB.PID = input.map InputRecord.PID := by
  simp [load, add_process, List.map_map, Function.comp_def]

theorem state_of_mem_load (input : List InputRecord) (x : PCB) (hx : x ∈ load input) :
    x.state = States.NOT_ASSIGNED := by
  unfold load at hx
  obtain ⟨r, _, hr⟩ := List.mem_map.1 hx
  rw [← hr]

theorem remaining_of_mem_load (input : List InputRecord) (x : PCB) (hx : x ∈ load input) :
    x.remaining_time = x.processing_time := by
  unfold load at hx
  obtain ⟨r, _, hr⟩ := List.mem_map.1 hx
  rw [← hr]
  rfl

theorem rr_after_succ (mem : Nat → PCB → Bool) (l : List PCB) (n : Nat) :
    RR.after mem l (n + 1) = RR.tick mem (RR.after mem l n) := by
  unfold RR.after
  rw [Function.iterate_succ_apply']

theorem rr_coherent_after (mem : Nat → PCB → Bool) (input : List InputRecord)
    (hn : (input.map InputRecord.PID).Nodup) (n : Nat) :
    RR.Coherent (RR.after mem (load input) n) := by
  induction n with
  | zero =>
    exact rr_coherent_init mem _ (by rw [map_pid_load]; exact hn) (state_of_mem_load input)
  | succ n ih =>
    rw [rr_after_succ]
    exact rr_coherent_tick mem _ ih

theorem map_pid_execute (quantum : Option Nat) (s : Sim) :
    (execute quantum s).list_process.map PCB.PID = s.list_process.map PCB.PID := by
  by_cases hr : s.running.PID ≠ -1
  · rcases execute_cases quantum s hr with ⟨he, _⟩ | ⟨he, _⟩ | ⟨he, _⟩ | ⟨he, _⟩ <;>
      rw [he] <;>
      simp [block_on_io, finish, quantum_expiry, run_one_ms, map_pid_sync_all]
  · rw [execute_idle quantum s (not_not.1 hr)]

theorem rr_map_pid_after (mem : Nat → PCB → Bool) (input : List InputRecord)
    (hn : (input.map InputRecord.PID).Nodup) (n : Nat) :
    (RR.after mem (load input) n).list_process.map PCB.PID = input.map InputRecord.PID := by
  induction n with
  | zero =>
    have h := rr_placed_init mem (load input) (state_of_mem_load input)
    have := forall₂_carried_pids (fun a b hab => hab.1) h.1
    rw [RR.after, Function.iterate_zero, id_eq, this]
    exact map_pid_load input
  | succ n ih =>
    rw [rr_after_succ, ← ih]
    have hc := rr_coherent_after mem input hn n
    have h := rr_placed_schedule mem _ hc
    have := forall₂_carried_pids (fun a b hab => hab.1) h.1
    rw [← this]
    exact map_pid_execute _ _

theorem rr_budget_start (input : List InputRecord)
    (hpt : ∀ r ∈ input, 1 ≤ r.processing_time) : RR.Budget (start (load input)) := by
  intro p hp
  have h1 : p.remaining_time ≠ 0 := by
    unfold load at hp
    obtain ⟨r, hr, hrp⟩ := List.mem_map.1 hp
    rw [← hrp]
    have := hpt r hr
    show r.processing_time ≠ 0
    omega
  constructor
  · intro hz
    exact absurd hz h1
  · intro hT
    simp [start, terminated_pids] at hT

/-- Along a run on an input with pairwise distinct identifiers and positive
processing times: coherence, budget, and for every process the identity
`remaining_time + executed ticks = initial remaining time`. -/
theorem rr_run_invariant (mem : Nat → PCB → Bool) (input : List InputRecord)
    (hn : (input.map InputRecord.PID).Nodup) (hpt : ∀ r ∈ input, 1 ≤ r.processing_time)
    (n : Nat) :
    RR.Coherent (RR.after mem (load input) n) ∧ RR.Budget (RR.after mem (load input) n) ∧
      List.Forall₂ (fun p q => carried (RR.executed_ticks mem (load input) p.PID n) p q)
        (load input) (RR.after mem (load input) n).list_process := by
  induction n with
  | zero =>
    have h := rr_placed_init mem (load input) (state_of_mem_load input)
    exact ⟨rr_coherent_after mem input hn 0, rr_budget_of_placed h (rr_budget_start input hpt),
      h.1⟩
  | succ n ih =>
    obtain ⟨hc, hb, hF⟩ := ih
    have hstep := rr_tick_step mem _ hc hb
    rw [rr_after_succ]
    refine ⟨hstep.1, hstep.2.1, ?_⟩
    exact forall₂_comp
      (R := fun p q => carried (RR.executed_ticks mem (load input) p.PID n) p q)
      (S := fun p q => carried
        (spent_on (executing (RR.schedule mem (RR.after mem (load input) n))) p) p q)
      (T := fun p q => carried (RR.executed_ticks mem (load input) p.PID (n + 1)) p q)
      (fun a b c hab hbc => by
        have h := carried_trans hab hbc
        have hpid : spent_on (executing (RR.schedule mem (RR.after mem (load input) n))) b =
            (if executing (RR.schedule mem (RR.after mem (load input) n)) = some a.PID
              then 1 else 0) := by
          unfold spent_on
          rw [hab.1]
        rw [hpid] at h
        exact h) hF hstep.2.2

/-! ## The partition -/

theorem nodup_map_pid_of_subset {l Q : List PCB} (hn : (l.map PCB.PID).Nodup)
    (hsub : ∀ q ∈ Q, q ∈ l) (hQ : Q.Nodup) : (Q.map PCB.PID).Nodup :=
  List.Nodup.map_on (fun x hx y hy h => eq_of_pid_eq hn (hsub x hx) (hsub y hy) h) hQ

theorem count_pid_of_subset {l Q : List PCB} (hn : (l.map PCB.PID).Nodup)
    (hsub : ∀ q ∈ Q, q ∈ l) (hQ : Q.Nodup) {p : PCB} (hp : p ∈ l) :
    (Q.map PCB.PID).count p.PID = if p ∈ Q then 1 else 0 := by
  have hnd := nodup_map_pid_of_subset hn hsub hQ
  by_cases hpq : p ∈ Q
  · rw [if_pos hpq]
    exact List.count_eq_one_of_mem hnd (List.mem_map.2 ⟨p, hpq, rfl⟩)
  · rw [if_neg hpq]
    apply List.count_eq_zero_of_not_mem
    intro hmem
    obtain ⟨q, hq, hqp⟩ := List.mem_map.1 hmem
    have := eq_of_pid_eq hn (hsub q hq) hp hqp
    rw [this] at hq
    exact hpq hq

theorem rr_place_count_eq_one (s : Sim) (hc : RR.Coherent s) (p : PCB)
    (hp : p ∈ s.list_process) (hs : p.PID ≠ -1) : RR.place_count s p.PID = 1 := by
  have hA : (if ∃ x ∈ s.list_process, x.PID = p.PID ∧ x.state = States.NOT_ASSIGNED
      then 1 else 0) = if p.state = States.NOT_ASSIGNED then 1 else 0 := by
    by_cases hna : p.state = States.NOT_ASSIGNED
    · rw [if_pos hna, if_pos ⟨p, hp, rfl, hna⟩]
    · rw [if_neg hna, if_neg]
      rintro ⟨x, hx, hxp, hxs⟩
      rw [eq_of_pid_eq hc.nodup hx hp hxp] at hxs
      exact hna hxs
  have hB := count_pid_of_subset hc.nodup (fun q hq => (hc.ready_mem q hq).1)
    hc.ready_nodup hp
  have hD := count_pid_of_subset hc.nodup (fun q hq => (hc.wait_mem q hq).1)
    hc.wait_nodup hp
  have hE : termination_events s.execution_status p.PID =
      if p.PID ∈ terminated_pids s.execution_status then 1 else 0 := by
    unfold termination_events
    by_cases hT : p.PID ∈ terminated_pids s.execution_status
    · rw [if_pos hT]
      exact List.count_eq_one_of_mem hc.term_nodup hT
    · rw [if_neg hT]
      exact List.count_eq_zero_of_not_mem hT
  have hrun : s.running.PID = p.PID → p.state = States.RUNNING := by
    intro h
    have hr : s.running.PID ≠ -1 := by rw [h]; exact hs
    have := eq_of_pid_eq hc.nodup (hc.run_mem hr).1 hp h
    rw [← this]
    exact (hc.run_mem hr).2
  unfold RR.place_count
  rw [hA, hB, hD, hE]
  rcases hc.states p hp with hst | hst | hst | hst
  · have h1 : p ∉ s.ready_queue := fun h => by
      have := (hc.ready_mem p h).2
      rw [hst] at this
      exact absurd this (by decide)
    have h2 : p ∉ s.wait_queue.map Prod.fst := fun h => by
      have := (hc.wait_mem p h).2
      rw [hst] at this
      exact absurd this (by decide)
    have h3 : ¬ s.running.PID = p.PID := fun h => by
      have := hrun h
      rw [hst] at this
      exact absurd this (by decide)
    have h4 : p.PID ∉ terminated_pids s.execution_status := fun h => by
      have := (hc.term_imp p hp h).1
      rw [hst] at this
      exact absurd this (by decide)
    rw [if_pos hst, if_neg h1, if_neg h2, if_neg h3, if_neg h4]
  · have h0 : ¬ p.state = States.NOT_ASSIGNED := by rw [hst]; decide
    have h1 : p ∈ s.ready_queue := hc.ready_all p hp hst
    have h2 : p ∉ s.wait_queue.map Prod.fst := fun h => by
      have := (hc.wait_mem p h).2
      rw [hst] at this
      exact absurd this (by decide)
    have h3 : ¬ s.running.PID = p.PID := fun h => by
      have := hrun h
      rw [hst] at this
      exact absurd this (by decide)
    have h4 : p.PID ∉ terminated_pids s.execution_status := fun h => by
      have := (hc.term_imp p hp h).1
      rw [hst] at this
      exact absurd this (by decide)
    rw [if_neg h0, if_pos h1, if_neg h2, if_neg h3, if_neg h4]
  · have h0 : ¬ p.state = States.NOT_ASSIGNED := by rw [hst]; decide
    have h1 : p ∉ s.ready_queue := fun h => by
      have := (hc.ready_mem p h).2
      rw [hst] at this
      exact absurd this (by decide)
    have h2 : p ∈ s.wait_queue.map Prod.fst := hc.wait_all p hp hst
    have h3 : ¬ s.running.PID = p.PID := fun h => by
      have := hrun h
      rw [hst] at this
      exact absurd this (by decide)
    have h4 : p.PID ∉ terminated_pids s.execution_status := fun h => by
      have := (hc.term_imp p hp h).1
      rw [hst] at this
      exact absurd this (by decide)
    rw [if_neg h0, if_neg h1, if_pos h2, if_neg h3, if_neg h4]
  · have h0 : ¬ p.state = States.NOT_ASSIGNED := by rw [hst]; decide
    have h1 : p ∉ s.ready_queue := fun h => by
      have := (hc.ready_mem p h).2
      rw [hst] at this
      exact absurd this (by decide)
    have h2 : p ∉ s.wait_queue.map Prod.fst := fun h => by
      have := (hc.wait_mem p h).2
      rw [hst] at this
      exact absurd this (by decide)
    rw [if_neg h0, if_neg h1, if_neg h2]
    by_cases h3 : s.running.PID = p.PID
    · have h4 : p.PID ∉ terminated_pids s.execution_status :=
        fun h => (hc.term_imp p hp h).2 h3.symm
      rw [if_pos h3, if_neg h4]
    · have h4 : p.PID ∈ terminated_pids s.execution_status :=
        hc.done_imp p hp hs hst (fun h => h3 h.symm)
      rw [if_neg h3, if_pos h4]

theorem rr_occupants_nodup (s : Sim) (hc : RR.Coherent s) : (occupants s).Nodup := by
  have hR := nodup_map_pid_of_subset hc.nodup (fun q hq => (hc.ready_mem q hq).1)
    hc.ready_nodup
  have hW := nodup_map_pid_of_subset hc.nodup (fun q hq => (hc.wait_mem q hq).1)
    hc.wait_nodup
  have hdis : ∀ {A B : List PCB} {a b : States}, a ≠ b →
      (∀ q ∈ A, q ∈ s.list_process ∧ q.state = a) →
      (∀ q ∈ B, q ∈ s.list_process ∧ q.state = b) →
      ∀ pid, pid ∈ A.map PCB.PID → pid ∈ B.map PCB.PID → False := by
    intro A B a b hab hA hB pid h1 h2
    obtain ⟨x, hx, hxp⟩ := List.mem_map.1 h1
    obtain ⟨y, hy, hyp⟩ := List.mem_map.1 h2
    have := eq_of_pid_eq hc.nodup (hA x hx).1 (hB y hy).1 (hxp.trans hyp.symm)
    have h3 := (hA x hx).2
    rw [this, (hB y hy).2] at h3
    exact hab h3.symm
  unfold occupants
  by_cases hr : s.running.PID = -1
  · rw [if_pos hr, List.append_nil]
    apply List.Nodup.append hR hW
    intro pid h1 h2
    exact hdis (by decide) hc.ready_mem hc.wait_mem pid h1 h2
  · rw [if_neg hr]
    have hrun : ∀ q ∈ [s.running], q ∈ s.list_process ∧ q.state = States.RUNNING := by
      intro q hq
      rw [List.mem_singleton.1 hq]
      exact hc.run_mem hr
    apply List.Nodup.append hR
    · apply List.Nodup.append hW (List.nodup_singleton _)
      intro pid h1 h2
      exact hdis (by decide) hc.wait_mem hrun pid h1 (by simpa using h2)
    · intro pid h1 h2
      rcases List.mem_append.1 h2 with h2 | h2
      · exact hdis (by decide) hc.ready_mem hc.wait_mem pid h1 h2
      · exact hdis (by decide) hc.ready_mem hrun pid h1 (by simpa using h2)

end Sched

namespace Sched

/-! ## Timing of the Round-Robin engine when admission always succeeds -/

theorem rr_arrivals_settle (mem : Nat → PCB → Bool) (hmem : ∀ k p, mem k p = true) (s : Sim)
    (h : ∀ p ∈ s.list_process, p.state = States.NOT_ASSIGNED →
      s.current_time ≤ p.arrival_time ∧ p.arrival_time ≠ 0) :
    ∀ p ∈ (RR.arrivals mem s).list_process, p.state = States.NOT_ASSIGNED →
      s.current_time < p.arrival_time := by
  have key := for_each_process_induct_split (RR.arrival_body mem)
    (fun done todo s1 => s1.current_time = s.current_time ∧
      (∀ x ∈ done, x.state = States.NOT_ASSIGNED → s.current_time < x.arrival_time) ∧
      (∀ x ∈ todo, x.state = States.NOT_ASSIGNED →
        s.current_time ≤ x.arrival_time ∧ x.arrival_time ≠ 0)) ?_
    s.list_process [] s (by simp) ⟨rfl, by simp, h⟩
  · exact key.2.1
  intro done p todo s1 _ h1
  obtain ⟨ht, hd, htodo⟩ := h1
  rcases rr_arrival_body_cases mem p s1 with ⟨jl, k, hb, hno⟩ | ⟨_, jl, hb⟩
  · rw [hb]
    refine ⟨ht, ?_, fun x hx => htodo x (List.mem_cons_of_mem _ hx)⟩
    intro x hx hxs
    rcases List.mem_append.1 hx with hx | hx
    · exact hd x hx hxs
    · rw [List.mem_singleton] at hx
      rw [hx] at hxs ⊢
      have h2 := htodo p (List.mem_cons_self _ _) hxs
      have h3 := hno (hmem _ _)
      rw [ht] at h3
      have : p.arrival_time ≠ s.current_time := fun h4 => h3 ⟨h4, h2.2, hxs⟩
      show s.current_time < p.arrival_time
      omega
  · rw [hb]
    refine ⟨ht, ?_, fun x hx => htodo x (List.mem_cons_of_mem _ hx)⟩
    intro x hx hxs
    rcases List.mem_append.1 hx with hx | hx
    · exact hd x hx hxs
    · rw [List.mem_singleton] at hx
      rw [hx] at hxs
      simp at hxs

theorem rr_init_settles (mem : Nat → PCB → Bool) (hmem : ∀ k p, mem k p = true) (l : List PCB)
    (hall : ∀ x ∈ l, x.state = States.NOT_ASSIGNED) :
    ∀ p ∈ (RR.init mem l).list_process, p.state = States.NOT_ASSIGNED →
      p.arrival_time ≠ 0 := by
  have key := for_each_process_induct_split (RR.init_body mem)
    (fun done todo _ =>
      (∀ x ∈ done, x.state = States.NOT_ASSIGNED → x.arrival_time ≠ 0) ∧
      (∀ x ∈ todo, x.state = States.NOT_ASSIGNED)) ?_
    l [] (start l) (by simp [start]) ⟨by simp, hall⟩
  · exact key.1
  intro done p todo s1 _ h1
  obtain ⟨hd, htodo⟩ := h1
  have hp := htodo p (List.mem_cons_self _ _)
  rcases rr_init_body_cases mem p s1 hp with ⟨jl, k, hb, hno⟩ | ⟨jl, hb⟩
  · rw [hb]
    refine ⟨?_, fun x hx => htodo x (List.mem_cons_of_mem _ hx)⟩
    intro x hx hxs
    rcases List.mem_append.1 hx with hx | hx
    · exact hd x hx hxs
    · rw [List.mem_singleton] at hx
      rw [hx]
      exact hno (hmem _ _)
  · rw [hb]
    refine ⟨?_, fun x hx => htodo x (List.mem_cons_of_mem _ hx)⟩
    intro x hx hxs
    rcases List.mem_append.1 hx with hx | hx
    · exact hd x hx hxs
    · rw [List.mem_singleton] at hx
      rw [hx] at hxs
      simp at hxs

theorem rr_arrive_of_placed {s t : Sim} (hp : RR.Placed s t) (c : Nat)
    (h : ∀ p ∈ s.list_process, p.state = States.NOT_ASSIGNED → c < p.arrival_time) :
    ∀ q ∈ t.list_process, q.state = States.NOT_ASSIGNED → c < q.arrival_time := by
  intro q hq hqs
  obtain ⟨p, hpm, _, c2, _, _, _, _, c7⟩ := forall₂_exists_left hp.1 q hq
  rw [c2]
  exact h p hpm (c7 hqs)

theorem rr_no_sentinel_of_pids {l1 l2 : List PCB} (hpids : l2.map PCB.PID = l1.map PCB.PID)
    (h : ∀ p ∈ l1, p.PID ≠ -1) : ∀ q ∈ l2, q.PID ≠ -1 := by
  intro q hq
  have : q.PID ∈ l1.map PCB.PID := by
    rw [← hpids]
    exact List.mem_map.2 ⟨q, hq, rfl⟩
  obtain ⟨p, hp, hpq⟩ := List.mem_map.1 this
  rw [← hpq]
  exact h p hp

theorem io_loop_wait_queue (todo : List (PCB × Nat)) :
    ∀ (kept : List (PCB × Nat)) (s : Sim), s.wait_queue = kept ++ todo →
      (io_loop kept todo s).wait_queue =
          kept ++ todo.filter (fun e => decide (e.2 ≠ s.current_time)) ∧
        (io_loop kept todo s).current_time = s.current_time := by
  induction todo with
  | nil =>
    intro kept s hw
    simp [io_loop, hw]
  | cons e todo ih =>
    intro kept s hw
    rw [io_loop]
    by_cases hc : e.2 = s.current_time
    · rw [if_pos hc]
      have := ih kept _ (rfl : ({ s with
        execution_status := s.execution_status ++
          [⟨s.current_time, e.1.PID, States.WAITING, States.READY⟩],
        list_process := sync_all { e.1 with state := States.READY } s.list_process,
        job_list := sync_all { e.1 with state := States.READY } s.job_list,
        ready_queue := s.ready_queue ++ [{ e.1 with state := States.READY }],
        wait_queue := kept ++ todo } : Sim).wait_queue = kept ++ todo)
      refine ⟨?_, this.2⟩
      rw [this.1, List.filter_cons]
      simp [hc]
    · rw [if_neg hc]
      have := ih (kept ++ [e]) s (by rw [hw]; simp)
      refine ⟨?_, this.2⟩
      rw [this.1, List.filter_cons]
      simp [hc]

theorem rr_settled_schedule (mem : Nat → PCB → Bool) (hmem : ∀ k p, mem k p = true) (s : Sim)
    (hc : RR.Coherent s) (ht : RR.Timed s) : RR.Settled (RR.schedule mem s) := by
  have hc1 := rr_coherent_arrivals mem s hc
  have hc2 := rr_coherent_pending mem s.current_time _ hc1
  have hc3 := rr_coherent_io _ hc2
  have hp1 := rr_placed_arrivals mem s
  have hp2 := rr_placed_pending mem s.current_time (RR.arrivals mem s)
  have hp3 := rr_placed_io _ hc2
  have hp4 := rr_placed_dispatch _ hc3
  have hp12 := rr_placed_trans hp1 hp2
  have hp34 := rr_placed_trans hp3 hp4
  have hpall := rr_placed_schedule mem s hc
  have htime : (RR.schedule mem s).current_time = s.current_time := hpall.2.2.1
  constructor
  · rw [htime]
    exact rr_arrive_of_placed (rr_placed_trans hp2 hp34) _ (rr_arrivals_settle mem hmem s ht.arrive)
  · intro e he
    rw [htime]
    have he3 : e ∈ (io_completions (try_assign_pending mem s.current_time
        (RR.arrivals mem s))).wait_queue := hp4.2.2.2.2.subset he
    unfold io_completions at he3
    rw [(io_loop_wait_queue _ [] _ (by simp)).1, List.nil_append, List.mem_filter] at he3
    have he0 : e ∈ s.wait_queue := hp12.2.2.2.2.subset he3.1
    have h1 := ht.wake e he0
    have h2 : e.2 ≠ s.current_time := by
      have := of_decide_eq_true he3.2
      rw [hp12.2.2.1] at this
      exact this
    omega
  · exact rr_no_sentinel_of_pids (forall₂_carried_pids (fun a b hab => hab.1) hpall.1)
      ht.no_sentinel

theorem execute_current_time (quantum : Option Nat) (s : Sim) :
    (execute quantum s).current_time = s.current_time := by
  by_cases hr : s.running.PID ≠ -1
  · rcases execute_cases quantum s hr with ⟨he, _⟩ | ⟨he, _⟩ | ⟨he, _⟩ | ⟨he, _⟩ <;>
      rw [he] <;> rfl
  · rw [execute_idle quantum s (not_not.1 hr)]

theorem execute_wait_queue (quantum : Option Nat) (s : Sim) :
    ∀ e ∈ (execute quantum s).wait_queue, e ∈ s.wait_queue ∨ s.current_time < e.2 := by
  intro e he
  by_cases hr : s.running.PID ≠ -1
  · rcases execute_cases quantum s hr with ⟨hx, _⟩ | ⟨hx, _⟩ | ⟨hx, _⟩ | ⟨hx, _⟩
    · rw [hx] at he
      have he2 : e ∈ s.wait_queue ++ [({ (run_one_ms s).running with state := States.WAITING },
          s.current_time + 1 + (run_one_ms s).running.io_duration)] := he
      rcases List.mem_append.1 he2 with h | h
      · exact Or.inl h
      · rw [List.mem_singleton.1 h]
        right
        show s.current_time < s.current_time + 1 + _
        omega
    · rw [hx] at he
      exact Or.inl he
    · rw [hx] at he
      exact Or.inl he
    · rw [hx] at he
      exact Or.inl he
  · rw [execute_idle quantum s (not_not.1 hr)] at he
    exact Or.inl he

theorem rr_timed_tick (mem : Nat → PCB → Bool) (hmem : ∀ k p, mem k p = true) (s : Sim)
    (hc : RR.Coherent s) (hb : RR.Budget s) (ht : RR.Timed s) : RR.Timed (RR.tick mem s) := by
  have hs4 := rr_settled_schedule mem hmem s hc ht
  have hstep := rr_tick_step mem s hc hb
  have hpall := rr_placed_schedule mem s hc
  have htime : (RR.schedule mem s).current_time = s.current_time := hpall.2.2.1
  have htick : (RR.tick mem s).current_time = s.current_time + 1 := by
    show (execute _ (RR.schedule mem s)).current_time + 1 = _
    rw [execute_current_time, htime]
  constructor
  · intro q hq hqs
    obtain ⟨p, hpm, _, c2, _, _, _, _, c7⟩ := forall₂_exists_left hstep.2.2 q hq
    have h0 := ht.arrive p hpm (c7 hqs)
    obtain ⟨p4, hp4, d1, d2, _, _, _, _, d7⟩ := forall₂_exists_right hpall.1 p hpm
    have hq4 : q ∈ (execute (some RR.RR_QUANTUM) (RR.schedule mem s)).list_process := hq
    have hchain := rr_execute_step (some RR.RR_QUANTUM) _ (rr_coherent_schedule mem s hc)
      (rr_budget_of_placed hpall hb)
    obtain ⟨p5, hp5, e1, e2, _, _, _, _, e7⟩ := forall₂_exists_left hchain.1 q hq4
    have h5 := hs4.arrive p5 hp5 (e7 hqs)
    rw [htick, e2]
    rw [htime] at h5
    constructor
    · omega
    · omega
  · intro e he
    rw [htick]
    have he2 : e ∈ (execute (some RR.RR_QUANTUM) (RR.schedule mem s)).wait_queue := he
    rcases execute_wait_queue _ _ e he2 with h | h
    · have := hs4.wake e h
      rw [htime] at this
      omega
    · rw [htime] at h
      omega
  · exact rr_no_sentinel_of_pids
      (forall₂_carried_pids (fun a b hab => hab.1) hstep.2.2) ht.no_sentinel

theorem rr_timed_init (mem : Nat → PCB → Bool) (hmem : ∀ k p, mem k p = true)
    (input : List InputRecord) (hs : ∀ r ∈ input, r.PID ≠ -1) :
    RR.Timed (RR.init mem (load input)) := by
  have hp := rr_placed_init mem (load input) (state_of_mem_load input)
  have htime : (RR.init mem (load input)).current_time = 0 := hp.2.2.1
  constructor
  · intro p hpm hps
    rw [htime]
    exact ⟨Nat.zero_le _, rr_init_settles mem hmem _ (state_of_mem_load input) p hpm hps⟩
  · intro e he
    have := hp.2.2.2.2.subset he
    simp [start] at this
  · apply rr_no_sentinel_of_pids (forall₂_carried_pids (fun a b hab => hab.1) hp.1)
    intro p hpm
    have : p.PID ∈ input.map InputRecord.PID := by
      rw [← map_pid_load]
      exact List.mem_map.2 ⟨p, hpm, rfl⟩
    obtain ⟨r, hr, hrp⟩ := List.mem_map.1 this
    rw [← hrp]
    exact hs r hr

end Sched

namespace Sched

/-! ## Sums over related lists -/

theorem sum_le_of_forall₂ {R : PCB → PCB → Prop} {f g : PCB → Nat} {l1 l2 : List PCB}
    (h : List.Forall₂ R l1 l2) (hle : ∀ a b, R a b → g b ≤ f a) :
    (l2.map g).sum ≤ (l1.map f).sum := by
  induction h with
  | nil => simp
  | cons hab _ ih =>
    simp only [List.map_cons, List.sum_cons]
    have := hle _ _ hab
    omega

theorem sum_lt_of_forall₂ {R : PCB → PCB → Prop} {f g : PCB → Nat} {l1 l2 : List PCB}
    (h : List.Forall₂ R l1 l2) (hle : ∀ a b, R a b → g b ≤ f a)
    (hlt : ∃ a ∈ l1, ∀ b, R a b → g b < f a) :
    (l2.map g).sum < (l1.map f).sum := by
  induction h with
  | nil =>
    obtain ⟨a, ha, _⟩ := hlt
    simp at ha
  | cons hab htl ih =>
    rename_i a b l1 l2
    simp only [List.map_cons, List.sum_cons]
    obtain ⟨x, hx, hxlt⟩ := hlt
    rcases List.mem_cons.1 hx with hx | hx
    · have h1 := hxlt b (hx ▸ hab)
      have h2 := sum_le_of_forall₂ htl hle
      rw [hx] at h1
      omega
    · have h1 := hle _ _ hab
      have h2 := ih ⟨x, hx, hxlt⟩
      omega

theorem sum_sub_le_of_sublist {l1 l2 : List (PCB × Nat)} (h : l1.Sublist l2) (t : Nat) :
    (l1.map (fun e => e.2 - (t + 1))).sum ≤ (l2.map (fun e => e.2 - t)).sum := by
  induction h with
  | slnil => simp
  | cons a _ ih =>
    simp only [List.map_cons, List.sum_cons]
    omega
  | cons₂ a _ ih =>
    simp only [List.map_cons, List.sum_cons]
    omega

theorem sum_sub_lt_of_sublist {l1 l2 : List (PCB × Nat)} (h : l1.Sublist l2) (t : Nat)
    (hex : ∃ e ∈ l1, t < e.2) :
    (l1.map (fun e => e.2 - (t + 1))).sum < (l2.map (fun e => e.2 - t)).sum := by
  induction h with
  | slnil =>
    obtain ⟨e, he, _⟩ := hex
    simp at he
  | cons a _ ih =>
    simp only [List.map_cons, List.sum_cons]
    have := ih hex
    omega
  | cons₂ a hsub ih =>
    simp only [List.map_cons, List.sum_cons]
    obtain ⟨e, he, hlt⟩ := hex
    rcases List.mem_cons.1 he with he | he
    · have := sum_sub_le_of_sublist hsub t
      rw [he] at hlt
      omega
    · have := ih ⟨e, he, hlt⟩
      omega

/-! ## Progress of the Round-Robin loop -/

theorem rr_work_tick_le (mem : Nat → PCB → Bool) (s : Sim) (hc : RR.Coherent s)
    (hb : RR.Budget s) : RR.work (RR.tick mem s) ≤ RR.work s := by
  unfold RR.work
  apply sum_le_of_forall₂ (rr_tick_step mem s hc hb).2.2
  intro a b hab
  have := hab.2.2.2.2.2.1
  omega

theorem rr_work_tick_lt (mem : Nat → PCB → Bool) (s : Sim) (hc : RR.Coherent s)
    (hb : RR.Budget s) (hr : (RR.schedule mem s).running.PID ≠ -1) :
    RR.work (RR.tick mem s) < RR.work s := by
  unfold RR.work
  apply sum_lt_of_forall₂ (rr_tick_step mem s hc hb).2.2
  · intro a b hab
    have := hab.2.2.2.2.2.1
    omega
  · have hc4 := rr_coherent_schedule mem s hc
    have hp4 := rr_placed_schedule mem s hc
    obtain ⟨a, ha, hca⟩ := forall₂_exists_left hp4.1 _ (hc4.run_mem hr).1
    refine ⟨a, ha, ?_⟩
    intro b hab
    have h6 := hab.2.2.2.2.2.1
    have : spent_on (executing (RR.schedule mem s)) a = 1 := by
      rw [executing_busy _ hr]
      unfold spent_on
      rw [if_pos (by rw [hca.1])]
    rw [this] at h6
    omega

theorem rr_dispatch_idle (s : Sim) (hc : RR.Coherent s)
    (hns : ∀ p ∈ s.list_process, p.PID ≠ -1) (hr : (RR.dispatch s).running.PID = -1) :
    (RR.dispatch s).ready_queue = [] := by
  unfold RR.dispatch at hr ⊢
  by_cases hi : s.running.PID = -1
  · rw [if_pos hi] at hr ⊢
    cases hrq : s.ready_queue with
    | nil => simp [hrq]
    | cons front rest =>
      rw [hrq] at hr
      have hfm : front ∈ s.ready_queue := by rw [hrq]; simp
      exact absurd hr (hns front (hc.ready_mem front hfm).1)
  · rw [if_neg hi] at hr
    exact absurd hr hi

/-- While the loop runs, some process has no logged termination. -/
theorem rr_exists_unfinished (s : Sim) (hc : RR.Coherent s)
    (hg : s.terminated_count < s.list_process.length) :
    ∃ p ∈ s.list_process, p.PID ∉ terminated_pids s.execution_status := by
  by_contra hno
  push_neg at hno
  have hsub : s.list_process.map PCB.PID ⊆ terminated_pids s.execution_status := by
    intro pid hpid
    obtain ⟨p, hp, hpp⟩ := List.mem_map.1 hpid
    rw [← hpp]
    exact hno p hp
  have := (List.subperm_of_subset hc.nodup hsub).length_le
  rw [List.length_map, ← hc.count] at this
  omega

/-- Once the loop has stopped, every process has a logged termination. -/
theorem rr_all_finished (s : Sim) (hc : RR.Coherent s)
    (hg : ¬ s.terminated_count < s.list_process.length) :
    ∀ p ∈ s.list_process, p.PID ∈ terminated_pids s.execution_status := by
  intro p hp
  have hsub : terminated_pids s.execution_status ⊆ s.list_process.map PCB.PID :=
    fun pid hpid => hc.term_sub pid hpid
  have hperm := (List.subperm_of_subset hc.term_nodup hsub).perm_of_length_le (by
    rw [List.length_map, ← hc.count]
    omega)
  exact hperm.mem_iff.2 (List.mem_map.2 ⟨p, hp, rfl⟩)

theorem rr_idle_wait_tick_lt (mem : Nat → PCB → Bool) (hmem : ∀ k p, mem k p = true) (s : Sim)
    (hc : RR.Coherent s) (ht : RR.Timed s)
    (hg : s.terminated_count < s.list_process.length)
    (hr : (RR.schedule mem s).running.PID = -1) :
    RR.idle_wait (RR.tick mem s) < RR.idle_wait s := by
  have hc4 := rr_coherent_schedule mem s hc
  have hp4 := rr_placed_schedule mem s hc
  have hs4 := rr_settled_schedule mem hmem s hc ht
  have htime : (RR.schedule mem s).current_time = s.current_time := hp4.2.2.1
  have htick : RR.tick mem s = advance (RR.schedule mem s) := by
    unfold RR.tick
    rw [execute_idle _ _ hr]
  have hlen : (RR.schedule mem s).list_process.length = s.list_process.length := by
    have := congrArg List.length (forall₂_carried_pids (fun a b hab => hab.1) hp4.1)
    simpa using this
  have hg4 : (RR.schedule mem s).terminated_count < (RR.schedule mem s).list_process.length := by
    rw [hlen, hp4.2.2.2.1]
    exact hg
  obtain ⟨x, hx, hxT⟩ := rr_exists_unfinished _ hc4 hg4
  have hready : (RR.schedule mem s).ready_queue = [] := by
    have hc3 := rr_coherent_io _ (rr_coherent_pending mem s.current_time _
      (rr_coherent_arrivals mem s hc))
    apply rr_dispatch_idle _ hc3 _ hr
    have hp3 := rr_placed_trans (rr_placed_trans (rr_placed_arrivals mem s)
      (rr_placed_pending mem s.current_time _))
      (rr_placed_io _ (rr_coherent_pending mem s.current_time _ (rr_coherent_arrivals mem s hc)))
    exact rr_no_sentinel_of_pids (forall₂_carried_pids (fun a b hab => hab.1) hp3.1)
      ht.no_sentinel
  have hleA : ∀ a b, carried 0 a b →
      (if b.state = States.NOT_ASSIGNED then b.arrival_time + 1 - (s.current_time + 1) else 0) ≤
      (if a.state = States.NOT_ASSIGNED then a.arrival_time + 1 - s.current_time else 0) := by
    intro a b hab
    by_cases hbs : b.state = States.NOT_ASSIGNED
    · rw [if_pos hbs, if_pos (hab.2.2.2.2.2.2 hbs), hab.2.1]
      omega
    · rw [if_neg hbs]
      exact Nat.zero_le _
  have hA := sum_le_of_forall₂ (f := fun a =>
      if a.state = States.NOT_ASSIGNED then a.arrival_time + 1 - s.current_time else 0)
    (g := fun b =>
      if b.state = States.NOT_ASSIGNED then b.arrival_time + 1 - (s.current_time + 1) else 0)
    hp4.1 hleA
  have hB := sum_sub_le_of_sublist hp4.2.2.2.2 s.current_time
  have hstrict :
      ((RR.schedule mem s).list_process.map (fun b =>
        if b.state = States.NOT_ASSIGNED then b.arrival_time + 1 - (s.current_time + 1)
        else 0)).sum <
      (s.list_process.map (fun a =>
        if a.state = States.NOT_ASSIGNED then a.arrival_time + 1 - s.current_time
        else 0)).sum ∨
      ((RR.schedule mem s).wait_queue.map (fun e => e.2 - (s.current_time + 1))).sum <
      (s.wait_queue.map (fun e => e.2 - s.current_time)).sum := by
    rcases hc4.states x hx with hst | hst | hst | hst
    · left
      obtain ⟨a, ha, hax⟩ := forall₂_exists_left hp4.1 x hx
      apply sum_lt_of_forall₂ hp4.1 hleA
      refine ⟨a, ha, ?_⟩
      intro b hab
      have hna := hax.2.2.2.2.2.2 hst
      have harr := (ht.arrive a ha hna).1
      rw [if_pos hna]
      by_cases hbs : b.state = States.NOT_ASSIGNED
      · rw [if_pos hbs, hab.2.1]
        omega
      · rw [if_neg hbs]
        omega
    · have := hc4.ready_all x hx hst
      rw [hready] at this
      simp at this
    · right
      obtain ⟨e, he, _⟩ := List.mem_map.1 (hc4.wait_all x hx hst)
      apply sum_sub_lt_of_sublist hp4.2.2.2.2
      refine ⟨e, he, ?_⟩
      have := hs4.wake e he
      rw [htime] at this
      exact this
    · exfalso
      apply hxT
      apply hc4.done_imp x hx (hs4.no_sentinel x hx) hst
      rw [hr]
      exact hs4.no_sentinel x hx
  rw [htick]
  unfold RR.idle_wait
  show ((RR.schedule mem s).list_process.map (fun p =>
      if p.state = States.NOT_ASSIGNED then
        p.arrival_time + 1 - ((RR.schedule mem s).current_time + 1) else 0)).sum +
    ((RR.schedule mem s).wait_queue.map
      (fun e => e.2 - ((RR.schedule mem s).current_time + 1))).sum < _
  rw [htime]
  rcases hstrict with h | h
  · omega
  · omega

end Sched

namespace Sched

/-! ## The Round-Robin loop halts -/

theorem rr_length_tick (mem : Nat → PCB → Bool) (s : Sim) (hc : RR.Coherent s)
    (hb : RR.Budget s) : (RR.tick mem s).list_process.length = s.list_process.length :=
  ((rr_tick_step mem s hc hb).2.2).length_eq.symm

theorem rr_loop_halts (mem : Nat → PCB → Bool) (hmem : ∀ k p, mem k p = true) (N : Nat) :
    ∀ (a b : Nat) (s : Sim), RR.work s = a → RR.idle_wait s = b → RR.Coherent s →
      RR.Budget s → RR.Timed s → s.list_process.length = N →
      ∃ k, while_loop (RR.tick mem) N k s = some ((RR.tick mem)^[k] s) ∧
        ¬ ((RR.tick mem)^[k] s).terminated_count < N := by
  intro a
  induction a using Nat.strong_induction_on with
  | _ a iha =>
    intro b
    induction b using Nat.strong_induction_on with
    | _ b ihb =>
      intro s ha hb hc hbud ht hlen
      by_cases hg : s.terminated_count < N
      · have hstep := rr_tick_step mem s hc hbud
        have ht2 := rr_timed_tick mem hmem s hc hbud ht
        have hlen2 : (RR.tick mem s).list_process.length = N := by
          rw [rr_length_tick mem s hc hbud, hlen]
        have hnext : ∃ k, while_loop (RR.tick mem) N k (RR.tick mem s) =
            some ((RR.tick mem)^[k] (RR.tick mem s)) ∧
            ¬ ((RR.tick mem)^[k] (RR.tick mem s)).terminated_count < N := by
          by_cases hr : (RR.schedule mem s).running.PID = -1
          · have hle := rr_work_tick_le mem s hc hbud
            rw [ha] at hle
            rcases Nat.lt_or_ge (RR.work (RR.tick mem s)) a with hlt | hge
            · exact iha _ hlt _ _ rfl rfl hstep.1 hstep.2.1 ht2 hlen2
            · have hlt2 := rr_idle_wait_tick_lt mem hmem s hc ht (by rw [hlen]; exact hg) hr
              rw [hb] at hlt2
              exact ihb _ hlt2 _ (le_antisymm hle hge) rfl hstep.1 hstep.2.1 ht2 hlen2
          · have hlt := rr_work_tick_lt mem s hc hbud hr
            rw [ha] at hlt
            exact iha _ hlt _ _ rfl rfl hstep.1 hstep.2.1 ht2 hlen2
        obtain ⟨k, hk1, hk2⟩ := hnext
        refine ⟨k + 1, ?_, ?_⟩
        · rw [while_loop, if_pos hg, Function.iterate_succ_apply]
          exact hk1
        · rw [Function.iterate_succ_apply]
          exact hk2
      · refine ⟨0, ?_, ?_⟩
        · rw [while_loop, if_neg hg]
          rfl
        · exact hg

theorem mem_terminated_pids (log : List Event) (pid : Int) (h : pid ∈ terminated_pids log) :
    ∃ e ∈ log, e.pid = pid ∧ e.old_state = States.RUNNING ∧
      e.new_state = States.TERMINATED := by
  unfold terminated_pids at h
  obtain ⟨e, he, hpid⟩ := List.mem_map.1 h
  rw [List.mem_filter] at he
  exact ⟨e, he.1, hpid, of_decide_eq_true he.2⟩

/-- With admission always succeeding, identifiers pairwise distinct and none
equal to the idle sentinel, and positive processing times, the Round-Robin loop
exits after finitely many iterations, with every process terminated. -/
theorem rr_run_halts (mem : Nat → PCB → Bool) (hmem : ∀ k p, mem k p = true)
    (input : List InputRecord) (hn : (input.map InputRecord.PID).Nodup)
    (hs : ∀ r ∈ input, r.PID ≠ -1) (hpt : ∀ r ∈ input, 1 ≤ r.processing_time) :
    ∃ k, RR.run_simulation mem (load input) k = some (RR.after mem (load input) k) ∧
      ∀ r ∈ input, r.PID ∈ terminated_pids (RR.after mem (load input) k).execution_status := by
  have h0 := rr_run_invariant mem input hn hpt 0
  have hlen0 : (RR.init mem (load input)).list_process.length = (load input).length :=
    h0.2.2.length_eq.symm
  obtain ⟨k, hk1, hk2⟩ := rr_loop_halts mem hmem (load input).length _ _
    (RR.init mem (load input)) rfl rfl h0.1 h0.2.1 (rr_timed_init mem hmem input hs) hlen0
  refine ⟨k, hk1, ?_⟩
  intro r hr
  have hc := rr_coherent_after mem input hn k
  have hpids := rr_map_pid_after mem input hn k
  have hlen : (RR.after mem (load input) k).list_process.length = (load input).length := by
    have := congrArg List.length hpids
    rw [← map_pid_load] at this
    simpa using this
  have hmemr : r.PID ∈ (RR.after mem (load input) k).list_process.map PCB.PID := by
    rw [hpids]
    exact List.mem_map.2 ⟨r, hr, rfl⟩
  obtain ⟨p, hp, hpr⟩ := List.mem_map.1 hmemr
  rw [← hpr]
  apply rr_all_finished _ hc _ p hp
  rw [hlen]
  exact hk2

end Sched

namespace Sched

/-! ## The clock during arrivals and I/O completions of the priority engines -/

theorem current_time_for_each_process (body : PCB → Sim → PCB × Sim)
    (hbody : ∀ p s, (body p s).2.current_time = s.current_time) (s : Sim) :
    (for_each_process body [] s.list_process s).current_time = s.current_time :=
  for_each_process_induct body (fun s1 => s1.current_time = s.current_time)
    (fun _ p _ s1 _ h => (hbody p s1).trans h) _ _ _ (by simp) rfl

theorem current_time_pending_body (mem : Nat → PCB → Bool) (now : Nat) (p : PCB) (s : Sim) :
    (pending_body mem now p s).2.current_time = s.current_time := by
  rcases pending_body_cases mem now p s with ⟨jl, k, hb, _⟩ | ⟨_, jl, hb⟩ <;> rw [hb]

theorem current_time_arrival_body_priority (mem : Nat → PCB → Bool) (p : PCB) (s : Sim) :
    (arrival_body_priority mem p s).2.current_time = s.current_time := by
  by_cases ha : p.arrival_time = s.current_time ∧ p.arrival_time ≠ 0
  · by_cases hm : mem s.mem_calls p = true
    · simp only [arrival_body_priority, if_pos ha, if_pos hm, make_ready]
    · simp only [arrival_body_priority, if_pos ha, if_neg hm]
  · simp only [arrival_body_priority, if_neg ha]

theorem current_time_intake_priority (mem : Nat → PCB → Bool) (s : Sim) :
    (intake_priority mem s).current_time = s.current_time := by
  unfold intake_priority io_completions
  rw [(io_loop_wait_queue _ [] _ (by simp)).2]
  unfold try_assign_pending
  rw [current_time_for_each_process _ (current_time_pending_body mem _)]
  unfold arrivals_priority
  exact current_time_for_each_process _ (current_time_arrival_body_priority mem) s

end Sched

namespace Sched

/-! ## The claims -/

/-- C1: in the Round-Robin engine, for every input with pairwise distinct
non-negative PIDs and processing_time >= 1, and admission succeeding at every
call, the loop exits after finitely many iterations (`ticks` of them), and on
exit the log holds a RUNNING -> TERMINATED event for every input process. -/
theorem C1_rr_loop_halts_all_terminated (mem : Nat → PCB → Bool)
    (hmem : ∀ k p, mem k p = true) (input : List InputRecord)
    (hn : (input.map InputRecord.PID).Nodup) (hpid : ∀ r ∈ input, 0 ≤ r.PID)
    (hpt : ∀ r ∈ input, 1 ≤ r.processing_time) :
    ∃ ticks s, RR.run_simulation mem (load input) ticks = some s ∧
      s = RR.after mem (load input) ticks ∧
      ∀ r ∈ input, ∃ e ∈ s.execution_status,
        e.pid = r.PID ∧ e.old_state = States.RUNNING ∧ e.new_state = States.TERMINATED := by
  obtain ⟨k, hk1, hk2⟩ := rr_run_halts mem hmem input hn
    (fun r hr h => by have := hpid r hr; omega) hpt
  exact ⟨k, _, hk1, rfl, fun r hr => mem_terminated_pids _ _ (hk2 r hr)⟩

/-- Witness of C1 on Scenario A. -/
theorem C1_rr_loop_halts_all_terminated_witness :
    (∀ k p, always_admitted k p = true) ∧ (scenario_A.map InputRecord.PID).Nodup ∧
    (∀ r ∈ scenario_A, 0 ≤ r.PID) ∧ (∀ r ∈ scenario_A, 1 ≤ r.processing_time) ∧
    ∃ ticks s, RR.run_simulation always_admitted (load scenario_A) ticks = some s ∧
      s = RR.after always_admitted (load scenario_A) ticks ∧
      ∀ r ∈ scenario_A, ∃ e ∈ s.execution_status,
        e.pid = r.PID ∧ e.old_state = States.RUNNING ∧ e.new_state = States.TERMINATED :=
  ⟨fun _ _ => rfl, by decide, by decide, by decide,
   C1_rr_loop_halts_all_terminated always_admitted (fun _ _ => rfl) scenario_A
     (by decide) (by decide) (by decide)⟩

/-- C2 (the code departs from the claim): on Scenario A (PID=1, arrival_time=0,
processing_time=5), with admission always succeeding, the loop of the
non-preemptive priority engine does not exit within any number of iterations;
after any number of iterations no process has been counted as terminated and
the running slot holds the idle sentinel. -/
theorem C2_ep_loop_never_exits (fuel : Nat) :
    EP.run_simulation always_admitted (load scenario_A) fuel = none ∧
      (EP.after always_admitted (load scenario_A) fuel).terminated_count = 0 ∧
      (EP.after always_admitted (load scenario_A) fuel).running.PID = -1 := by
  refine ⟨EP.run_simulation_none _ _ (by decide) fuel, ?_, ?_⟩
  · exact (EP.stuck_after _ _ fuel).2.1
  · rw [(EP.stuck_after _ _ fuel).1]
    rfl

/-- C3 (the code departs from the claim): on Scenario E (PID=2 arrival_time=0
processing_time=20, PID=1 arrival_time=5 processing_time=3), with admission
always succeeding, the loop of the preemptive engine exits after 11 iterations
with two RUNNING -> TERMINATED events for PID 1 in the log and none for PID 2. -/
theorem C3_ep_rr_exit_without_termination :
    ∃ s, EP_RR.run_simulation always_admitted (load scenario_E) 11 = some s ∧
      termination_events s.execution_status 1 = 2 ∧
      termination_events s.execution_status 2 = 0 := by
  refine ⟨_, rfl, ?_, ?_⟩ <;> decide

/-- C4: in the Round-Robin engine, for every input with pairwise distinct PIDs
and processing_time >= 1, whatever the memory gateway answers (in particular
when it always admits), a process whose RUNNING -> TERMINATED event is in the
log after `n` iterations has been run by the execute block in exactly
processing_time of these iterations. -/
theorem C4_rr_executed_ticks_eq_processing_time (mem : Nat → PCB → Bool)
    (input : List InputRecord) (hn : (input.map InputRecord.PID).Nodup)
    (hpt : ∀ r ∈ input, 1 ≤ r.processing_time) (n : Nat) (r : InputRecord) (hr : r ∈ input)
    (hT : r.PID ∈ terminated_pids (RR.after mem (load input) n).execution_status) :
    RR.executed_ticks mem (load input) r.PID n = r.processing_time := by
  obtain ⟨_, hb, hF⟩ := rr_run_invariant mem input hn hpt n
  have hp : ({ add_process r with state := States.NOT_ASSIGNED } : PCB) ∈ load input :=
    List.mem_map.2 ⟨r, hr, rfl⟩
  obtain ⟨q, hq, c1, _, _, _, _, c6, _⟩ := forall₂_exists_right hF _ hp
  have hz : q.remaining_time = 0 := (hb q hq).2 (by rw [c1]; exact hT)
  rw [hz, Nat.zero_add] at c6
  exact c6

/-- Witness of C4: Scenario A after 5 iterations. -/
theorem C4_rr_executed_ticks_eq_processing_time_witness :
    (scenario_A.map InputRecord.PID).Nodup ∧ (∀ r ∈ scenario_A, 1 ≤ r.processing_time) ∧
    (⟨1, 0, 5, 0, 0⟩ : InputRecord) ∈ scenario_A ∧
    (1 : Int) ∈ terminated_pids
      (RR.after always_admitted (load scenario_A) 5).execution_status ∧
    RR.executed_ticks always_admitted (load scenario_A) 1 5 = 5 :=
  ⟨by decide, by decide, by decide, by decide,
   C4_rr_executed_ticks_eq_processing_time always_admitted scenario_A (by decide) (by decide)
     5 ⟨1, 0, 5, 0, 0⟩ (by decide) (by decide)⟩

set_option maxRecDepth 100000 in
/-- C5 (the code departs from the claim): in the preemptive engine, on Scenario E
(PID=2 arrival_time=0 processing_time=20, PID=1 arrival_time=5
processing_time=3), the `remaining_time` recorded for PID 1 in `list_process` is
0 after 8 iterations and 2 after 9 iterations. -/
theorem C5_ep_rr_remaining_time_increases :
    (EP_RR.after always_admitted (load scenario_E) 8).list_process.map
        (fun p => (p.PID, p.remaining_time)) = [(2, 15), (1, 0)] ∧
      (EP_RR.after always_admitted (load scenario_E) 9).list_process.map
        (fun p => (p.PID, p.remaining_time)) = [(2, 15), (1, 2)] := by
  decide

/-- In the Round-Robin engine, for every input with pairwise distinct PIDs none
of which is -1, the value of the idle sentinel, and for every behaviour of the
memory gateway, after any number of iterations every input process is in
exactly one of the five places (not yet admitted, one entry of the ready queue,
the running slot, one entry of the wait queue, terminated), and no PID occurs
twice across ready queue, wait queue and running slot. -/
theorem rr_partition (mem : Nat → PCB → Bool) (input : List InputRecord)
    (hn : (input.map InputRecord.PID).Nodup) (hs : ∀ r ∈ input, r.PID ≠ -1) (n : Nat) :
    (∀ r ∈ input, RR.place_count (RR.after mem (load input) n) r.PID = 1) ∧
      (occupants (RR.after mem (load input) n)).Nodup := by
  have hc := rr_coherent_after mem input hn n
  refine ⟨?_, rr_occupants_nodup _ hc⟩
  intro r hr
  have hmemr : r.PID ∈ (RR.after mem (load input) n).list_process.map PCB.PID := by
    rw [rr_map_pid_after mem input hn n]
    exact List.mem_map.2 ⟨r, hr, rfl⟩
  obtain ⟨p, hp, hpr⟩ := List.mem_map.1 hmemr
  rw [← hpr]
  exact rr_place_count_eq_one _ hc p hp (by rw [hpr]; exact hs r hr)

/-- C6: in the Round-Robin engine, for every input with pairwise distinct
non-negative PIDs and for every behaviour of the memory gateway, after any
number of iterations every input process is in exactly one of the five places
(not yet admitted, one entry of the ready queue, the running slot, one entry of
the wait queue, terminated), and no PID occurs twice across ready queue, wait
queue and running slot. -/
theorem C6_rr_partition (mem : Nat → PCB → Bool) (input : List InputRecord)
    (hn : (input.map InputRecord.PID).Nodup) (hpid : ∀ r ∈ input, 0 ≤ r.PID) (n : Nat) :
    (∀ r ∈ input, RR.place_count (RR.after mem (load input) n) r.PID = 1) ∧
      (occupants (RR.after mem (load input) n)).Nodup :=
  rr_partition mem input hn (fun r hr h => by have := hpid r hr; omega) n

/-- Witness of C6: Scenario B after 3 iterations. -/
theorem C6_rr_partition_witness :
    (scenario_B.map InputRecord.PID).Nodup ∧ (∀ r ∈ scenario_B, 0 ≤ r.PID) ∧
    (∀ r ∈ scenario_B,
      RR.place_count (RR.after always_admitted (load scenario_B) 3) r.PID = 1) ∧
    (occupants (RR.after always_admitted (load scenario_B) 3)).Nodup :=
  ⟨by decide, by decide,
   C6_rr_partition always_admitted scenario_B (by decide) (by decide) 3⟩

/-- The value -1 is not available as a `PID`: on the records PID=-1 and PID=1,
both arrival_time=0, processing_time=5, after 2 iterations of the Round-Robin
loop the record with PID=-1 is in none of the five places. -/
theorem rr_sentinel_pid_is_dropped :
    (sentinel_input.map InputRecord.PID).Nodup ∧
    RR.place_count (RR.after always_admitted (load sentinel_input) 2) (-1) = 0 ∧
    ¬ (∀ r ∈ sentinel_input,
      RR.place_count (RR.after always_admitted (load sentinel_input) 2) r.PID = 1) := by
  decide

/-- C7 (the code departs from the claim): in the preemptive engine, on Scenario
E, right after the preemption block of tick 5 and again at the next tick
boundary, PID 1 is both the running process and the only entry of the ready
queue, while PID 2, admitted and not terminated, is in neither queue nor in the
running slot. -/
theorem C7_ep_rr_preemption_loses_the_demoted_process :
    ((EP_RR.preempt (EP_RR.sort_ready (intake_priority always_admitted
        (EP_RR.after always_admitted (load scenario_E) 5)))).ready_queue.map PCB.PID = [1] ∧
      (EP_RR.preempt (EP_RR.sort_ready (intake_priority always_admitted
        (EP_RR.after always_admitted (load scenario_E) 5)))).running.PID = 1) ∧
      (EP_RR.after always_admitted (load scenario_E) 6).ready_queue.map PCB.PID = [1] ∧
      (EP_RR.after always_admitted (load scenario_E) 6).running.PID = 1 ∧
      (EP_RR.after always_admitted (load scenario_E) 6).wait_queue = [] ∧
      (EP_RR.after always_admitted (load scenario_E) 6).execution_status =
        [⟨0, 2, States.NEW, States.READY⟩, ⟨0, 2, States.READY, States.RUNNING⟩,
         ⟨5, 1, States.NEW, States.READY⟩, ⟨5, 2, States.RUNNING, States.READY⟩,
         ⟨5, 1, States.READY, States.RUNNING⟩] := by
  decide

/-- C8 (the code departs from the claim): in the non-preemptive priority engine,
on Scenario B (PID=1 and PID=2, both arrival_time=0, processing_time=10, no
I/O), the log after two iterations, and after any larger number of iterations,
is: both admissions at 0, READY -> RUNNING of PID 1 at 0, READY -> RUNNING of
PID 2 at 1, and nothing else. -/
theorem C8_ep_dispatches_without_release (n : Nat) :
    (EP.after always_admitted (load scenario_B) (n + 2)).execution_status =
      [⟨0, 1, States.NEW, States.READY⟩, ⟨0, 2, States.NEW, States.READY⟩,
       ⟨0, 1, States.READY, States.RUNNING⟩, ⟨1, 2, States.READY, States.RUNNING⟩] := by
  have h : EP.after always_admitted (load scenario_B) (n + 2) =
      (EP.tick always_admitted)^[n] (EP.after always_admitted (load scenario_B) 2) := by
    unfold EP.after
    rw [Function.iterate_add_apply]
  rw [h, ep_log_quiescent always_admitted _ (by decide) (by decide) (by decide) (by decide) n]
  decide

/-- C9: in both priority engines, every READY -> RUNNING event appended during
an iteration of the loop, started in any state, carries the smallest PID of the
ready queue as it stands when the dispatch is decided: in the non-preemptive
engine the queue after arrivals, retries and I/O completions; in the preemptive
engine that same queue for the preemption block, and the queue left by the
preemption block for the idle dispatch. -/
theorem C9_dispatch_picks_minimum_pid (mem : Nat → PCB → Bool) (s : Sim) (e : Event)
    (hd : is_dispatch e) :
    (e ∈ new_events s (EP.tick mem s) → min_pid (intake_priority mem s).ready_queue e.pid) ∧
    (e ∈ new_events s (EP_RR.tick mem s) →
      min_pid (intake_priority mem s).ready_queue e.pid ∨
      min_pid (EP_RR.preempt (EP_RR.sort_ready (intake_priority mem s))).ready_queue e.pid) :=
  ⟨fun he => mem_new_events (ep_appended_tick mem s) e he hd,
   fun he => mem_new_events (ep_rr_appended_tick mem s) e he hd⟩

/-- Witness of C9: the dispatch of PID 1 at tick 0 of the preemptive engine on
Scenario B. -/
theorem C9_dispatch_picks_minimum_pid_witness :
    is_dispatch ⟨0, 1, States.READY, States.RUNNING⟩ ∧
    (⟨0, 1, States.READY, States.RUNNING⟩ ∈ new_events
        (EP_RR.init always_admitted (load scenario_B))
        (EP_RR.tick always_admitted (EP_RR.init always_admitted (load scenario_B)))) ∧
    (min_pid (intake_priority always_admitted
        (EP_RR.init always_admitted (load scenario_B))).ready_queue 1 ∨
      min_pid (EP_RR.preempt (EP_RR.sort_ready (intake_priority always_admitted
        (EP_RR.init always_admitted (load scenario_B))))).ready_queue 1) :=
  ⟨by decide, by decide,
   (C9_dispatch_picks_minimum_pid always_admitted
      (EP_RR.init always_admitted (load scenario_B))
      ⟨0, 1, States.READY, States.RUNNING⟩ (by decide)).2 (by decide)⟩

/-- The preemption rule of the preemptive engine at a tick started in any state
`s`: if after arrivals, retries and I/O completions the running slot is
occupied by R and some ready process has a PID strictly below R's, the
preemption block appends to the log exactly RUNNING -> READY for R and then
READY -> RUNNING for the smallest ready PID `m`, both with timestamp `t`, and,
provided `m` is not -1 (the value of the idle sentinel), `m` is the process run
by the execute block of that tick; if no ready PID is strictly below the one in
the running slot, the preemption block appends nothing. -/
theorem ep_rr_preemption_rule (mem : Nat → PCB → Bool) (s : Sim) (m : Int) :
    ((intake_priority mem s).running.PID ≠ -1 →
      (∃ q ∈ (intake_priority mem s).ready_queue, q.PID < (intake_priority mem s).running.PID) →
      min_pid (intake_priority mem s).ready_queue m →
      (new_events (intake_priority mem s)
          (EP_RR.preempt (EP_RR.sort_ready (intake_priority mem s))) =
        [⟨s.current_time, (intake_priority mem s).running.PID, States.RUNNING, States.READY⟩,
         ⟨s.current_time, m, States.READY, States.RUNNING⟩] ∧
        (m ≠ -1 → executing (EP_RR.schedule mem s) = some m))) ∧
    ((¬ ∃ q ∈ (intake_priority mem s).ready_queue,
        q.PID < (intake_priority mem s).running.PID) →
      new_events (intake_priority mem s)
        (EP_RR.preempt (EP_RR.sort_ready (intake_priority mem s))) = []) := by
  constructor
  · intro hrun hlt hm
    have h := EP_RR.preempt_fires (intake_priority mem s) m hrun hlt hm
    rw [current_time_intake_priority] at h
    refine ⟨new_events_of_eq h.1, ?_⟩
    intro hne
    have hbusy : (EP_RR.preempt (EP_RR.sort_ready (intake_priority mem s))).running.PID ≠ -1 := by
      rw [h.2]
      exact hne
    unfold EP_RR.schedule
    rw [EP_RR.dispatch_of_busy _ hbusy, executing_busy _ hbusy, h.2]
  · intro hno
    rw [EP_RR.preempt_quiet _ hno]
    exact @new_events_of_eq _ _ [] (by simp [EP_RR.sort_ready])

/-- The value -1 is not available as a `PID`: on the records PID=0
arrival_time=0 processing_time=10, PID=-1 arrival_time=2 processing_time=5, at
tick 2 the running slot is occupied by PID 0 and the ready queue holds the
strictly smaller PID -1, yet the execute block of that tick runs no process. -/
theorem ep_rr_sentinel_pid_is_not_run :
    (intake_priority always_admitted
      (EP_RR.after always_admitted (load sentinel_arrival) 2)).running.PID = 0 ∧
    (∃ q ∈ (intake_priority always_admitted
        (EP_RR.after always_admitted (load sentinel_arrival) 2)).ready_queue,
      q.PID < (intake_priority always_admitted
        (EP_RR.after always_admitted (load sentinel_arrival) 2)).running.PID) ∧
    min_pid (intake_priority always_admitted
      (EP_RR.after always_admitted (load sentinel_arrival) 2)).ready_queue (-1) ∧
    executing (EP_RR.schedule always_admitted
      (EP_RR.after always_admitted (load sentinel_arrival) 2)) = none := by
  decide

end Sched

namespace Sched

/-! ## Every block is a sequence of atomic steps -/

theorem move_current_time {mem : Nat → PCB → Bool} {eng : Engine} {s t : Sim}
    (h : Move mem eng s t) : t.current_time = s.current_time := by
  cases h <;> rfl

theorem moves_current_time {mem : Nat → PCB → Bool} {eng : Engine} {s t : Sim}
    (h : Moves mem eng s t) : t.current_time = s.current_time := by
  induction h with
  | refl => rfl
  | tail _ h2 ih => rw [move_current_time h2, ih]

theorem moves_preserve {mem : Nat → PCB → Bool} {eng : Engine} (I : Sim → Prop)
    (hmove : ∀ s t, Move mem eng s t → I s → I t) {s t : Sim} (h : Moves mem eng s t)
    (hs : I s) : I t := by
  induction h with
  | refl => exact hs
  | tail _ h2 ih => exact hmove _ _ h2 ih

theorem moves_trans {mem : Nat → PCB → Bool} {eng : Engine} {s t u : Sim}
    (h1 : Moves mem eng s t) (h2 : Moves mem eng t u) : Moves mem eng s u :=
  Relation.ReflTransGen.trans h1 h2

theorem moves_single {mem : Nat → PCB → Bool} {eng : Engine} {s t : Sim}
    (h : Move mem eng s t) : Moves mem eng s t :=
  Relation.ReflTransGen.single h

/-- An iteration of an admission loop whose body either admits nothing or makes
a successful call for a record in state `NOT_ASSIGNED` that has arrived is a
sequence of atomic steps. -/
theorem body_moves (mem : Nat → PCB → Bool) (eng : Engine) (done : List PCB) (p : PCB)
    (todo : List PCB) (s : Sim) (r : PCB × Sim) (hl : s.list_process = done ++ p :: todo)
    (h : (∃ jl k, r = (p, { s with job_list := jl, mem_calls := k })) ∨
      (p.state = States.NOT_ASSIGNED ∧ p.arrival_time ≤ s.current_time ∧
        mem s.mem_calls p = true ∧ ∃ jl,
        r = ({ p with state := States.READY },
          { s with ready_queue := s.ready_queue ++ [{ p with state := States.READY }],
                   execution_status := s.execution_status ++
                     [⟨s.current_time, p.PID, States.NEW, States.READY⟩],
                   job_list := jl, mem_calls := s.mem_calls + 1 }))) :
    Moves mem eng s { r.2 with list_process := done ++ r.1 :: todo } := by
  rcases h with ⟨jl, k, hr⟩ | ⟨hs, ha, hm, jl, hr⟩
  · rw [hr]
    have h1 : Move mem eng s { s with job_list := jl, mem_calls := k } := Move.skip s jl k
    have hl2 : done ++ p :: todo = s.list_process := hl.symm
    apply moves_single
    simpa [hl2] using h1
  · rw [hr]
    exact moves_single (Move.admission s done p todo jl hl hs ha hm)

theorem for_each_process_moves (mem : Nat → PCB → Bool) (eng : Engine)
    (body : PCB → Sim → PCB × Sim) (R : PCB → Prop) (s0 : Sim)
    (hbody : ∀ done p todo s, s.list_process = done ++ p :: todo → R p →
      s.current_time = s0.current_time →
      Moves mem eng s { (body p s).2 with list_process := done ++ (body p s).1 :: todo }) :
    ∀ todo done s, s.list_process = done ++ todo → (∀ x ∈ todo, R x) → Moves mem eng s0 s →
      Moves mem eng s0 (for_each_process body done todo s) := by
  intro todo done s hl hR hm
  have key := for_each_process_induct_split body
    (fun _ todo s => (∀ x ∈ todo, R x) ∧ Moves mem eng s0 s) ?_ todo done s hl ⟨hR, hm⟩
  · exact key.2
  · intro done p todo s hl ⟨hR, hm⟩
    refine ⟨fun x hx => hR x (List.mem_cons_of_mem _ hx), ?_⟩
    exact moves_trans hm (hbody done p todo s hl (hR p (List.mem_cons_self _ _))
      (moves_current_time hm))

theorem rr_init_body_moves (mem : Nat → PCB → Bool) (eng : Engine) (done : List PCB) (p : PCB)
    (todo : List PCB) (s : Sim) (hl : s.list_process = done ++ p :: todo)
    (hs : p.state = States.NOT_ASSIGNED) (ht : s.current_time = 0) :
    Moves mem eng s
      { (RR.init_body mem p s).2 with list_process := done ++ (RR.init_body mem p s).1 :: todo } := by
  apply body_moves mem eng done p todo s _ hl
  by_cases ha : p.arrival_time = 0
  · by_cases hm : mem s.mem_calls p = true
    · right
      refine ⟨hs, by omega, hm, s.job_list ++ [{ p with state := States.READY }], ?_⟩
      simp only [RR.init_body, if_pos ha, if_pos hm, ht]
    · left
      refine ⟨s.job_list ++ [p], s.mem_calls + 1, ?_⟩
      simp only [RR.init_body, if_pos ha, if_neg hm, set_not_assigned p hs]
  · left
    refine ⟨s.job_list, s.mem_calls, ?_⟩
    simp only [RR.init_body, if_neg ha, set_not_assigned p hs]

theorem rr_arrival_body_moves (mem : Nat → PCB → Bool) (eng : Engine) (done : List PCB)
    (p : PCB) (todo : List PCB) (s : Sim) (hl : s.list_process = done ++ p :: todo) :
    Moves mem eng s
      { (RR.arrival_body mem p s).2 with
        list_process := done ++ (RR.arrival_body mem p s).1 :: todo } := by
  apply body_moves mem eng done p todo s _ hl
  by_cases ha : p.arrival_time = s.current_time ∧ p.arrival_time ≠ 0
  · by_cases hs : p.state = States.NOT_ASSIGNED
    · by_cases hm : mem s.mem_calls p = true
      · right
        refine ⟨hs, le_of_eq ha.1, hm,
          ensure_job { p with state := States.READY } s.job_list, ?_⟩
        simp only [RR.arrival_body, if_pos ha, if_pos hs, if_pos hm, make_ready]
      · left
        refine ⟨ensure_job p s.job_list, s.mem_calls + 1, ?_⟩
        simp only [RR.arrival_body, if_pos ha, if_pos hs, if_neg hm, set_not_assigned p hs]
    · left
      refine ⟨s.job_list, s.mem_calls, ?_⟩
      simp only [RR.arrival_body, if_pos ha, if_neg hs]
  · left
    refine ⟨s.job_list, s.mem_calls, ?_⟩
    simp only [RR.arrival_body, if_neg ha]

theorem pending_body_moves (mem : Nat → PCB → Bool) (eng : Engine) (done : List PCB) (p : PCB)
    (todo : List PCB) (s : Sim) (hl : s.list_process = done ++ p :: todo) :
    Moves mem eng s
      { (pending_body mem s.current_time p s).2 with
        list_process := done ++ (pending_body mem s.current_time p s).1 :: todo } := by
  apply body_moves mem eng done p todo s _ hl
  by_cases ha : p.arrival_time ≤ s.current_time ∧ p.state = States.NOT_ASSIGNED
  · by_cases hm : mem s.mem_calls p = true
    · right
      refine ⟨ha.2, ha.1, hm, ensure_job { p with state := States.READY } s.job_list, ?_⟩
      simp only [pending_body, if_pos ha, if_pos hm, make_ready]
    · left
      refine ⟨s.job_list, s.mem_calls + 1, ?_⟩
      simp only [pending_body, if_pos ha, if_neg hm]
  · left
    refine ⟨s.job_list, s.mem_calls, ?_⟩
    simp only [pending_body, if_neg ha]

theorem init_body_priority_moves (mem : Nat → PCB → Bool) (eng : Engine) (done : List PCB)
    (p : PCB) (todo : List PCB) (s : Sim) (hl : s.list_process = done ++ p :: todo)
    (hs : p.state = States.NOT_ASSIGNED) (ht : s.current_time = 0) :
    Moves mem eng s
      { (init_body_priority mem p s).2 with
        list_process := done ++ (init_body_priority mem p s).1 :: todo } := by
  apply body_moves mem eng done p todo s _ hl
  by_cases ha : p.arrival_time = 0
  · by_cases hm : mem s.mem_calls p = true
    · right
      refine ⟨hs, by omega, hm, s.job_list ++ [{ p with state := States.READY }], ?_⟩
      simp only [init_body_priority, if_pos ha, if_pos hm, make_ready, ht]
    · left
      refine ⟨s.job_list ++ [p], s.mem_calls + 1, ?_⟩
      simp only [init_body_priority, if_pos ha, if_neg hm, set_not_assigned p hs]
  · left
    refine ⟨s.job_list, s.mem_calls, ?_⟩
    simp only [init_body_priority, if_neg ha]

theorem arrival_body_priority_moves (mem : Nat → PCB → Bool) (eng : Engine) (done : List PCB)
    (p : PCB) (todo : List PCB) (s : Sim) (hl : s.list_process = done ++ p :: todo)
    (hs : p.arrival_time = s.current_time → p.arrival_time ≠ 0 →
      p.state = States.NOT_ASSIGNED) :
    Moves mem eng s
      { (arrival_body_priority mem p s).2 with
        list_process := done ++ (arrival_body_priority mem p s).1 :: todo } := by
  apply body_moves mem eng done p todo s _ hl
  by_cases ha : p.arrival_time = s.current_time ∧ p.arrival_time ≠ 0
  · have hs2 := hs ha.1 ha.2
    by_cases hm : mem s.mem_calls p = true
    · right
      refine ⟨hs2, le_of_eq ha.1, hm,
        ensure_job { p with state := States.READY } s.job_list, ?_⟩
      simp only [arrival_body_priority, if_pos ha, if_pos hm, make_ready]
    · left
      refine ⟨ensure_job p s.job_list, s.mem_calls + 1, ?_⟩
      simp only [arrival_body_priority, if_pos ha, if_neg hm, set_not_assigned p hs2]
  · left
    refine ⟨s.job_list, s.mem_calls, ?_⟩
    simp only [arrival_body_priority, if_neg ha]

/-! ### The blocks -/

theorem rr_init_moves (mem : Nat → PCB → Bool) (eng : Engine) (input : List InputRecord) :
    Moves mem eng (start (load input)) (RR.init mem (load input)) := by
  unfold RR.init
  apply for_each_process_moves mem eng (RR.init_body mem)
    (fun p => p.state = States.NOT_ASSIGNED) (start (load input)) _ _ _ _ (by simp [start])
    (state_of_mem_load input) Relation.ReflTransGen.refl
  intro done p todo s hl hs ht
  exact rr_init_body_moves mem eng done p todo s hl hs (by rw [ht]; rfl)

theorem reset_states_load (input : List InputRecord) : reset_states (load input) = load input := by
  unfold reset_states
  conv_rhs => rw [← List.map_id (load input)]
  apply List.map_congr_left
  intro x hx
  exact set_not_assigned x (state_of_mem_load input x hx)

theorem init_priority_moves (mem : Nat → PCB → Bool) (eng : Engine)
    (input : List InputRecord) :
    Moves mem eng (start (load input)) (init_priority mem (load input)) := by
  unfold init_priority
  rw [reset_states_load]
  apply for_each_process_moves mem eng (init_body_priority mem)
    (fun p => p.state = States.NOT_ASSIGNED) (start (load input)) _ _ _ _ (by simp [start])
    (state_of_mem_load input) Relation.ReflTransGen.refl
  intro done p todo s hl hs ht
  exact init_body_priority_moves mem eng done p todo s hl hs (by rw [ht]; rfl)

theorem rr_arrivals_moves (mem : Nat → PCB → Bool) (eng : Engine) (s : Sim) :
    Moves mem eng s (RR.arrivals mem s) := by
  unfold RR.arrivals
  apply for_each_process_moves mem eng (RR.arrival_body mem) (fun _ => True) s _ _ _ _
    (by simp) (fun _ _ => trivial) Relation.ReflTransGen.refl
  intro done p todo s1 hl _ _
  exact rr_arrival_body_moves mem eng done p todo s1 hl

theorem try_assign_pending_moves (mem : Nat → PCB → Bool) (eng : Engine) (s : Sim) :
    Moves mem eng s (try_assign_pending mem s.current_time s) := by
  unfold try_assign_pending
  apply for_each_process_moves mem eng (pending_body mem s.current_time) (fun _ => True) s _ _ _ _
    (by simp) (fun _ _ => trivial) Relation.ReflTransGen.refl
  intro done p todo s1 hl _ ht
  rw [← ht]
  exact pending_body_moves mem eng done p todo s1 hl

theorem io_completions_moves (mem : Nat → PCB → Bool) (eng : Engine) (s : Sim) :
    Moves mem eng s (io_completions s) := by
  unfold io_completions
  apply io_loop_induct (fun s1 => Moves mem eng s s1) _ _ _ _ rfl Relation.ReflTransGen.refl
  intro kept e todo s1 hw hc h
  exact Relation.ReflTransGen.tail h (Move.io_done s1 kept e todo hw hc)

/-- With the records that left `NOT_ASSIGNED` arrived before the tick, the
arrival loop of the priority engines, which does not test the state, only
visits records in state `NOT_ASSIGNED`. -/
theorem arrivals_priority_moves (mem : Nat → PCB → Bool) (eng : Engine) (s : Sim)
    (hp : Punctual s) : Moves mem eng s (arrivals_priority mem s) := by
  unfold arrivals_priority
  apply for_each_process_moves mem eng (arrival_body_priority mem)
    (fun p => p.arrival_time = s.current_time → p.arrival_time ≠ 0 →
      p.state = States.NOT_ASSIGNED) s _ _ _ _ (by simp) _ Relation.ReflTransGen.refl
  · intro done p todo s1 hl hR ht
    apply arrival_body_priority_moves mem eng done p todo s1 hl
    intro h1 h2
    exact hR (by rw [h1, ht]) h2
  · intro x hx h1 h2
    by_contra hne
    rcases hp.2 x hx hne with h | h
    · omega
    · exact h2 h

theorem rr_dispatch_moves (mem : Nat → PCB → Bool) (s : Sim) :
    Moves mem Engine.rr s (RR.dispatch s) := by
  unfold RR.dispatch
  split
  · rename_i hr
    split
    · exact Relation.ReflTransGen.refl
    · rename_i front rest hq
      exact moves_single (Move.rr_dispatch s front rest rfl hr hq)
  · exact Relation.ReflTransGen.refl

theorem sorted_back_min (l : List PCB) (back : PCB) (rest : List PCB)
    (h : (sort_ready_by_priority l).reverse = back :: rest) :
    sort_ready_by_priority l = rest.reverse ++ [back] ∧
      ∀ q ∈ sort_ready_by_priority l, back.PID ≤ q.PID := by
  have hsorted : sort_ready_by_priority l = rest.reverse ++ [back] := by
    have := congrArg List.reverse h
    simpa using this
  refine ⟨hsorted, ?_⟩
  intro q hq
  exact (back_is_min l back rest h).2 q ((mem_sort_ready_by_priority l q).1 hq)

theorem ep_dispatch_moves (mem : Nat → PCB → Bool) (s : Sim) :
    Moves mem Engine.ep s (EP.dispatch s) := by
  unfold EP.dispatch
  split
  · rename_i hr
    split
    · unfold EP.pick_highest_priority
      split
      · exact Relation.ReflTransGen.refl
      · rename_i back rest hq
        obtain ⟨hsorted, hmin⟩ := sorted_back_min _ _ _ hq
        have h1 : Move mem Engine.ep s
            { s with ready_queue := sort_ready_by_priority s.ready_queue } :=
          Move.sort s (by decide)
        refine Relation.ReflTransGen.tail (moves_single h1) ?_
        simp only []
        split
        · exact Move.pick_return _ back rest.reverse _ rfl hr hsorted hmin
        · exact Move.pick _ back rest.reverse _ (by decide) hr hsorted hmin
    · exact Relation.ReflTransGen.refl
  · exact Relation.ReflTransGen.refl

theorem ep_rr_sort_ready_moves (mem : Nat → PCB → Bool) (s : Sim) :
    Moves mem Engine.ep_rr s (EP_RR.sort_ready s) :=
  moves_single (Move.sort s (by decide))

theorem ep_rr_preempt_moves (mem : Nat → PCB → Bool) (s : Sim) :
    Moves mem Engine.ep_rr s (EP_RR.preempt s) := by
  unfold EP_RR.preempt
  split
  · rename_i hr
    split
    · exact Relation.ReflTransGen.refl
    · rename_i top rest hq
      split
      · rename_i hlt
        have hq2 : s.ready_queue = rest.reverse ++ [top] := by
          have := congrArg List.reverse hq
          simpa using this
        have h1 := @Move.preemption mem Engine.ep_rr s top rest.reverse rfl hr hq2 hlt
        apply moves_single
        simpa using h1
      · exact Relation.ReflTransGen.refl
  · exact Relation.ReflTransGen.refl

theorem ep_rr_dispatch_moves (mem : Nat → PCB → Bool) (s : Sim) :
    Moves mem Engine.ep_rr s (EP_RR.dispatch s) := by
  unfold EP_RR.dispatch
  split
  · rename_i hr
    split
    · exact Relation.ReflTransGen.refl
    · rename_i back rest hq
      obtain ⟨hsorted, hmin⟩ := sorted_back_min _ _ _ hq
      have h1 : Move mem Engine.ep_rr s
          { s with ready_queue := sort_ready_by_priority s.ready_queue } :=
        Move.sort s (by decide)
      refine Relation.ReflTransGen.tail (moves_single h1) ?_
      exact Move.pick _ back rest.reverse _ (by decide) hr hsorted hmin
  · exact Relation.ReflTransGen.refl

theorem intake_priority_moves (mem : Nat → PCB → Bool) (eng : Engine) (s : Sim)
    (hp : Punctual s) : Moves mem eng s (intake_priority mem s) := by
  unfold intake_priority
  have h1 := arrivals_priority_moves mem eng s hp
  have h2 := try_assign_pending_moves mem eng (arrivals_priority mem s)
  rw [moves_current_time h1] at h2
  exact moves_trans h1 (moves_trans h2 (io_completions_moves mem eng _))

/-- The part of a loop body that precedes the execute block is a sequence of
atomic steps. -/
theorem schedule_moves (mem : Nat → PCB → Bool) (eng : Engine) (s : Sim)
    (hp : eng = Engine.rr ∨ Punctual s) : Moves mem eng s (eng.schedule mem s) := by
  cases eng with
  | rr =>
    show Moves mem Engine.rr s (RR.schedule mem s)
    unfold RR.schedule
    have h1 := rr_arrivals_moves mem Engine.rr s
    have h2 := try_assign_pending_moves mem Engine.rr (RR.arrivals mem s)
    rw [moves_current_time h1] at h2
    exact moves_trans h1 (moves_trans h2 (moves_trans (io_completions_moves mem _ _)
      (rr_dispatch_moves mem _)))
  | ep =>
    have hp2 : Punctual s := hp.resolve_left (by decide)
    show Moves mem Engine.ep s (EP.schedule mem s)
    unfold EP.schedule
    exact moves_trans (intake_priority_moves mem _ s hp2) (ep_dispatch_moves mem _)
  | ep_rr =>
    have hp2 : Punctual s := hp.resolve_left (by decide)
    show Moves mem Engine.ep_rr s (EP_RR.schedule mem s)
    unfold EP_RR.schedule
    exact moves_trans (intake_priority_moves mem _ s hp2)
      (moves_trans (ep_rr_sort_ready_moves mem _)
        (moves_trans (ep_rr_preempt_moves mem _) (ep_rr_dispatch_moves mem _)))

theorem init_moves (mem : Nat → PCB → Bool) (eng : Engine) (input : List InputRecord) :
    Moves mem eng (start (load input)) (eng.init mem (load input)) := by
  cases eng with
  | rr => exact rr_init_moves mem _ input
  | ep => exact init_priority_moves mem _ input
  | ep_rr => exact init_priority_moves mem _ input

end Sched

namespace Sched

/-! ## The execute block, branch by branch -/

theorem execute_branches (quantum : Option Nat) (s : Sim) (hr : s.running.PID ≠ -1) :
    (io_request (run_one_ms s).running = true ∧
      execute quantum s = block_on_io (run_one_ms s).running (run_one_ms s)) ∨
    (io_request (run_one_ms s).running = false ∧
      (run_one_ms s).running.remaining_time = 0 ∧
      execute quantum s = finish (run_one_ms s).running (run_one_ms s)) ∨
    (io_request (run_one_ms s).running = false ∧
      (run_one_ms s).running.remaining_time ≠ 0 ∧
      (∀ k, quantum = some k → (s.current_time - s.running.start_time + 1) % k ≠ 0) ∧
      execute quantum s = run_one_ms s) ∨
    (io_request (run_one_ms s).running = false ∧
      (run_one_ms s).running.remaining_time ≠ 0 ∧
      (∃ k, quantum = some k ∧ (s.current_time - s.running.start_time + 1) % k = 0) ∧
      execute quantum s = quantum_expiry (run_one_ms s).running (run_one_ms s)) := by
  unfold execute
  rw [if_pos hr]
  simp only []
  by_cases hio : io_request (run_one_ms s).running = true
  · rw [if_pos hio]
    exact Or.inl ⟨hio, rfl⟩
  · rw [if_neg hio]
    have hio2 : io_request (run_one_ms s).running = false := by simpa using hio
    by_cases hz : (run_one_ms s).running.remaining_time = 0
    · rw [if_pos hz]
      exact Or.inr (Or.inl ⟨hio2, hz, rfl⟩)
    · rw [if_neg hz]
      cases quantum with
      | none => exact Or.inr (Or.inr (Or.inl ⟨hio2, hz, by simp, rfl⟩))
      | some k =>
        simp only []
        by_cases hq : ((run_one_ms s).current_time - (run_one_ms s).running.start_time + 1) % k = 0
        · rw [if_pos hq]
          exact Or.inr (Or.inr (Or.inr ⟨hio2, hz, ⟨k, rfl, hq⟩, rfl⟩))
        · rw [if_neg hq]
          refine Or.inr (Or.inr (Or.inl ⟨hio2, hz, ?_, rfl⟩))
          intro k2 hk2
          cases hk2
          exact hq

/-! ## Admitted processes have arrived -/

theorem arrived_move {mem : Nat → PCB → Bool} {eng : Engine} {s t : Sim}
    (h : Move mem eng s t) (ha : Arrived s) : Arrived t := by
  obtain ⟨h1, h2, h3, h4⟩ := ha
  cases h with
  | skip jl k => exact ⟨h1, h2, h3, h4⟩
  | admission done p todo jl hl hs hap hm =>
    refine ⟨?_, ?_, h3, h4⟩
    · intro x hx hne
      simp only [List.mem_append, List.mem_cons] at hx
      rcases hx with hx | hx | hx
      · exact h1 x (by rw [hl]; simp [hx]) hne
      · rw [hx]; exact hap
      · exact h1 x (by rw [hl]; simp [hx]) hne
    · intro q hq
      simp only [List.mem_append, List.mem_singleton] at hq
      rcases hq with hq | hq
      · exact h2 q hq
      · rw [hq]; exact hap
  | io_done kept e todo hw hc =>
    have he : e.1.arrival_time ≤ s.current_time := h3 e (by rw [hw]; simp)
    refine ⟨?_, ?_, ?_, h4⟩
    · intro x hx hne
      rcases mem_sync_all_cases hx with hx | hx
      · rw [hx]; exact he
      · exact h1 x hx.1 hne
    · intro q hq
      simp only [List.mem_append, List.mem_singleton] at hq
      rcases hq with hq | hq
      · exact h2 q hq
      · rw [hq]; exact he
    · intro x hx
      apply h3 x
      rw [hw]
      simp only [List.mem_append, List.mem_cons] at hx ⊢
      tauto
  | rr_dispatch front rest he hr hq =>
    have hf : front.arrival_time ≤ s.current_time := h2 front (by rw [hq]; simp)
    refine ⟨?_, ?_, h3, hf⟩
    · intro x hx hne
      rcases mem_sync_all_cases hx with hx | hx
      · rw [hx]; exact hf
      · exact h1 x hx.1 hne
    · intro q hq2
      exact h2 q (by rw [hq]; simp [hq2])
  | sort he =>
    refine ⟨h1, ?_, h3, h4⟩
    intro q hq
    exact h2 q ((mem_sort_ready_by_priority _ q).1 hq)
  | pick_return back rest jl he hr hq hmin =>
    have hf : back.arrival_time ≤ s.current_time := h2 back (by rw [hq]; simp)
    refine ⟨?_, ?_, h3, h4⟩
    · intro x hx hne
      rcases mem_sync_all_cases hx with hx | hx
      · rw [hx]; exact hf
      · exact h1 x hx.1 hne
    · intro q hq2
      exact h2 q (by rw [hq]; simp [hq2])
  | pick back rest jl he hr hq hmin =>
    have hf : back.arrival_time ≤ s.current_time := h2 back (by rw [hq]; simp)
    refine ⟨?_, ?_, h3, hf⟩
    · intro x hx hne
      rcases mem_sync_all_cases hx with hx | hx
      · rw [hx]; exact hf
      · exact h1 x hx.1 hne
    · intro q hq2
      exact h2 q (by rw [hq]; simp [hq2])
  | preemption top rest he hr hq hlt =>
    have hf : top.arrival_time ≤ s.current_time := h2 top (by rw [hq]; simp)
    refine ⟨?_, h2, h3, hf⟩
    intro x hx hne
    rcases mem_sync_all_cases hx with hx | hx
    · rw [hx]; exact hf
    · exact h1 x hx.1 hne

theorem arrived_sync_all (s : Sim) (q : PCB) (hq : q.arrival_time ≤ s.current_time)
    (h1 : ∀ p ∈ s.list_process, p.state ≠ States.NOT_ASSIGNED →
      p.arrival_time ≤ s.current_time) :
    ∀ p ∈ sync_all q s.list_process, p.state ≠ States.NOT_ASSIGNED →
      p.arrival_time ≤ s.current_time := by
  intro x hx hne
  rcases mem_sync_all_cases hx with hx | hx
  · rw [hx]; exact hq
  · exact h1 x hx.1 hne

theorem arrived_run_one_ms (s : Sim) (ha : Arrived s) : Arrived (run_one_ms s) := by
  obtain ⟨h1, h2, h3, h4⟩ := ha
  exact ⟨arrived_sync_all s _ h4 h1, h2, h3, h4⟩

theorem arrived_execute (quantum : Option Nat) (s : Sim) (ha : Arrived s) :
    Arrived (execute quantum s) := by
  by_cases hr : s.running.PID = -1
  · rw [execute_idle quantum s hr]; exact ha
  · obtain ⟨h1, h2, h3, h4⟩ := arrived_run_one_ms s ha
    have hidle : idle_CPU.arrival_time ≤ (run_one_ms s).current_time := Nat.zero_le _
    rcases execute_branches quantum s hr with ⟨_, he⟩ | ⟨_, _, he⟩ | ⟨_, _, _, he⟩ | ⟨_, _, _, he⟩
    · rw [he]
      refine ⟨arrived_sync_all (run_one_ms s) _ h4 h1, h2, ?_, hidle⟩
      intro x hx
      simp only [block_on_io, List.mem_append, List.mem_singleton] at hx
      rcases hx with hx | hx
      · exact h3 x hx
      · rw [hx]; exact h4
    · rw [he]
      exact ⟨h1, h2, h3, hidle⟩
    · rw [he]
      exact ⟨h1, h2, h3, h4⟩
    · rw [he]
      refine ⟨arrived_sync_all (run_one_ms s) _ h4 h1, ?_, h3, hidle⟩
      intro x hx
      simp only [quantum_expiry, List.mem_append, List.mem_singleton] at hx
      rcases hx with hx | hx
      · exact h2 x hx
      · rw [hx]; exact h4

theorem punctual_advance (s : Sim) (ha : Arrived s) : Punctual (advance s) := by
  obtain ⟨h1, h2, h3, h4⟩ := ha
  refine ⟨⟨?_, ?_, ?_, ?_⟩, ?_⟩
  · intro p hp hne
    exact Nat.le_succ_of_le (h1 p hp hne)
  · intro q hq
    exact Nat.le_succ_of_le (h2 q hq)
  · intro e he
    exact Nat.le_succ_of_le (h3 e he)
  · exact Nat.le_succ_of_le h4
  · intro p hp hne
    exact Or.inl (Nat.lt_succ_of_le (h1 p hp hne))

theorem arrived_start (l : List PCB) (hl : ∀ p ∈ l, p.state = States.NOT_ASSIGNED) :
    Arrived (start l) := by
  refine ⟨?_, ?_, ?_, ?_⟩
  · intro p hp hne
    exact absurd (hl p hp) hne
  · intro q hq
    simp [start] at hq
  · intro e he
    simp [start] at he
  · exact Nat.zero_le _

theorem engine_after_succ (mem : Nat → PCB → Bool) (eng : Engine) (l : List PCB) (n : Nat) :
    eng.after mem l (n + 1) = eng.tick mem (eng.after mem l n) := by
  unfold Engine.after
  rw [Function.iterate_succ_apply']

theorem punctual_after (mem : Nat → PCB → Bool) (eng : Engine) (input : List InputRecord)
    (n : Nat) : Punctual (eng.after mem (load input) n) := by
  induction n with
  | zero =>
    have hm := init_moves mem eng input
    have ha := moves_preserve Arrived (fun _ _ h => arrived_move h) hm
      (arrived_start _ (state_of_mem_load input))
    have ht := moves_current_time hm
    refine ⟨ha, ?_⟩
    intro p hp hne
    right
    have := ha.listed p hp hne
    have h0 : (start (load input)).current_time = 0 := rfl
    show p.arrival_time = 0
    have ht2 : (eng.init mem (load input)).current_time = 0 := by rw [ht, h0]
    have h3 : p.arrival_time ≤ (eng.init mem (load input)).current_time := this
    omega
  | succ n ih =>
    rw [engine_after_succ]
    have hm := schedule_moves mem eng _ (Or.inr ih)
    have ha := moves_preserve Arrived (fun _ _ h => arrived_move h) hm ih.1
    exact punctual_advance _ (arrived_execute _ _ ha)

/-- Induction over a run of any of the three engines: a property of the state
on entry to `run_simulation` that every atomic step and the execute block
followed by `current_time++` preserve holds at every tick boundary, and on
entry to the execute block of every tick. -/
theorem engine_induct (mem : Nat → PCB → Bool) (eng : Engine) (input : List InputRecord)
    (I : Sim → Prop) (h0 : I (start (load input)))
    (hmove : ∀ s t, Move mem eng s t → I s → I t)
    (hexec : ∀ s, I s → I (advance (execute eng.quantum s))) (n : Nat) :
    I (eng.after mem (load input) n) ∧
      I (eng.schedule mem (eng.after mem (load input) n)) := by
  have hstep : ∀ s, Punctual s → I s → I (eng.schedule mem s) := fun s hp hs =>
    moves_preserve I hmove (schedule_moves mem eng s (Or.inr hp)) hs
  induction n with
  | zero =>
    have hi : I (eng.after mem (load input) 0) :=
      moves_preserve I hmove (init_moves mem eng input) h0
    exact ⟨hi, hstep _ (punctual_after mem eng input 0) hi⟩
  | succ n ih =>
    have hi : I (eng.after mem (load input) (n + 1)) := by
      rw [engine_after_succ]
      exact hexec _ ih.2
    exact ⟨hi, hstep _ (punctual_after mem eng input (n + 1)) hi⟩

theorem rr_after_eq (mem : Nat → PCB → Bool) (l : List PCB) (n : Nat) :
    RR.after mem l n = Engine.after mem Engine.rr l n := rfl

theorem ep_after_eq (mem : Nat → PCB → Bool) (l : List PCB) (n : Nat) :
    EP.after mem l n = Engine.after mem Engine.ep l n := rfl

theorem ep_rr_after_eq (mem : Nat → PCB → Bool) (l : List PCB) (n : Nat) :
    EP_RR.after mem l n = Engine.after mem Engine.ep_rr l n := rfl

end Sched

namespace Sched

/-! ## Timestamps of the log -/

theorem move_log {mem : Nat → PCB → Bool} {eng : Engine} {s t : Sim} (h : Move mem eng s t) :
    ∃ evs, t.execution_status = s.execution_status ++ evs ∧
      ∀ e ∈ evs, e.time = s.current_time := by
  cases h with
  | skip jl k => exact ⟨[], by simp, by simp⟩
  | admission done p todo jl hl hs hap hm => exact ⟨_, rfl, by simp⟩
  | io_done kept e todo hw hc => exact ⟨_, rfl, by simp⟩
  | rr_dispatch front rest he hr hq => exact ⟨_, rfl, by simp⟩
  | sort he => exact ⟨[], by simp, by simp⟩
  | pick_return back rest jl he hr hq hmin => exact ⟨_, rfl, by simp⟩
  | pick back rest jl he hr hq hmin => exact ⟨_, rfl, by simp⟩
  | preemption top rest he hr hq hlt => exact ⟨_, rfl, by simp⟩

theorem execute_log (quantum : Option Nat) (s : Sim) :
    ∃ evs, (execute quantum s).execution_status = s.execution_status ++ evs ∧
      ∀ e ∈ evs, e.time = s.current_time + 1 := by
  by_cases hr : s.running.PID = -1
  · rw [execute_idle quantum s hr]
    exact ⟨[], by simp, by simp⟩
  · rcases execute_branches quantum s hr with ⟨_, he⟩ | ⟨_, _, he⟩ | ⟨_, _, _, he⟩ | ⟨_, _, _, he⟩
    · rw [he]; exact ⟨_, rfl, by simp [run_one_ms]⟩
    · rw [he]; exact ⟨_, rfl, by simp [run_one_ms]⟩
    · rw [he]; exact ⟨[], by simp [run_one_ms], by simp⟩
    · rw [he]; exact ⟨_, rfl, by simp [run_one_ms]⟩

theorem stamped_append (log evs : List Event) (t u : Nat) (htu : t ≤ u)
    (h1 : log.Pairwise (fun a b => a.time ≤ b.time)) (h2 : ∀ e ∈ log, e.time ≤ t)
    (h3 : ∀ e ∈ evs, e.time = u) :
    (log ++ evs).Pairwise (fun a b => a.time ≤ b.time) ∧ ∀ e ∈ log ++ evs, e.time ≤ u := by
  constructor
  · rw [List.pairwise_append]
    refine ⟨h1, ?_, ?_⟩
    · rw [List.pairwise_iff_forall_sublist]
      intro a b hab
      have ha := h3 a (hab.subset (by simp))
      have hb := h3 b (hab.subset (by simp))
      omega
    · intro a ha b hb
      have := h2 a ha
      have := h3 b hb
      omega
  · intro e he
    rcases List.mem_append.1 he with he | he
    · have := h2 e he
      omega
    · exact le_of_eq (h3 e he)

theorem stamped_move {mem : Nat → PCB → Bool} {eng : Engine} {s t : Sim}
    (h : Move mem eng s t) (hs : Stamped s) : Stamped t := by
  obtain ⟨evs, hlog, hev⟩ := move_log h
  unfold Stamped
  rw [hlog, move_current_time h]
  exact stamped_append _ _ _ _ (le_refl _) hs.1 hs.2 hev

theorem stamped_execute (quantum : Option Nat) (s : Sim) (hs : Stamped s) :
    Stamped (advance (execute quantum s)) := by
  obtain ⟨evs, hlog, hev⟩ := execute_log quantum s
  unfold Stamped
  have ht : (advance (execute quantum s)).current_time = s.current_time + 1 := by
    simp [advance, execute_current_time]
  have hl : (advance (execute quantum s)).execution_status = s.execution_status ++ evs := hlog
  rw [hl, ht]
  exact stamped_append _ _ _ _ (Nat.le_succ _) hs.1 hs.2 hev

theorem stamped_after (mem : Nat → PCB → Bool) (eng : Engine) (input : List InputRecord)
    (n : Nat) : Stamped (eng.after mem (load input) n) :=
  (engine_induct mem eng input Stamped ⟨by simp [start], by simp [start]⟩
    (fun _ _ h => stamped_move h) (fun s => stamped_execute _ s) n).1

end Sched

namespace Sched

/-! ## The ready queue of the Round-Robin engine is first-in first-out -/

theorem entered_pids_snoc (log : List Event) (e : Event) :
    entered_pids (log ++ [e]) =
      entered_pids log ++ (if e.new_state = States.READY then [e.pid] else []) := by
  unfold entered_pids
  by_cases h : e.new_state = States.READY <;> simp [List.filter_append, h]

theorem dispatched_pids_snoc (log : List Event) (e : Event) :
    dispatched_pids (log ++ [e]) =
      dispatched_pids log ++ (if is_dispatch e then [e.pid] else []) := by
  unfold dispatched_pids
  by_cases h : is_dispatch e
  · rw [if_pos h]
    simp [List.filter_append, h]
  · rw [if_neg h]
    simp [List.filter_append, h]

/-- The events that entered `READY` are those already dispatched followed by
the entries of the ready queue, in order. -/
theorem rr_fifo_move {mem : Nat → PCB → Bool} {s t : Sim} (h : Move mem Engine.rr s t)
    (hs : entered_pids s.execution_status =
      dispatched_pids s.execution_status ++ s.ready_queue.map PCB.PID) :
    entered_pids t.execution_status =
      dispatched_pids t.execution_status ++ t.ready_queue.map PCB.PID := by
  cases h with
  | skip jl k => exact hs
  | admission done p todo jl hl hsp hap hm =>
    simp only [entered_pids_snoc, dispatched_pids_snoc, is_dispatch]
    simp [hs]
  | io_done kept e todo hw hc =>
    simp only [entered_pids_snoc, dispatched_pids_snoc, is_dispatch]
    simp [hs]
  | rr_dispatch front rest he hr hq =>
    simp only [entered_pids_snoc, dispatched_pids_snoc, is_dispatch]
    simp [hs, hq]
  | sort he => exact absurd rfl he
  | pick_return back rest jl he hr hq hmin => cases he
  | pick back rest jl he hr hq hmin => exact absurd rfl he
  | preemption top rest he hr hq hlt => cases he

theorem rr_fifo_execute (quantum : Option Nat) (s : Sim)
    (hs : entered_pids s.execution_status =
      dispatched_pids s.execution_status ++ s.ready_queue.map PCB.PID) :
    entered_pids (advance (execute quantum s)).execution_status =
      dispatched_pids (advance (execute quantum s)).execution_status ++
        (advance (execute quantum s)).ready_queue.map PCB.PID := by
  show entered_pids (execute quantum s).execution_status =
      dispatched_pids (execute quantum s).execution_status ++
        (execute quantum s).ready_queue.map PCB.PID
  by_cases hr : s.running.PID = -1
  · rw [execute_idle quantum s hr]
    exact hs
  · rcases execute_branches quantum s hr with ⟨_, he⟩ | ⟨_, _, he⟩ | ⟨_, _, _, he⟩ | ⟨_, _, _, he⟩
    · rw [he]
      simp only [block_on_io, entered_pids_snoc, dispatched_pids_snoc, is_dispatch]
      simpa [run_one_ms] using hs
    · rw [he]
      simp only [finish, entered_pids_snoc, dispatched_pids_snoc, is_dispatch]
      simpa [run_one_ms] using hs
    · rw [he]
      simpa [run_one_ms] using hs
    · rw [he]
      simp only [quantum_expiry, entered_pids_snoc, dispatched_pids_snoc, is_dispatch]
      simp [run_one_ms, hs]

theorem rr_fifo_after (mem : Nat → PCB → Bool) (input : List InputRecord) (n : Nat) :
    entered_pids (RR.after mem (load input) n).execution_status =
      dispatched_pids (RR.after mem (load input) n).execution_status ++
        (RR.after mem (load input) n).ready_queue.map PCB.PID :=
  (engine_induct mem Engine.rr input
    (fun s => entered_pids s.execution_status =
      dispatched_pids s.execution_status ++ s.ready_queue.map PCB.PID)
    (by simp [start, entered_pids, dispatched_pids])
    (fun _ _ h => rr_fifo_move h) (fun s => rr_fifo_execute _ s) n).1

end Sched

namespace Sched

/-! ## The quantum of the Round-Robin engine -/

end Sched

namespace Sched

/-! ## Records keep their fixed fields -/

theorem everywhere_move {mem : Nat → PCB → Bool} {eng : Engine} {R : PCB → Prop}
    (hR : Static R) {s t : Sim} (h : Move mem eng s t) (hs : Everywhere R s) :
    Everywhere R t := by
  obtain ⟨h1, h2, h3, h4⟩ := hs
  have hsync : ∀ q : PCB, R q → ∀ x ∈ sync_all q s.list_process, R x := by
    intro q hq x hx
    rcases mem_sync_all_cases hx with hx | hx
    · rw [hx]; exact hq
    · exact h1 x hx.1
  cases h with
  | skip jl k => exact ⟨h1, h2, h3, h4⟩
  | admission done p todo jl hl hsp hap hm =>
    have hp : R { p with state := States.READY } :=
      hR p _ rfl rfl rfl rfl rfl (h1 p (by rw [hl]; simp))
    refine ⟨?_, ?_, h3, h4⟩
    · intro x hx
      simp only [List.mem_append, List.mem_cons] at hx
      rcases hx with hx | hx | hx
      · exact h1 x (by rw [hl]; simp [hx])
      · rw [hx]; exact hp
      · exact h1 x (by rw [hl]; simp [hx])
    · intro q hq
      simp only [List.mem_append, List.mem_singleton] at hq
      rcases hq with hq | hq
      · exact h2 q hq
      · rw [hq]; exact hp
  | io_done kept e todo hw hc =>
    have he : R { e.1 with state := States.READY } :=
      hR e.1 _ rfl rfl rfl rfl rfl (h3 e (by rw [hw]; simp))
    refine ⟨hsync _ he, ?_, ?_, h4⟩
    · intro q hq
      simp only [List.mem_append, List.mem_singleton] at hq
      rcases hq with hq | hq
      · exact h2 q hq
      · rw [hq]; exact he
    · intro x hx
      apply h3 x
      rw [hw]
      simp only [List.mem_append, List.mem_cons] at hx ⊢
      tauto
  | rr_dispatch front rest he hr hq =>
    have hf : R { front with state := States.RUNNING, start_time := s.current_time } :=
      hR front _ rfl rfl rfl rfl rfl (h2 front (by rw [hq]; simp))
    exact ⟨hsync _ hf, fun q hq2 => h2 q (by rw [hq]; simp [hq2]), h3, fun _ => hf⟩
  | sort he =>
    exact ⟨h1, fun q hq => h2 q ((mem_sort_ready_by_priority _ q).1 hq), h3, h4⟩
  | pick_return back rest jl he hr hq hmin =>
    have hf : R { back with state := States.RUNNING, start_time := s.current_time } :=
      hR back _ rfl rfl rfl rfl rfl (h2 back (by rw [hq]; simp))
    exact ⟨hsync _ hf, fun q hq2 => h2 q (by rw [hq]; simp [hq2]), h3, h4⟩
  | pick back rest jl he hr hq hmin =>
    have hf : R { back with state := States.RUNNING, start_time := s.current_time } :=
      hR back _ rfl rfl rfl rfl rfl (h2 back (by rw [hq]; simp))
    exact ⟨hsync _ hf, fun q hq2 => h2 q (by rw [hq]; simp [hq2]), h3, fun _ => hf⟩
  | preemption top rest he hr hq hlt =>
    have hf : R { top with state := States.RUNNING, start_time := s.current_time } :=
      hR top _ rfl rfl rfl rfl rfl (h2 top (by rw [hq]; simp))
    exact ⟨hsync _ hf, h2, h3, fun _ => hf⟩

theorem forall_sync_all {R : PCB → Prop} (q : PCB) (l : List PCB) (hq : R q)
    (hl : ∀ x ∈ l, R x) : ∀ x ∈ sync_all q l, R x := by
  intro x hx
  rcases mem_sync_all_cases hx with hx | hx
  · rw [hx]; exact hq
  · exact hl x hx.1

theorem everywhere_execute {R : PCB → Prop} (hR : Static R) (quantum : Option Nat) (s : Sim)
    (hs : Everywhere R s) : Everywhere R (advance (execute quantum s)) := by
  suffices h : Everywhere R (execute quantum s) from ⟨h.listed, h.ready, h.waiting, h.running⟩
  by_cases hr : s.running.PID = -1
  · rw [execute_idle quantum s hr]; exact hs
  · obtain ⟨h1, h2, h3, h4⟩ := hs
    have hrun : R (run_one_ms s).running := hR s.running _ rfl rfl rfl rfl rfl (h4 hr)
    have hl1 : ∀ x ∈ (run_one_ms s).list_process, R x := forall_sync_all _ _ hrun h1
    have hidle : idle_CPU.PID ≠ -1 → R idle_CPU := fun h => absurd rfl h
    rcases execute_branches quantum s hr with ⟨_, he⟩ | ⟨_, _, he⟩ | ⟨_, _, _, he⟩ | ⟨_, _, _, he⟩
    · rw [he]
      have hw : R { (run_one_ms s).running with state := States.WAITING } :=
        hR (run_one_ms s).running _ rfl rfl rfl rfl rfl hrun
      refine ⟨forall_sync_all _ _ hw hl1, h2, ?_, hidle⟩
      intro x hx
      simp only [block_on_io, List.mem_append, List.mem_singleton] at hx
      rcases hx with hx | hx
      · exact h3 x hx
      · rw [hx]; exact hw
    · rw [he]
      exact ⟨hl1, h2, h3, hidle⟩
    · rw [he]
      exact ⟨hl1, h2, h3, fun _ => hrun⟩
    · rw [he]
      have hw : R { (run_one_ms s).running with state := States.READY } :=
        hR (run_one_ms s).running _ rfl rfl rfl rfl rfl hrun
      refine ⟨forall_sync_all _ _ hw hl1, ?_, h3, hidle⟩
      intro x hx
      simp only [quantum_expiry, List.mem_append, List.mem_singleton] at hx
      rcases hx with hx | hx
      · exact h2 x hx
      · rw [hx]; exact hw

theorem static_descends (input : List InputRecord) : Static (descends input) := by
  intro p q h1 h2 h3 h4 h5 ⟨r, hr, e1, e2, e3, e4, e5⟩
  exact ⟨r, hr, by rw [e1, h1], by rw [e2, h2], by rw [e3, h3], by rw [e4, h4], by rw [e5, h5]⟩

theorem everywhere_start (input : List InputRecord) :
    Everywhere (descends input) (start (load input)) := by
  refine ⟨?_, by simp [start], by simp [start], fun h => absurd rfl h⟩
  intro p hp
  simp only [start, load, List.mem_map] at hp
  obtain ⟨r, hr, hp⟩ := hp
  exact ⟨r, hr, by rw [← hp]; simp [add_process]⟩

theorem descends_after (mem : Nat → PCB → Bool) (eng : Engine) (input : List InputRecord)
    (n : Nat) :
    Everywhere (descends input) (eng.after mem (load input) n) ∧
      Everywhere (descends input) (eng.schedule mem (eng.after mem (load input) n)) :=
  engine_induct mem eng input (Everywhere (descends input)) (everywhere_start input)
    (fun _ _ h => everywhere_move (static_descends input) h)
    (fun s => everywhere_execute (static_descends input) _ s) n

/-! ## Remaining time stays within budget -/

theorem fresh_sync_all (q : PCB) (l : List PCB) (hq : q.state ≠ States.NOT_ASSIGNED)
    (hl : ∀ p ∈ l, p.state = States.NOT_ASSIGNED → p.remaining_time = p.processing_time) :
    ∀ p ∈ sync_all q l, p.state = States.NOT_ASSIGNED →
      p.remaining_time = p.processing_time := by
  intro x hx hna
  rcases mem_sync_all_cases hx with hx | hx
  · rw [hx] at hna; exact absurd hna hq
  · exact hl x hx.1 hna

theorem bounded_move {mem : Nat → PCB → Bool} {eng : Engine} {s t : Sim}
    (h : Move mem eng s t) (hs : Bounded s) : Bounded t := by
  obtain ⟨h1, h2, h3, h4⟩ := hs
  have hgo : ∀ x : PCB, within_budget x →
      (({ x with state := States.RUNNING, start_time := s.current_time } : PCB).PID ≠ -1 →
      ({ x with state := States.RUNNING, start_time := s.current_time } : PCB).state ≠
          States.NOT_ASSIGNED ∧
        ({ x with state := States.RUNNING, start_time := s.current_time } : PCB).start_time ≤
          s.current_time ∧
        (1 ≤ x.processing_time → 1 ≤ x.remaining_time ∧
          x.remaining_time + (s.current_time - s.current_time) ≤ x.processing_time) ∧
        (x.processing_time = 0 → x.remaining_time ≤ 4294967295)) := by
    intro x hx _
    refine ⟨by simp, le_refl _, ?_, hx.2⟩
    intro hpt
    have := hx.1 hpt
    omega
  cases h with
  | skip jl k => exact ⟨h1, h2, h3, h4⟩
  | admission done p todo jl hl hsp hap hm =>
    have hp := h1 p (by rw [hl]; simp) hsp
    refine ⟨?_, ?_, h3, h4⟩
    · intro x hx hna
      simp only [List.mem_append, List.mem_cons] at hx
      rcases hx with hx | hx | hx
      · exact h1 x (by rw [hl]; simp [hx]) hna
      · rw [hx] at hna; simp at hna
      · exact h1 x (by rw [hl]; simp [hx]) hna
    · intro q hq
      simp only [List.mem_append, List.mem_singleton] at hq
      rcases hq with hq | hq
      · exact h2 q hq
      · rw [hq]
        constructor
        · intro hpt
          show 1 ≤ p.remaining_time ∧ p.remaining_time ≤ p.processing_time
          have hpt2 : 1 ≤ p.processing_time := hpt
          omega
        · intro hpt
          show p.remaining_time ≤ 4294967295
          have hpt2 : p.processing_time = 0 := hpt
          omega
  | io_done kept e todo hw hc =>
    have he : within_budget e.1 := h3 e (by rw [hw]; simp)
    refine ⟨fresh_sync_all _ _ (by simp) h1, ?_, ?_, h4⟩
    · intro q hq
      simp only [List.mem_append, List.mem_singleton] at hq
      rcases hq with hq | hq
      · exact h2 q hq
      · rw [hq]; exact he
    · intro x hx
      apply h3 x
      rw [hw]
      simp only [List.mem_append, List.mem_cons] at hx ⊢
      tauto
  | rr_dispatch front rest he hr hq =>
    exact ⟨fresh_sync_all _ _ (by simp) h1, fun q hq2 => h2 q (by rw [hq]; simp [hq2]), h3,
      hgo front (h2 front (by rw [hq]; simp))⟩
  | sort he =>
    exact ⟨h1, fun q hq => h2 q ((mem_sort_ready_by_priority _ q).1 hq), h3, h4⟩
  | pick_return back rest jl he hr hq hmin =>
    exact ⟨fresh_sync_all _ _ (by simp) h1, fun q hq2 => h2 q (by rw [hq]; simp [hq2]), h3, h4⟩
  | pick back rest jl he hr hq hmin =>
    exact ⟨fresh_sync_all _ _ (by simp) h1, fun q hq2 => h2 q (by rw [hq]; simp [hq2]), h3,
      hgo back (h2 back (by rw [hq]; simp))⟩
  | preemption top rest he hr hq hlt =>
    exact ⟨fresh_sync_all _ _ (by simp) h1, h2, h3, hgo top (h2 top (by rw [hq]; simp))⟩

/-- The running record after its decrement. -/
theorem bounded_decrement (s : Sim) (hs : Bounded s) (hr : s.running.PID ≠ -1) :
    (1 ≤ s.running.processing_time →
      (run_one_ms s).running.remaining_time + 1 = s.running.remaining_time ∧
      (run_one_ms s).running.remaining_time + (s.current_time - s.running.start_time) + 1 ≤
        s.running.processing_time) ∧
    (s.running.processing_time = 0 → (run_one_ms s).running.remaining_time ≤ 4294967295) := by
  obtain ⟨_, _, h3, h4⟩ := hs.running hr
  have hrem : (run_one_ms s).running.remaining_time = udec s.running.remaining_time := rfl
  rw [hrem]
  unfold udec
  constructor
  · intro hpt
    have := h3 hpt
    rw [if_neg (by omega)]
    omega
  · intro hpt
    have := h4 hpt
    split <;> omega

theorem bounded_execute (quantum : Option Nat) (s : Sim) (hs : Bounded s) :
    Bounded (advance (execute quantum s)) := by
  by_cases hr : s.running.PID = -1
  · rw [execute_idle quantum s hr]
    exact ⟨hs.fresh, hs.ready, hs.waiting, fun h => absurd hr h⟩
  · obtain ⟨hd1, hd2⟩ := bounded_decrement s hs hr
    obtain ⟨h1, h2, h3, h4⟩ := hs
    obtain ⟨hst, hlo, _, _⟩ := h4 hr
    have hl1 : ∀ p ∈ (run_one_ms s).list_process, p.state = States.NOT_ASSIGNED →
        p.remaining_time = p.processing_time := fresh_sync_all _ _ hst h1
    have hpt : (run_one_ms s).running.processing_time = s.running.processing_time := rfl
    have hwb : (run_one_ms s).running.remaining_time ≠ 0 →
        ∀ st : States, within_budget { (run_one_ms s).running with state := st } := by
      intro hne st
      constructor
      · intro hp
        have hp2 : 1 ≤ s.running.processing_time := hp
        have := hd1 hp2
        show 1 ≤ (run_one_ms s).running.remaining_time ∧
          (run_one_ms s).running.remaining_time ≤ s.running.processing_time
        omega
      · intro hp
        exact hd2 hp
    rcases execute_branches quantum s hr with ⟨hio, he⟩ | ⟨_, _, he⟩ | ⟨_, hne, _, he⟩ |
      ⟨_, hne, _, he⟩
    · rw [he]
      have hpos : (run_one_ms s).running.remaining_time ≠ 0 := by
        unfold io_request at hio
        have := (of_decide_eq_true hio).2.2.2
        omega
      refine ⟨fresh_sync_all _ _ (by simp) hl1, h2, ?_, fun h => absurd rfl h⟩
      intro x hx
      simp only [advance, block_on_io, List.mem_append, List.mem_singleton] at hx
      rcases hx with hx | hx
      · exact h3 x hx
      · rw [hx]; exact hwb hpos _
    · rw [he]
      exact ⟨hl1, h2, h3, fun h => absurd rfl h⟩
    · rw [he]
      refine ⟨hl1, h2, h3, ?_⟩
      intro _
      refine ⟨hst, Nat.le_succ_of_le hlo, ?_, hd2⟩
      intro hp
      have := hd1 hp
      show 1 ≤ (run_one_ms s).running.remaining_time ∧
        (run_one_ms s).running.remaining_time + (s.current_time + 1 - s.running.start_time) ≤
          s.running.processing_time
      omega
    · rw [he]
      refine ⟨fresh_sync_all _ _ (by simp) hl1, ?_, h3, fun h => absurd rfl h⟩
      intro x hx
      simp only [advance, quantum_expiry, List.mem_append, List.mem_singleton] at hx
      rcases hx with hx | hx
      · exact h2 x hx
      · rw [hx]; exact hwb hne _

theorem bounded_start (input : List InputRecord) : Bounded (start (load input)) :=
  ⟨fun p hp _ => remaining_of_mem_load input p hp, by simp [start], by simp [start],
    fun h => absurd rfl h⟩

theorem bounded_after (mem : Nat → PCB → Bool) (eng : Engine) (input : List InputRecord)
    (n : Nat) :
    Bounded (eng.after mem (load input) n) ∧
      Bounded (eng.schedule mem (eng.after mem (load input) n)) :=
  engine_induct mem eng input Bounded (bounded_start input)
    (fun _ _ h => bounded_move h) (fun s => bounded_execute _ s) n

end Sched

namespace Sched

/-! ## The event written by the execute block -/

theorem execute_events (quantum : Option Nat) (s : Sim) (hr : s.running.PID ≠ -1) :
    (io_request (run_one_ms s).running = true ∧
      new_events s (execute quantum s) =
        [⟨s.current_time + 1, s.running.PID, States.RUNNING, States.WAITING⟩]) ∨
    (io_request (run_one_ms s).running = false ∧
      (run_one_ms s).running.remaining_time = 0 ∧
      new_events s (execute quantum s) =
        [⟨s.current_time + 1, s.running.PID, States.RUNNING, States.TERMINATED⟩]) ∨
    (io_request (run_one_ms s).running = false ∧
      (run_one_ms s).running.remaining_time ≠ 0 ∧
      (∀ k, quantum = some k → (s.current_time - s.running.start_time + 1) % k ≠ 0) ∧
      new_events s (execute quantum s) = []) ∨
    (io_request (run_one_ms s).running = false ∧
      (run_one_ms s).running.remaining_time ≠ 0 ∧
      (∃ k, quantum = some k ∧ (s.current_time - s.running.start_time + 1) % k = 0) ∧
      new_events s (execute quantum s) =
        [⟨s.current_time + 1, s.running.PID, States.RUNNING, States.READY⟩]) := by
  rcases execute_branches quantum s hr with ⟨h1, he⟩ | ⟨h1, h2, he⟩ | ⟨h1, h2, h3, he⟩ |
    ⟨h1, h2, h3, he⟩
  · refine Or.inl ⟨h1, new_events_of_eq ?_⟩
    rw [he]; rfl
  · refine Or.inr (Or.inl ⟨h1, h2, new_events_of_eq ?_⟩)
    rw [he]; rfl
  · refine Or.inr (Or.inr (Or.inl ⟨h1, h2, h3, new_events_of_eq ?_⟩))
    rw [he]; simp [run_one_ms]
  · refine Or.inr (Or.inr (Or.inr ⟨h1, h2, h3, new_events_of_eq ?_⟩))
    rw [he]; rfl

theorem log_execute (quantum : Option Nat) (s : Sim) :
    (execute quantum s).execution_status =
      s.execution_status ++ new_events s (execute quantum s) := by
  obtain ⟨evs, h, _⟩ := execute_log quantum s
  rw [new_events_of_eq h, h]

theorem new_events_execute_idle (quantum : Option Nat) (s : Sim) (hr : s.running.PID = -1) :
    new_events s (execute quantum s) = [] := by
  apply new_events_of_eq
  rw [execute_idle quantum s hr]
  simp

theorem move_log_no_leave {mem : Nat → PCB → Bool} {eng : Engine} {s t : Sim}
    (h : Move mem eng s t) (he : eng ≠ Engine.ep_rr) :
    ∃ evs, t.execution_status = s.execution_status ++ evs ∧
      ∀ e ∈ evs, e.old_state ≠ States.RUNNING := by
  cases h with
  | skip jl k => exact ⟨[], by simp, by simp⟩
  | admission done p todo jl hl hs hap hm => exact ⟨_, rfl, by simp⟩
  | io_done kept e todo hw hc => exact ⟨_, rfl, by simp⟩
  | rr_dispatch front rest he hr hq => exact ⟨_, rfl, by simp⟩
  | sort he => exact ⟨[], by simp, by simp⟩
  | pick_return back rest jl he hr hq hmin => exact ⟨_, rfl, by simp⟩
  | pick back rest jl he hr hq hmin => exact ⟨_, rfl, by simp⟩
  | preemption top rest he2 hr hq hlt => exact absurd he2 he

/-! ## No quantum expiry for a process that fits in one quantum -/

theorem rr_demotion_is_long (s : Sim) (hs : Bounded s) (hr : s.running.PID ≠ -1)
    (hne : (run_one_ms s).running.remaining_time ≠ 0)
    (hq : (s.current_time - s.running.start_time + 1) % RR.RR_QUANTUM = 0) :
    ¬ (1 ≤ s.running.processing_time ∧ s.running.processing_time ≤ RR.RR_QUANTUM) := by
  obtain ⟨hd1, _⟩ := bounded_decrement s hs hr
  intro ⟨h1, h2⟩
  have := hd1 h1
  unfold RR.RR_QUANTUM at hq h2
  omega

theorem rr_long_demotions_after (mem : Nat → PCB → Bool) (input : List InputRecord) (n : Nat) :
    rr_long_demotions input (RR.after mem (load input) n) := by
  have key := (engine_induct mem Engine.rr input
    (fun s => Bounded s ∧ Everywhere (descends input) s ∧ rr_long_demotions input s)
    ⟨bounded_start input, everywhere_start input, by simp [rr_long_demotions, start]⟩ ?_ ?_ n).1
  · exact key.2.2
  · intro s t h ⟨hb, hd, hl⟩
    refine ⟨bounded_move h hb, everywhere_move (static_descends input) h hd, ?_⟩
    obtain ⟨evs, hlog, hev⟩ := move_log_no_leave h (by decide)
    intro e he
    rw [hlog] at he
    rcases List.mem_append.1 he with he | he
    · exact hl e he
    · intro h1
      exact absurd h1 (hev e he)
  · intro s ⟨hb, hd, hl⟩
    refine ⟨bounded_execute _ s hb, everywhere_execute (static_descends input) _ s hd, ?_⟩
    intro e he
    have he2 : e ∈ (execute Engine.rr.quantum s).execution_status := he
    rw [log_execute] at he2
    rcases List.mem_append.1 he2 with he2 | he2
    · exact hl e he2
    · intro h1 h2
      by_cases hr : s.running.PID = -1
      · rw [new_events_execute_idle _ s hr] at he2
        cases he2
      · rcases execute_events Engine.rr.quantum s hr with ⟨_, hev⟩ | ⟨_, _, hev⟩ |
          ⟨_, _, _, hev⟩ | ⟨_, hne, ⟨k, hk1, hk2⟩, hev⟩
        · rw [hev, List.mem_singleton] at he2
          rw [he2] at h2
          cases h2
        · rw [hev, List.mem_singleton] at he2
          rw [he2] at h2
          cases h2
        · rw [hev] at he2
          cases he2
        · rw [hev, List.mem_singleton] at he2
          have hk : k = RR.RR_QUANTUM := by
            have : Engine.rr.quantum = some RR.RR_QUANTUM := rfl
            rw [this] at hk1
            exact (Option.some.inj hk1).symm
          rw [hk] at hk2
          obtain ⟨r, hr1, hr2, _, hr3, _⟩ := hd.running hr
          refine ⟨r, hr1, by rw [he2]; exact hr2, ?_⟩
          rw [hr3]
          exact rr_demotion_is_long s hb hr hne hk2

end Sched

namespace Sched

/-! ## Admission and the log -/

theorem first_mentions_snoc (log : List Event) (e : Event) (h : first_mention_is_admission log)
    (he : (e.old_state = States.NEW ∧ e.new_state = States.READY) ∨
      e.pid ∈ log.map Event.pid) : first_mention_is_admission (log ++ [e]) := by
  intro pre x post hsplit hfirst
  rcases List.eq_nil_or_concat post with hp | ⟨post2, y, hp⟩
  · subst hp
    have h2 : log ++ [e] = pre ++ [x] := hsplit
    obtain ⟨h3, h4⟩ := List.append_inj' h2 rfl
    have hx : x = e := by simpa using h4.symm
    subst h3
    rcases he with he | he
    · rw [hx]; exact he
    · obtain ⟨z, hz, hze⟩ := List.mem_map.1 he
      exact absurd (by rw [hx]; exact hze) (hfirst z hz)
  · subst hp
    have h2 : log ++ [e] = (pre ++ x :: post2) ++ [y] := by
      rw [hsplit]; simp
    obtain ⟨h3, _⟩ := List.append_inj' h2 rfl
    exact h pre x post2 h3 hfirst

theorem mem_map_pid_append (log evs : List Event) (p : Int)
    (h : p ∈ log.map Event.pid) : p ∈ (log ++ evs).map Event.pid := by
  rw [List.map_append]
  exact List.mem_append_left _ h

theorem announced_move {mem : Nat → PCB → Bool} {eng : Engine} {s t : Sim}
    (h : Move mem eng s t) (hs : Announced s) : Announced t := by
  obtain ⟨h1, h2, h3, h4⟩ := hs
  cases h with
  | skip jl k => exact ⟨h1, h2, h3, h4⟩
  | admission done p todo jl hl hsp hap hm =>
    refine ⟨first_mentions_snoc _ _ h1 (Or.inl ⟨rfl, rfl⟩), ?_,
      fun e he => mem_map_pid_append _ _ _ (h3 e he),
      fun hr => mem_map_pid_append _ _ _ (h4 hr)⟩
    intro q hq
    simp only [List.mem_append, List.mem_singleton] at hq
    rcases hq with hq | hq
    · exact mem_map_pid_append _ _ _ (h2 q hq)
    · rw [hq]; simp
  | io_done kept e todo hw hc =>
    have he : e.1.PID ∈ s.execution_status.map Event.pid := h3 e (by rw [hw]; simp)
    refine ⟨first_mentions_snoc _ _ h1 (Or.inr he), ?_, ?_,
      fun hr => mem_map_pid_append _ _ _ (h4 hr)⟩
    · intro q hq
      simp only [List.mem_append, List.mem_singleton] at hq
      rcases hq with hq | hq
      · exact mem_map_pid_append _ _ _ (h2 q hq)
      · rw [hq]; simp
    · intro x hx
      apply mem_map_pid_append
      apply h3 x
      rw [hw]
      simp only [List.mem_append, List.mem_cons] at hx ⊢
      tauto
  | rr_dispatch front rest he hr hq =>
    have hf : front.PID ∈ s.execution_status.map Event.pid := h2 front (by rw [hq]; simp)
    exact ⟨first_mentions_snoc _ _ h1 (Or.inr hf),
      fun q hq2 => mem_map_pid_append _ _ _ (h2 q (by rw [hq]; simp [hq2])),
      fun e he => mem_map_pid_append _ _ _ (h3 e he), fun _ => by simp⟩
  | sort he =>
    exact ⟨h1, fun q hq => h2 q ((mem_sort_ready_by_priority _ q).1 hq), h3, h4⟩
  | pick_return back rest jl he hr hq hmin =>
    have hf : back.PID ∈ s.execution_status.map Event.pid := h2 back (by rw [hq]; simp)
    exact ⟨first_mentions_snoc _ _ h1 (Or.inr hf),
      fun q hq2 => mem_map_pid_append _ _ _ (h2 q (by rw [hq]; simp [hq2])),
      fun e he => mem_map_pid_append _ _ _ (h3 e he),
      fun hr2 => mem_map_pid_append _ _ _ (h4 hr2)⟩
  | pick back rest jl he hr hq hmin =>
    have hf : back.PID ∈ s.execution_status.map Event.pid := h2 back (by rw [hq]; simp)
    exact ⟨first_mentions_snoc _ _ h1 (Or.inr hf),
      fun q hq2 => mem_map_pid_append _ _ _ (h2 q (by rw [hq]; simp [hq2])),
      fun e he => mem_map_pid_append _ _ _ (h3 e he), fun _ => by simp⟩
  | preemption top rest he hr hq hlt =>
    have hf : top.PID ∈ s.execution_status.map Event.pid := h2 top (by rw [hq]; simp)
    have hlog : s.execution_status ++
        [⟨s.current_time, s.running.PID, States.RUNNING, States.READY⟩,
         ⟨s.current_time, top.PID, States.READY, States.RUNNING⟩] =
        (s.execution_status ++ [⟨s.current_time, s.running.PID, States.RUNNING, States.READY⟩])
          ++ [⟨s.current_time, top.PID, States.READY, States.RUNNING⟩] := by simp
    refine ⟨?_, fun q hq2 => mem_map_pid_append _ _ _ (h2 q hq2),
      fun e he => mem_map_pid_append _ _ _ (h3 e he), fun _ => by simp⟩
    show first_mention_is_admission (s.execution_status ++ [_, _])
    rw [hlog]
    exact first_mentions_snoc _ _ (first_mentions_snoc _ _ h1 (Or.inr (h4 hr)))
      (Or.inr (mem_map_pid_append _ _ _ hf))

theorem announced_execute (quantum : Option Nat) (s : Sim) (hs : Announced s) :
    Announced (advance (execute quantum s)) := by
  suffices h : Announced (execute quantum s) from ⟨h.log, h.ready, h.waiting, h.running⟩
  by_cases hr : s.running.PID = -1
  · rw [execute_idle quantum s hr]; exact hs
  · obtain ⟨h1, h2, h3, h4⟩ := hs
    have hp := h4 hr
    rcases execute_branches quantum s hr with ⟨_, he⟩ | ⟨_, _, he⟩ | ⟨_, _, _, he⟩ | ⟨_, _, _, he⟩
    · rw [he]
      refine ⟨first_mentions_snoc _ _ h1 (Or.inr hp),
        fun q hq => mem_map_pid_append _ _ _ (h2 q hq), ?_, fun h => absurd rfl h⟩
      intro x hx
      simp only [block_on_io, List.mem_append, List.mem_singleton] at hx
      rcases hx with hx | hx
      · exact mem_map_pid_append _ _ _ (h3 x hx)
      · rw [hx]; simp [block_on_io, run_one_ms]
    · rw [he]
      exact ⟨first_mentions_snoc _ _ h1 (Or.inr hp),
        fun q hq => mem_map_pid_append _ _ _ (h2 q hq),
        fun e he => mem_map_pid_append _ _ _ (h3 e he), fun h => absurd rfl h⟩
    · rw [he]
      exact ⟨h1, h2, h3, fun _ => hp⟩
    · rw [he]
      refine ⟨first_mentions_snoc _ _ h1 (Or.inr hp), ?_,
        fun e he => mem_map_pid_append _ _ _ (h3 e he), fun h => absurd rfl h⟩
      intro x hx
      simp only [quantum_expiry, List.mem_append, List.mem_singleton] at hx
      rcases hx with hx | hx
      · exact mem_map_pid_append _ _ _ (h2 x hx)
      · rw [hx]; simp [quantum_expiry, run_one_ms]

theorem announced_after (mem : Nat → PCB → Bool) (eng : Engine) (input : List InputRecord)
    (n : Nat) : Announced (eng.after mem (load input) n) :=
  (engine_induct mem eng input Announced
    ⟨by intro pre e post h; simp [start] at h, by simp [start], by simp [start],
      fun h => absurd rfl h⟩
    (fun _ _ h => announced_move h) (fun s => announced_execute _ s) n).1

end Sched

namespace Sched

/-! ## Which processes the log mentions -/

theorem unseen_move {mem : Nat → PCB → Bool} {eng : Engine} {pid : Int}
    (hP : ∀ k p, p.PID = pid → mem k p = false) {s t : Sim} (h : Move mem eng s t)
    (hs : Unseen pid s) : Unseen pid t := by
  obtain ⟨h1, h2, h3, h4⟩ := hs
  have hlog : ∀ e : Event, e.pid ≠ pid → ∀ x ∈ s.execution_status ++ [e], x.pid ≠ pid := by
    intro e he x hx
    rcases List.mem_append.1 hx with hx | hx
    · exact h1 x hx
    · rw [List.mem_singleton.1 hx]; exact he
  cases h with
  | skip jl k => exact ⟨h1, h2, h3, h4⟩
  | admission done p todo jl hl hsp hap hm =>
    have hp : p.PID ≠ pid := by
      intro hp
      rw [hP _ p hp] at hm
      cases hm
    refine ⟨hlog _ hp, ?_, h3, h4⟩
    intro q hq
    simp only [List.mem_append, List.mem_singleton] at hq
    rcases hq with hq | hq
    · exact h2 q hq
    · rw [hq]; exact hp
  | io_done kept e todo hw hc =>
    have he : e.1.PID ≠ pid := h3 e (by rw [hw]; simp)
    refine ⟨hlog _ he, ?_, ?_, h4⟩
    · intro q hq
      simp only [List.mem_append, List.mem_singleton] at hq
      rcases hq with hq | hq
      · exact h2 q hq
      · rw [hq]; exact he
    · intro x hx
      apply h3 x
      rw [hw]
      simp only [List.mem_append, List.mem_cons] at hx ⊢
      tauto
  | rr_dispatch front rest he hr hq =>
    have hf : front.PID ≠ pid := h2 front (by rw [hq]; simp)
    exact ⟨hlog _ hf, fun q hq2 => h2 q (by rw [hq]; simp [hq2]), h3, fun _ => hf⟩
  | sort he =>
    exact ⟨h1, fun q hq => h2 q ((mem_sort_ready_by_priority _ q).1 hq), h3, h4⟩
  | pick_return back rest jl he hr hq hmin =>
    have hf : back.PID ≠ pid := h2 back (by rw [hq]; simp)
    exact ⟨hlog _ hf, fun q hq2 => h2 q (by rw [hq]; simp [hq2]), h3, h4⟩
  | pick back rest jl he hr hq hmin =>
    have hf : back.PID ≠ pid := h2 back (by rw [hq]; simp)
    exact ⟨hlog _ hf, fun q hq2 => h2 q (by rw [hq]; simp [hq2]), h3, fun _ => hf⟩
  | preemption top rest he hr hq hlt =>
    have hf : top.PID ≠ pid := h2 top (by rw [hq]; simp)
    refine ⟨?_, h2, h3, fun _ => hf⟩
    intro x hx
    simp only [List.mem_append, List.mem_cons, List.mem_singleton, List.not_mem_nil,
      or_false] at hx
    rcases hx with hx | hx | hx
    · exact h1 x hx
    · rw [hx]; exact h4 hr
    · rw [hx]; exact hf

theorem unseen_execute {pid : Int} (quantum : Option Nat) (s : Sim) (hs : Unseen pid s) :
    Unseen pid (advance (execute quantum s)) := by
  suffices h : Unseen pid (execute quantum s) from ⟨h.log, h.ready, h.waiting, h.running⟩
  by_cases hr : s.running.PID = -1
  · rw [execute_idle quantum s hr]; exact hs
  · obtain ⟨h1, h2, h3, h4⟩ := hs
    have hp := h4 hr
    have hlog : ∀ e : Event, e.pid ≠ pid → ∀ x ∈ s.execution_status ++ [e], x.pid ≠ pid := by
      intro e he x hx
      rcases List.mem_append.1 hx with hx | hx
      · exact h1 x hx
      · rw [List.mem_singleton.1 hx]; exact he
    rcases execute_branches quantum s hr with ⟨_, he⟩ | ⟨_, _, he⟩ | ⟨_, _, _, he⟩ | ⟨_, _, _, he⟩
    · rw [he]
      refine ⟨hlog _ hp, h2, ?_, fun h => absurd rfl h⟩
      intro x hx
      simp only [block_on_io, List.mem_append, List.mem_singleton] at hx
      rcases hx with hx | hx
      · exact h3 x hx
      · rw [hx]; exact hp
    · rw [he]
      exact ⟨hlog _ hp, h2, h3, fun h => absurd rfl h⟩
    · rw [he]
      exact ⟨h1, h2, h3, fun _ => hp⟩
    · rw [he]
      refine ⟨hlog _ hp, ?_, h3, fun h => absurd rfl h⟩
      intro x hx
      simp only [quantum_expiry, List.mem_append, List.mem_singleton] at hx
      rcases hx with hx | hx
      · exact h2 x hx
      · rw [hx]; exact hp

theorem unseen_after (mem : Nat → PCB → Bool) (eng : Engine) (input : List InputRecord)
    (pid : Int) (hP : ∀ k p, p.PID = pid → mem k p = false) (n : Nat) :
    Unseen pid (eng.after mem (load input) n) :=
  (engine_induct mem eng input (Unseen pid)
    ⟨by simp [start], by simp [start], by simp [start], fun h => absurd rfl h⟩
    (fun _ _ h => unseen_move hP h) (fun s => unseen_execute _ s) n).1

/-! ## Admission comes after arrival -/

theorem move_log_new {mem : Nat → PCB → Bool} {eng : Engine} {s t : Sim}
    (h : Move mem eng s t) :
    ∃ evs, t.execution_status = s.execution_status ++ evs ∧
      ∀ e ∈ evs, e.old_state = States.NEW →
        ∃ p ∈ s.list_process, p.state = States.NOT_ASSIGNED ∧
          p.arrival_time ≤ s.current_time ∧ mem s.mem_calls p = true ∧
          e = ⟨s.current_time, p.PID, States.NEW, States.READY⟩ := by
  cases h with
  | skip jl k => exact ⟨[], by simp, by simp⟩
  | admission done p todo jl hl hs hap hm =>
    refine ⟨_, rfl, ?_⟩
    intro e he _
    rw [List.mem_singleton.1 he]
    exact ⟨p, by rw [hl]; simp, hs, hap, hm, rfl⟩
  | io_done kept e todo hw hc => exact ⟨_, rfl, by simp⟩
  | rr_dispatch front rest he hr hq => exact ⟨_, rfl, by simp⟩
  | sort he => exact ⟨[], by simp, by simp⟩
  | pick_return back rest jl he hr hq hmin => exact ⟨_, rfl, by simp⟩
  | pick back rest jl he hr hq hmin => exact ⟨_, rfl, by simp⟩
  | preemption top rest he2 hr hq hlt => exact ⟨_, rfl, by simp⟩

theorem execute_log_leave (quantum : Option Nat) (s : Sim) :
    ∃ evs, (execute quantum s).execution_status = s.execution_status ++ evs ∧
      ∀ e ∈ evs, e.old_state = States.RUNNING :=
  appended_execute quantum s

theorem admitted_after_arrival_after (mem : Nat → PCB → Bool) (eng : Engine)
    (input : List InputRecord) (n : Nat) :
    admitted_after_arrival input (eng.after mem (load input) n).execution_status := by
  have key := (engine_induct mem eng input
    (fun s => Everywhere (descends input) s ∧
      admitted_after_arrival input s.execution_status)
    ⟨everywhere_start input, by simp [admitted_after_arrival, start]⟩ ?_ ?_ n).1
  · exact key.2
  · intro s t h ⟨hd, hl⟩
    refine ⟨everywhere_move (static_descends input) h hd, ?_⟩
    obtain ⟨evs, hlog, hev⟩ := move_log_new h
    intro e he h1 h2
    rw [hlog] at he
    rcases List.mem_append.1 he with he | he
    · exact hl e he h1 h2
    · obtain ⟨p, hp, _, hap, _, hpe⟩ := hev e he h1
      obtain ⟨r, hr, hr1, hr2, _⟩ := hd.listed p hp
      refine ⟨r, hr, by rw [hpe]; exact hr1, ?_⟩
      rw [hpe, hr2]
      exact hap
  · intro s ⟨hd, hl⟩
    refine ⟨everywhere_execute (static_descends input) _ s hd, ?_⟩
    obtain ⟨evs, hlog, hev⟩ := execute_log_leave eng.quantum s
    intro e he h1 h2
    have he2 : e ∈ (execute eng.quantum s).execution_status := he
    rw [hlog] at he2
    rcases List.mem_append.1 he2 with he2 | he2
    · exact hl e he2 h1 h2
    · have := hev e he2
      rw [h1] at this
      cases this

/-! ## At most one admission per process -/

theorem admitted_pids_append_other (log evs : List Event)
    (h : ∀ e ∈ evs, e.old_state ≠ States.NEW) :
    admitted_pids (log ++ evs) = admitted_pids log := by
  unfold admitted_pids
  rw [List.filter_append, List.map_append]
  have : evs.filter (fun e => decide (e.old_state = States.NEW ∧
      e.new_state = States.READY)) = [] := by
    rw [List.filter_eq_nil_iff]
    intro e he
    have := h e he
    simp [this]
  rw [this]
  simp

theorem admitted_pids_snoc_new (log : List Event) (t : Nat) (pid : Int) :
    admitted_pids (log ++ [⟨t, pid, States.NEW, States.READY⟩]) =
      admitted_pids log ++ [pid] := by
  unfold admitted_pids
  simp [List.filter_append]

theorem admitted_count_snoc_new (log : List Event) (t : Nat) (p pid : Int) :
    (admitted_pids (log ++ [⟨t, p, States.NEW, States.READY⟩])).count pid =
      (admitted_pids log).count pid + (if p = pid then 1 else 0) := by
  rw [admitted_pids_snoc_new, List.count_append]
  by_cases h : p = pid
  · simp [h]
  · rw [if_neg h]
    simp [List.count_cons, h]

theorem pending_count_sync_all_le (pid : Int) (q : PCB) (l : List PCB)
    (hq : q.state ≠ States.NOT_ASSIGNED) :
    pending_count pid (sync_all q l) ≤ pending_count pid l := by
  unfold pending_count sync_all
  induction l with
  | nil => simp
  | cons x xs ih =>
    rw [List.map_cons, List.countP_cons, List.countP_cons]
    by_cases hx : x.PID = q.PID
    · rw [if_pos hx]
      have : ¬ (q.PID = pid ∧ q.state = States.NOT_ASSIGNED) := fun h => hq h.2
      simp only [this, decide_False, Bool.false_eq_true, if_false]
      omega
    · rw [if_neg hx]
      omega

theorem pending_count_admission (pid : Int) (done : List PCB) (p : PCB) (todo : List PCB)
    (hs : p.state = States.NOT_ASSIGNED) :
    pending_count pid (done ++ { p with state := States.READY } :: todo) +
      (if p.PID = pid then 1 else 0) = pending_count pid (done ++ p :: todo) := by
  unfold pending_count
  rw [List.countP_append, List.countP_append, List.countP_cons, List.countP_cons]
  by_cases h : p.PID = pid
  · simp [h, hs]
    omega
  · simp [h]

theorem pending_count_load (pid : Int) (input : List InputRecord) :
    pending_count pid (load input) = (input.map InputRecord.PID).count pid := by
  unfold pending_count load
  induction input with
  | nil => rfl
  | cons r rs ih =>
    rw [List.map_cons, List.map_cons, List.countP_cons, List.count_cons, ih]
    by_cases h : r.PID = pid
    · simp [add_process, h]
    · simp [add_process, h]

theorem counted_move {mem : Nat → PCB → Bool} {eng : Engine} (input : List InputRecord)
    {s t : Sim} (h : Move mem eng s t) (hs : Counted input s) : Counted input t := by
  have hother : ∀ (u : Sim) (evs : List Event) (q : PCB),
      u.list_process = sync_all q s.list_process →
      u.execution_status = s.execution_status ++ evs →
      (∀ e ∈ evs, e.old_state ≠ States.NEW) → q.state ≠ States.NOT_ASSIGNED →
      Counted input u := by
    intro u evs q hu1 hu2 hev hq pid
    rw [hu1, hu2, admitted_pids_append_other _ _ hev]
    have := pending_count_sync_all_le pid q s.list_process hq
    have := hs pid
    omega
  cases h with
  | skip jl k => exact hs
  | admission done p todo jl hl hsp hap hm =>
    intro pid
    show (admitted_pids (s.execution_status ++ [_])).count pid +
      pending_count pid (done ++ { p with state := States.READY } :: todo) ≤ _
    rw [admitted_count_snoc_new]
    have h1 := pending_count_admission pid done p todo hsp
    have h2 := hs pid
    rw [hl] at h2
    omega
  | io_done kept e todo hw hc => exact hother _ [_] _ rfl rfl (by simp) (by simp)
  | rr_dispatch front rest he hr hq => exact hother _ [_] _ rfl rfl (by simp) (by simp)
  | sort he => exact hs
  | pick_return back rest jl he hr hq hmin => exact hother _ [_] _ rfl rfl (by simp) (by simp)
  | pick back rest jl he hr hq hmin => exact hother _ [_] _ rfl rfl (by simp) (by simp)
  | preemption top rest he hr hq hlt => exact hother _ [_, _] _ rfl rfl (by simp) (by simp)

theorem counted_execute (input : List InputRecord) (quantum : Option Nat) (s : Sim)
    (hb : Bounded s) (hs : Counted input s) : Counted input (advance (execute quantum s)) := by
  suffices h : Counted input (execute quantum s) from h
  by_cases hr : s.running.PID = -1
  · rw [execute_idle quantum s hr]; exact hs
  · have hst : (run_one_ms s).running.state ≠ States.NOT_ASSIGNED := (hb.running hr).1
    have h1 : ∀ pid, pending_count pid (run_one_ms s).list_process ≤
        pending_count pid s.list_process :=
      fun pid => pending_count_sync_all_le pid _ _ hst
    have h2 : ∀ (q : PCB), q.state ≠ States.NOT_ASSIGNED → ∀ pid,
        pending_count pid (sync_all q (run_one_ms s).list_process) ≤
          pending_count pid s.list_process :=
      fun q hq pid => le_trans (pending_count_sync_all_le pid q _ hq) (h1 pid)
    have hadm : ∀ e : Event, e.old_state = States.RUNNING →
        admitted_pids (s.execution_status ++ [e]) = admitted_pids s.execution_status := by
      intro e he
      apply admitted_pids_append_other
      intro x hx
      rw [List.mem_singleton.1 hx, he]
      decide
    rcases execute_branches quantum s hr with ⟨_, he⟩ | ⟨_, _, he⟩ | ⟨_, _, _, he⟩ | ⟨_, _, _, he⟩
    · rw [he]
      intro pid
      show (admitted_pids (s.execution_status ++ [_])).count pid +
        pending_count pid (sync_all _ (run_one_ms s).list_process) ≤ _
      rw [hadm _ rfl]
      exact le_trans (Nat.add_le_add_left
        (h2 { (run_one_ms s).running with state := States.WAITING } (by simp) pid) _) (hs pid)
    · rw [he]
      intro pid
      show (admitted_pids (s.execution_status ++ [_])).count pid +
        pending_count pid (run_one_ms s).list_process ≤ _
      rw [hadm _ rfl]
      have := h1 pid
      have := hs pid
      omega
    · rw [he]
      intro pid
      show (admitted_pids s.execution_status).count pid +
        pending_count pid (run_one_ms s).list_process ≤ _
      have := h1 pid
      have := hs pid
      omega
    · rw [he]
      intro pid
      show (admitted_pids (s.execution_status ++ [_])).count pid +
        pending_count pid (sync_all _ (run_one_ms s).list_process) ≤ _
      rw [hadm _ rfl]
      exact le_trans (Nat.add_le_add_left
        (h2 { (run_one_ms s).running with state := States.READY } (by simp) pid) _) (hs pid)

theorem counted_after (mem : Nat → PCB → Bool) (eng : Engine) (input : List InputRecord)
    (n : Nat) : Counted input (eng.after mem (load input) n) := by
  have key := (engine_induct mem eng input (fun s => Bounded s ∧ Counted input s)
    ⟨bounded_start input, ?_⟩ ?_ ?_ n).1
  · exact key.2
  · intro pid
    show (admitted_pids []).count pid + pending_count pid (load input) ≤ _
    rw [pending_count_load]
    simp [admitted_pids]
  · intro s t h ⟨hb, ho⟩
    exact ⟨bounded_move h hb, counted_move input h ho⟩
  · intro s ⟨hb, ho⟩
    exact ⟨bounded_execute _ s hb, counted_execute input _ s hb ho⟩

/-- The admissions of a log are counted per `PID`: no more `NEW -> READY` events
than input processes with that `PID`. -/
theorem admitted_count_le (mem : Nat → PCB → Bool) (eng : Engine) (input : List InputRecord)
    (n : Nat) (pid : Int) :
    (admitted_pids (eng.after mem (load input) n).execution_status).count pid ≤
      (input.map InputRecord.PID).count pid := by
  have := counted_after mem eng input n pid
  omega

end Sched

namespace Sched

/-! ## A process that is never refused is admitted at its arrival time -/

theorem move_pending_subset {mem : Nat → PCB → Bool} {eng : Engine} {s t : Sim}
    (h : Move mem eng s t) :
    ∀ p ∈ t.list_process, p.state = States.NOT_ASSIGNED → p ∈ s.list_process := by
  have hsync : ∀ q : PCB, q.state ≠ States.NOT_ASSIGNED →
      ∀ p ∈ sync_all q s.list_process, p.state = States.NOT_ASSIGNED → p ∈ s.list_process := by
    intro q hq p hp hna
    rcases mem_sync_all_cases hp with hp | hp
    · rw [hp] at hna; exact absurd hna hq
    · exact hp.1
  cases h with
  | skip jl k => exact fun p hp _ => hp
  | admission done q todo jl hl hs hap hm =>
    intro p hp hna
    rw [hl]
    simp only [List.mem_append, List.mem_cons] at hp ⊢
    rcases hp with hp | hp | hp
    · exact Or.inl hp
    · rw [hp] at hna; simp at hna
    · exact Or.inr (Or.inr hp)
  | io_done kept e todo hw hc => exact hsync _ (by simp)
  | rr_dispatch front rest he hr hq => exact hsync _ (by simp)
  | sort he => exact fun p hp _ => hp
  | pick_return back rest jl he hr hq hmin => exact hsync _ (by simp)
  | pick back rest jl he hr hq hmin => exact hsync _ (by simp)
  | preemption top rest he hr hq hlt => exact hsync _ (by simp)

theorem moves_pending_subset {mem : Nat → PCB → Bool} {eng : Engine} {s t : Sim}
    (h : Moves mem eng s t) :
    ∀ p ∈ t.list_process, p.state = States.NOT_ASSIGNED → p ∈ s.list_process := by
  induction h with
  | refl => exact fun p hp _ => hp
  | tail _ h2 ih => exact fun p hp hna => ih p (move_pending_subset h2 p hp hna) hna

theorem execute_pending_subset (quantum : Option Nat) (s : Sim) (hb : Bounded s) :
    ∀ p ∈ (execute quantum s).list_process, p.state = States.NOT_ASSIGNED →
      p ∈ s.list_process := by
  by_cases hr : s.running.PID = -1
  · rw [execute_idle quantum s hr]; exact fun p hp _ => hp
  · have hst : (run_one_ms s).running.state ≠ States.NOT_ASSIGNED := (hb.running hr).1
    have h1 : ∀ p ∈ (run_one_ms s).list_process, p.state = States.NOT_ASSIGNED →
        p ∈ s.list_process := by
      intro p hp hna
      rcases mem_sync_all_cases hp with hp | hp
      · rw [hp] at hna; exact absurd hna hst
      · exact hp.1
    have h2 : ∀ q : PCB, q.state ≠ States.NOT_ASSIGNED →
        ∀ p ∈ sync_all q (run_one_ms s).list_process, p.state = States.NOT_ASSIGNED →
          p ∈ s.list_process := by
      intro q hq p hp hna
      rcases mem_sync_all_cases hp with hp | hp
      · rw [hp] at hna; exact absurd hna hq
      · exact h1 p hp.1 hna
    rcases execute_branches quantum s hr with ⟨_, he⟩ | ⟨_, _, he⟩ | ⟨_, _, _, he⟩ | ⟨_, _, _, he⟩
    · rw [he]; exact h2 _ (by simp)
    · rw [he]; exact h1
    · rw [he]; exact h1
    · rw [he]; exact h2 _ (by simp)

/-- What the arrival loop leaves in state `NOT_ASSIGNED`, for a process that the
gateway never refuses. -/
theorem arrivals_settle (body : PCB → Sim → PCB × Sim) (pid : Int) (s : Sim)
    (hbody : ∀ p s1, s1.current_time = s.current_time →
      (body p s1).2.current_time = s.current_time ∧
      ((body p s1).1.state = States.NOT_ASSIGNED → (body p s1).1.PID = pid →
        (body p s1).1 = p ∧ ¬ (p.arrival_time = s.current_time ∧ p.arrival_time ≠ 0)))
    (h : ∀ p ∈ s.list_process, p.PID = pid → p.state = States.NOT_ASSIGNED →
      s.current_time ≤ p.arrival_time ∧ p.arrival_time ≠ 0) :
    ∀ p ∈ (for_each_process body [] s.list_process s).list_process, p.PID = pid →
      p.state = States.NOT_ASSIGNED → s.current_time < p.arrival_time := by
  have key := for_each_process_induct_split body
    (fun done todo s1 => s1.current_time = s.current_time ∧
      (∀ x ∈ done, x.PID = pid → x.state = States.NOT_ASSIGNED →
        s.current_time < x.arrival_time) ∧
      (∀ x ∈ todo, x.PID = pid → x.state = States.NOT_ASSIGNED →
        s.current_time ≤ x.arrival_time ∧ x.arrival_time ≠ 0)) ?_
    s.list_process [] s (by simp) ⟨rfl, by simp, h⟩
  · exact key.2.1
  intro done p todo s1 _ ⟨ht, hd, htodo⟩
  obtain ⟨hb1, hb2⟩ := hbody p s1 ht
  refine ⟨hb1, ?_, fun x hx => htodo x (List.mem_cons_of_mem _ hx)⟩
  intro x hx hxp hxs
  rcases List.mem_append.1 hx with hx | hx
  · exact hd x hx hxp hxs
  · rw [List.mem_singleton] at hx
    rw [hx] at hxp hxs ⊢
    obtain ⟨h1, h2⟩ := hb2 hxs hxp
    rw [h1] at hxp hxs ⊢
    have h3 := htodo p (List.mem_cons_self _ _) hxp hxs
    have : p.arrival_time ≠ s.current_time := fun h4 => h2 ⟨h4, h3.2⟩
    omega

theorem rr_arrival_body_settles (mem : Nat → PCB → Bool) (pid : Int)
    (hP : ∀ k p, p.PID = pid → mem k p = true) (t : Nat) (p : PCB) (s1 : Sim)
    (ht : s1.current_time = t) :
    (RR.arrival_body mem p s1).2.current_time = t ∧
      ((RR.arrival_body mem p s1).1.state = States.NOT_ASSIGNED →
        (RR.arrival_body mem p s1).1.PID = pid →
        (RR.arrival_body mem p s1).1 = p ∧ ¬ (p.arrival_time = t ∧ p.arrival_time ≠ 0)) := by
  by_cases ha : p.arrival_time = s1.current_time ∧ p.arrival_time ≠ 0
  · by_cases hs : p.state = States.NOT_ASSIGNED
    · by_cases hm : mem s1.mem_calls p = true
      · simp only [RR.arrival_body, if_pos ha, if_pos hs, if_pos hm, make_ready]
        exact ⟨ht, fun h => by simp at h⟩
      · simp only [RR.arrival_body, if_pos ha, if_pos hs, if_neg hm]
        refine ⟨ht, fun _ h => ?_⟩
        exact absurd (hP _ p h) hm
    · simp only [RR.arrival_body, if_pos ha, if_neg hs]
      exact ⟨ht, fun h => absurd h hs⟩
  · simp only [RR.arrival_body, if_neg ha]
    exact ⟨ht, fun _ _ => ⟨trivial, by rw [← ht]; exact ha⟩⟩

theorem arrival_body_priority_settles (mem : Nat → PCB → Bool) (pid : Int)
    (hP : ∀ k p, p.PID = pid → mem k p = true) (t : Nat) (p : PCB) (s1 : Sim)
    (ht : s1.current_time = t) :
    (arrival_body_priority mem p s1).2.current_time = t ∧
      ((arrival_body_priority mem p s1).1.state = States.NOT_ASSIGNED →
        (arrival_body_priority mem p s1).1.PID = pid →
        (arrival_body_priority mem p s1).1 = p ∧
          ¬ (p.arrival_time = t ∧ p.arrival_time ≠ 0)) := by
  by_cases ha : p.arrival_time = s1.current_time ∧ p.arrival_time ≠ 0
  · by_cases hm : mem s1.mem_calls p = true
    · simp only [arrival_body_priority, if_pos ha, if_pos hm, make_ready]
      exact ⟨ht, fun h => by simp at h⟩
    · simp only [arrival_body_priority, if_pos ha, if_neg hm]
      refine ⟨ht, fun _ h => ?_⟩
      exact absurd (hP _ p h) hm
  · simp only [arrival_body_priority, if_neg ha]
    exact ⟨ht, fun _ _ => ⟨trivial, by rw [← ht]; exact ha⟩⟩

theorem engine_arrivals_settle (mem : Nat → PCB → Bool) (eng : Engine) (pid : Int)
    (hP : ∀ k p, p.PID = pid → mem k p = true) (s : Sim)
    (h : ∀ p ∈ s.list_process, p.PID = pid → p.state = States.NOT_ASSIGNED →
      s.current_time ≤ p.arrival_time ∧ p.arrival_time ≠ 0) :
    ∀ p ∈ (eng.arrivals mem s).list_process, p.PID = pid →
      p.state = States.NOT_ASSIGNED → s.current_time < p.arrival_time := by
  cases eng with
  | rr =>
    exact arrivals_settle (RR.arrival_body mem) pid s
      (fun p s1 ht => rr_arrival_body_settles mem pid hP _ p s1 ht) h
  | ep =>
    exact arrivals_settle (arrival_body_priority mem) pid s
      (fun p s1 ht => arrival_body_priority_settles mem pid hP _ p s1 ht) h
  | ep_rr =>
    exact arrivals_settle (arrival_body_priority mem) pid s
      (fun p s1 ht => arrival_body_priority_settles mem pid hP _ p s1 ht) h

/-- After the initial admission loop, a never-refused process still in state
`NOT_ASSIGNED` does not arrive at time zero. -/
theorem init_settles (body : PCB → Sim → PCB × Sim) (pid : Int) (l : List PCB)
    (hbody : ∀ p s1, (body p s1).1.state = States.NOT_ASSIGNED → (body p s1).1.PID = pid →
      (body p s1).1.arrival_time ≠ 0) :
    ∀ p ∈ (for_each_process body [] l (start l)).list_process, p.PID = pid →
      p.state = States.NOT_ASSIGNED → p.arrival_time ≠ 0 := by
  have key := for_each_process_induct_split body
    (fun done _ _ => ∀ x ∈ done, x.PID = pid → x.state = States.NOT_ASSIGNED →
      x.arrival_time ≠ 0) ?_ l [] (start l) (by simp [start]) (by simp)
  · exact key
  intro done p todo s1 _ hd x hx hxp hxs
  rcases List.mem_append.1 hx with hx | hx
  · exact hd x hx hxp hxs
  · rw [List.mem_singleton] at hx
    rw [hx] at hxp hxs ⊢
    exact hbody p s1 hxs hxp

theorem engine_init_settles (mem : Nat → PCB → Bool) (eng : Engine) (pid : Int)
    (hP : ∀ k p, p.PID = pid → mem k p = true) (input : List InputRecord) :
    ∀ p ∈ (eng.init mem (load input)).list_process, p.PID = pid →
      p.state = States.NOT_ASSIGNED → p.arrival_time ≠ 0 := by
  have hrr : ∀ p s1, (RR.init_body mem p s1).1.state = States.NOT_ASSIGNED →
      (RR.init_body mem p s1).1.PID = pid → (RR.init_body mem p s1).1.arrival_time ≠ 0 := by
    intro p s1
    by_cases ha : p.arrival_time = 0
    · by_cases hm : mem s1.mem_calls p = true
      · simp only [RR.init_body, if_pos ha, if_pos hm]
        intro h; simp at h
      · simp only [RR.init_body, if_pos ha, if_neg hm]
        intro _ h
        exact absurd (hP _ p h) hm
    · simp only [RR.init_body, if_neg ha]
      exact fun _ _ => ha
  have hpr : ∀ p s1, (init_body_priority mem p s1).1.state = States.NOT_ASSIGNED →
      (init_body_priority mem p s1).1.PID = pid →
      (init_body_priority mem p s1).1.arrival_time ≠ 0 := by
    intro p s1
    by_cases ha : p.arrival_time = 0
    · by_cases hm : mem s1.mem_calls p = true
      · simp only [init_body_priority, if_pos ha, if_pos hm, make_ready]
        intro h; simp at h
      · simp only [init_body_priority, if_pos ha, if_neg hm]
        intro _ h
        exact absurd (hP _ p h) hm
    · simp only [init_body_priority, if_neg ha]
      exact fun _ _ => ha
  cases eng with
  | rr => exact init_settles (RR.init_body mem) pid (load input) hrr
  | ep =>
    show ∀ p ∈ (init_priority mem (load input)).list_process, _
    unfold init_priority
    rw [reset_states_load]
    exact init_settles (init_body_priority mem) pid (load input) hpr
  | ep_rr =>
    show ∀ p ∈ (init_priority mem (load input)).list_process, _
    unfold init_priority
    rw [reset_states_load]
    exact init_settles (init_body_priority mem) pid (load input) hpr

theorem arrivals_moves (mem : Nat → PCB → Bool) (eng : Engine) (s : Sim)
    (hp : Punctual s) : Moves mem eng s (eng.arrivals mem s) := by
  cases eng with
  | rr => exact rr_arrivals_moves mem _ s
  | ep => exact arrivals_priority_moves mem _ s hp
  | ep_rr => exact arrivals_priority_moves mem _ s hp

theorem schedule_rest_moves (mem : Nat → PCB → Bool) (eng : Engine) (s : Sim)
    (hp : Punctual s) : Moves mem eng (eng.arrivals mem s) (eng.schedule mem s) := by
  have ht := moves_current_time (arrivals_moves mem eng s hp)
  have h2 := try_assign_pending_moves mem eng (eng.arrivals mem s)
  rw [ht] at h2
  have h3 := moves_trans h2 (io_completions_moves mem eng _)
  cases eng with
  | rr => exact moves_trans h3 (rr_dispatch_moves mem _)
  | ep => exact moves_trans h3 (ep_dispatch_moves mem _)
  | ep_rr =>
    exact moves_trans h3 (moves_trans (ep_rr_sort_ready_moves mem _)
      (moves_trans (ep_rr_preempt_moves mem _) (ep_rr_dispatch_moves mem _)))

/-- The invariant carried by the atomic steps. -/
theorem on_arrival_move {mem : Nat → PCB → Bool} {eng : Engine} (input : List InputRecord)
    (pid : Int) {s t : Sim} (h : Move mem eng s t)
    (hk : ∀ p ∈ s.list_process, p.PID = pid → p.state = States.NOT_ASSIGNED →
      s.current_time ≤ p.arrival_time)
    (hd : Everywhere (descends input) s)
    (hl : admitted_on_arrival input pid s.execution_status) :
    admitted_on_arrival input pid t.execution_status := by
  obtain ⟨evs, hlog, hev⟩ := move_log_new h
  intro e he h1 h2 h3
  rw [hlog] at he
  rcases List.mem_append.1 he with he | he
  · exact hl e he h1 h2 h3
  · obtain ⟨p, hp, hna, hap, _, hpe⟩ := hev e he h1
    obtain ⟨r, hr, hr1, hr2, _⟩ := hd.listed p hp
    have hpp : p.PID = pid := by rw [hpe] at h3; exact h3
    have := hk p hp hpp hna
    refine ⟨r, hr, by rw [hr1, hpp], ?_⟩
    rw [hpe, hr2]
    show s.current_time = p.arrival_time
    omega

theorem admitted_on_arrival_after (mem : Nat → PCB → Bool) (eng : Engine)
    (input : List InputRecord) (pid : Int) (hP : ∀ k p, p.PID = pid → mem k p = true)
    (n : Nat) :
    admitted_on_arrival input pid (eng.after mem (load input) n).execution_status := by
  let J : Sim → Prop := fun s =>
    (∀ p ∈ s.list_process, p.PID = pid → p.state = States.NOT_ASSIGNED →
      s.current_time ≤ p.arrival_time) ∧
    Everywhere (descends input) s ∧ admitted_on_arrival input pid s.execution_status
  have hJ : ∀ s t, Move mem eng s t → J s → J t := by
    intro s t h ⟨hk, hd, hl⟩
    refine ⟨?_, everywhere_move (static_descends input) h hd, on_arrival_move input pid h hk hd hl⟩
    intro p hp hpp hna
    rw [move_current_time h]
    exact hk p (move_pending_subset h p hp hna) hpp hna
  suffices key : ∀ n, Bounded (eng.after mem (load input) n) ∧ J (eng.after mem (load input) n) ∧
      (∀ p ∈ (eng.after mem (load input) n).list_process, p.PID = pid →
        p.state = States.NOT_ASSIGNED → p.arrival_time ≠ 0) from (key n).2.1.2.2
  intro n
  induction n with
  | zero =>
    have hm := init_moves mem eng input
    have h0 : J (start (load input)) :=
      ⟨fun p _ _ _ => Nat.zero_le _, everywhere_start input,
        by simp [admitted_on_arrival, start]⟩
    exact ⟨moves_preserve Bounded (fun _ _ h => bounded_move h) hm (bounded_start input),
      moves_preserve J hJ hm h0, engine_init_settles mem eng pid hP input⟩
  | succ n ih =>
    obtain ⟨hb, ⟨hk, hd, hl⟩, hz⟩ := ih
    have hp := punctual_after mem eng input n
    have hm1 := arrivals_moves mem eng _ hp
    have hm2 := schedule_rest_moves mem eng _ hp
    have hm := moves_trans hm1 hm2
    have hsettle := engine_arrivals_settle mem eng pid hP _
      (fun p hp1 hp2 hp3 => ⟨hk p hp1 hp2 hp3, hz p hp1 hp2 hp3⟩)
    have hJ2 := moves_preserve J hJ hm ⟨hk, hd, hl⟩
    have hb2 := moves_preserve Bounded (fun _ _ h => bounded_move h) hm hb
    have hlate : ∀ p ∈ (eng.schedule mem (eng.after mem (load input) n)).list_process,
        p.PID = pid → p.state = States.NOT_ASSIGNED →
        (eng.after mem (load input) n).current_time < p.arrival_time := fun p hp1 hp2 hp3 =>
      hsettle p (moves_pending_subset hm2 p hp1 hp3) hp2 hp3
    rw [engine_after_succ]
    have hsub := execute_pending_subset eng.quantum _ hb2
    have htime : (eng.tick mem (eng.after mem (load input) n)).current_time =
        (eng.after mem (load input) n).current_time + 1 := by
      show (execute eng.quantum _).current_time + 1 = _
      rw [execute_current_time, moves_current_time hm]
    have hlate2 : ∀ p ∈ (eng.tick mem (eng.after mem (load input) n)).list_process,
        p.PID = pid → p.state = States.NOT_ASSIGNED →
        (eng.after mem (load input) n).current_time < p.arrival_time := fun p hp1 hp2 hp3 =>
      hlate p (hsub p hp1 hp3) hp2 hp3
    refine ⟨bounded_execute _ _ hb2, ⟨?_, everywhere_execute (static_descends input) _ _ hJ2.2.1,
      ?_⟩, ?_⟩
    · intro p hp1 hp2 hp3
      rw [htime]
      exact hlate2 p hp1 hp2 hp3
    · obtain ⟨evs, hlog, hev⟩ := execute_log_leave eng.quantum
        (eng.schedule mem (eng.after mem (load input) n))
      intro e he h1 h2 h3
      have he2 : e ∈ (execute eng.quantum
          (eng.schedule mem (eng.after mem (load input) n))).execution_status := he
      rw [hlog] at he2
      rcases List.mem_append.1 he2 with he2 | he2
      · exact hJ2.2.2 e he2 h1 h2 h3
      · have := hev e he2
        rw [h1] at this
        cases this
    · intro p hp1 hp2 hp3
      have := hlate2 p hp1 hp2 hp3
      omega

end Sched

namespace Sched

/-! ## The rule of the I/O test -/

/-- The record demoted by a quantum expiry of the Round-Robin engine has a
processing time outside `1 .. RR_QUANTUM`. -/
theorem rr_demotion_rule (s : Sim) (hb : Bounded s) :
    ∀ e ∈ new_events s (execute (some RR.RR_QUANTUM) s),
      e.old_state = States.RUNNING → e.new_state = States.READY →
      e.pid = s.running.PID ∧
        ¬ (1 ≤ s.running.processing_time ∧ s.running.processing_time ≤ RR.RR_QUANTUM) := by
  intro e he _ h2
  by_cases hr : s.running.PID = -1
  · rw [new_events_execute_idle _ s hr] at he
    cases he
  · rcases execute_events (some RR.RR_QUANTUM) s hr with ⟨_, hev⟩ | ⟨_, _, hev⟩ |
      ⟨_, _, _, hev⟩ | ⟨_, hne, ⟨k, hk1, hk2⟩, hev⟩
    · rw [hev, List.mem_singleton] at he
      rw [he] at h2
      cases h2
    · rw [hev, List.mem_singleton] at he
      rw [he] at h2
      cases h2
    · rw [hev] at he
      cases he
    · rw [hev, List.mem_singleton] at he
      cases hk1
      refine ⟨by rw [he], rr_demotion_is_long s hb hr hne hk2⟩

/-! ## The loop with more fuel -/

theorem while_loop_add (tick : Sim → Sim) (total : Nat) (fuel k : Nat) (s r : Sim)
    (h : while_loop tick total fuel s = some r) :
    while_loop tick total (fuel + k) s = some r := by
  induction fuel generalizing s with
  | zero =>
    have hs : ¬ s.terminated_count < total ∧ s = r := by
      unfold while_loop at h
      split at h
      · cases h
      · exact ⟨by assumption, Option.some.inj h⟩
    cases k with
    | zero => exact h
    | succ k =>
      rw [Nat.zero_add]
      unfold while_loop
      rw [if_neg hs.1, hs.2]
  | succ fuel ih =>
    rw [Nat.add_right_comm]
    unfold while_loop at h ⊢
    split
    · rename_i hlt
      rw [if_pos hlt] at h
      exact ih _ h
    · rename_i hlt
      rw [if_neg hlt] at h
      exact h

/-- A loop that exits with `n + 1` iterations allowed and not with `n` exits
after exactly `n + 1` iterations. -/
theorem while_loop_exact (tick : Sim → Sim) (total : Nat) (n : Nat) (s r : Sim)
    (h1 : while_loop tick total (n + 1) s = some r)
    (h2 : while_loop tick total n s = none) (fuel : Nat) :
    while_loop tick total fuel s = if n + 1 ≤ fuel then some r else none := by
  by_cases hf : n + 1 ≤ fuel
  · rw [if_pos hf]
    obtain ⟨k, hk⟩ := Nat.exists_eq_add_of_le hf
    rw [hk]
    exact while_loop_add tick total (n + 1) k s r h1
  · rw [if_neg hf]
    cases hw : while_loop tick total fuel s with
    | none => rfl
    | some r2 =>
      obtain ⟨k, hk⟩ := Nat.exists_eq_add_of_le (Nat.le_of_lt_succ (Nat.lt_of_not_le hf))
      have := while_loop_add tick total fuel k s r2 hw
      rw [← hk, h2] at this
      cases this

/-! ## The non-preemptive priority engine never fills the running slot -/

theorem ep_stuck_schedule (mem : Nat → PCB → Bool) (s : Sim) (h : EP.Stuck s) :
    EP.Stuck (EP.schedule mem s) := by
  unfold EP.schedule EP.dispatch
  have h1 := EP.stuck_intake mem s h
  split
  · split
    · exact EP.stuck_pick _ h1
    · exact h1
  · exact h1

end Sched

namespace Sched

/-! ## The claims on the quantum, the queue order, admission and the log -/

theorem map_while_loop_exact {α : Type} (f : Sim → α) (tick : Sim → Sim) (total n : Nat)
    (s : Sim) (a : α) (h1 : (while_loop tick total (n + 1) s).map f = some a)
    (h2 : while_loop tick total n s = none) (fuel : Nat) :
    (while_loop tick total fuel s).map f = if n + 1 ≤ fuel then some a else none := by
  cases hr : while_loop tick total (n + 1) s with
  | none =>
    rw [hr] at h1
    cases h1
  | some r =>
    rw [hr] at h1
    rw [while_loop_exact tick total n s r hr h2 fuel]
    split
    · exact h1
    · rfl

theorem admission_visible_after (mem : Nat → PCB → Bool) (eng : Engine)
    (input : List InputRecord) (n : Nat) :
    admission_visible mem input (eng.after mem (load input) n).execution_status := by
  refine ⟨(announced_after mem eng input n).log, admitted_count_le mem eng input n, ?_,
    admitted_after_arrival_after mem eng input n,
    fun pid hP => admitted_on_arrival_after mem eng input pid hP n,
    fun pid hP => (unseen_after mem eng input pid hP n).log⟩
  intro hn
  rw [List.nodup_iff_count_le_one]
  intro pid
  exact le_trans (admitted_count_le mem eng input n pid)
    (List.nodup_iff_count_le_one.1 hn pid)

theorem pending_until_arrival_after (mem : Nat → PCB → Bool) (eng : Engine)
    (input : List InputRecord) (n : Nat) :
    pending_until_arrival (eng.after mem (load input) n) := by
  intro p hp h1 h2
  by_contra hne
  rcases (punctual_after mem eng input n).2 p hp hne with h | h
  · omega
  · exact h2 h

theorem first_attempt_stamps_arrival_holds (mem : Nat → PCB → Bool) :
    first_attempt_stamps_arrival mem := by
  refine ⟨?_, ?_, ?_, ?_⟩
  · intro p s ha hm
    simp only [RR.init_body, if_pos ha, if_pos hm]
    rw [ha]
  · intro p s ha hm
    simp only [init_body_priority, if_pos ha, if_pos hm, make_ready]
    rw [ha]
  · intro p s ha h0 hs hm
    simp only [RR.arrival_body, if_pos (And.intro ha h0), if_pos hs, if_pos hm, make_ready]
    rw [ha]
  · intro p s ha h0 hm
    simp only [arrival_body_priority, if_pos (And.intro ha h0), if_pos hm, make_ready]
    rw [ha]

/-- C12: in the Round-Robin engine, for every input, every admission behaviour
and every tick, a RUNNING -> READY event logged by the execute block is of the
running process, whose processing_time is not in 1..100; each RUNNING -> READY
event of the log carries the PID of an input process whose processing_time is
not in 1..100; so, with pairwise distinct PIDs, no RUNNING -> READY event is
logged for a process with 1 <= processing_time <= 100. -/
theorem C12_rr_short_process_never_demoted (mem : Nat → PCB → Bool)
    (input : List InputRecord) (n : Nat) :
    (∀ e ∈ new_events (RR.schedule mem (RR.after mem (load input) n))
        (execute (some RR.RR_QUANTUM) (RR.schedule mem (RR.after mem (load input) n))),
      e.old_state = States.RUNNING → e.new_state = States.READY →
      e.pid = (RR.schedule mem (RR.after mem (load input) n)).running.PID ∧
        ¬ (1 ≤ (RR.schedule mem (RR.after mem (load input) n)).running.processing_time ∧
          (RR.schedule mem (RR.after mem (load input) n)).running.processing_time ≤ 100)) ∧
    (∀ e ∈ (RR.after mem (load input) n).execution_status,
      e.old_state = States.RUNNING → e.new_state = States.READY →
      ∃ r ∈ input, r.PID = e.pid ∧ ¬ (1 ≤ r.processing_time ∧ r.processing_time ≤ 100)) ∧
    ((input.map InputRecord.PID).Nodup →
      ∀ r ∈ input, 1 ≤ r.processing_time → r.processing_time ≤ 100 →
      ∀ e ∈ (RR.after mem (load input) n).execution_status, e.pid = r.PID →
        ¬ (e.old_state = States.RUNNING ∧ e.new_state = States.READY)) := by
  have h := rr_long_demotions_after mem input n
  refine ⟨rr_demotion_rule _ (bounded_after mem Engine.rr input n).2, h, ?_⟩
  intro hn r hr h1 h2 e he hp ⟨ho, hnew⟩
  obtain ⟨r2, hr2, hpid, hlong⟩ := h e he ho hnew
  have : r2 = r := List.inj_on_of_nodup_map hn hr2 hr (by rw [hpid, hp])
  rw [this] at hlong
  exact hlong ⟨h1, h2⟩

set_option maxRecDepth 1000000 in
/-- Witness of C12 on Scenario C (PID=1 and PID=2, both arrival_time=0,
processing_time=10, no I/O): the run halts after exactly 20 iterations with the
log of the non-preemptive expectation, and PID 1 has no RUNNING -> READY
event. -/
theorem C12_rr_short_process_never_demoted_witness :
    (scenario_B.map InputRecord.PID).Nodup ∧
    (∀ fuel, (RR.run_simulation always_admitted (load scenario_B) fuel).map
        Sim.execution_status =
      if 20 ≤ fuel then
        some [⟨0, 1, States.NEW, States.READY⟩, ⟨0, 2, States.NEW, States.READY⟩,
              ⟨0, 1, States.READY, States.RUNNING⟩, ⟨10, 1, States.RUNNING, States.TERMINATED⟩,
              ⟨10, 2, States.READY, States.RUNNING⟩, ⟨20, 2, States.RUNNING, States.TERMINATED⟩]
      else none) ∧
    (∀ e ∈ (RR.after always_admitted (load scenario_B) 20).execution_status, e.pid = 1 →
      ¬ (e.old_state = States.RUNNING ∧ e.new_state = States.READY)) :=
  ⟨by decide,
   fun fuel => map_while_loop_exact _ _ _ 19 _ _ (by decide) (by decide) fuel,
   (C12_rr_short_process_never_demoted always_admitted scenario_B 20).2.2 (by decide)
     ⟨1, 0, 10, 0, 0⟩ (by simp [scenario_B]) (by decide) (by decide)⟩

/-- C13: in the Round-Robin engine, for every input, every admission behaviour
and every number of iterations, the PIDs of the READY -> RUNNING events of the
log, in log order, are an initial segment of the PIDs of the events that enter
READY, in log order; what follows that segment is the ready queue, head
first. -/
theorem C13_rr_fifo_dispatch (mem : Nat → PCB → Bool) (input : List InputRecord) (n : Nat) :
    dispatched_pids (RR.after mem (load input) n).execution_status <+:
      entered_pids (RR.after mem (load input) n).execution_status ∧
    entered_pids (RR.after mem (load input) n).execution_status =
      dispatched_pids (RR.after mem (load input) n).execution_status ++
        (RR.after mem (load input) n).ready_queue.map PCB.PID :=
  ⟨⟨_, (rr_fifo_after mem input n).symm⟩, rr_fifo_after mem input n⟩

set_option maxRecDepth 1000000 in
/-- C14 (the code departs from the claim): on Scenario A with admission
succeeding, the Round-Robin engine and the preemptive priority engine halt
after exactly 5 iterations with the log NEW -> READY at 0, READY -> RUNNING at
0, RUNNING -> TERMINATED at 5; the non-preemptive priority engine never halts,
and from its first iteration on its log is NEW -> READY at 0,
READY -> RUNNING at 0 and nothing else. -/
theorem C14_scenario_A_ep_never_halts :
    (∀ fuel, (RR.run_simulation always_admitted (load scenario_A) fuel).map
        (fun s => (s.execution_status, s.current_time)) =
      if 5 ≤ fuel then some (scenario_A_log, 5) else none) ∧
    (∀ fuel, (EP_RR.run_simulation always_admitted (load scenario_A) fuel).map
        (fun s => (s.execution_status, s.current_time)) =
      if 5 ≤ fuel then some (scenario_A_log, 5) else none) ∧
    (∀ fuel, EP.run_simulation always_admitted (load scenario_A) fuel = none) ∧
    (∀ n, (EP.after always_admitted (load scenario_A) (n + 1)).execution_status =
      [⟨0, 1, States.NEW, States.READY⟩, ⟨0, 1, States.READY, States.RUNNING⟩]) := by
  refine ⟨fun fuel => map_while_loop_exact _ _ _ 4 _ _ (by decide) (by decide) fuel,
    fun fuel => map_while_loop_exact _ _ _ 4 _ _ (by decide) (by decide) fuel,
    fun fuel => EP.run_simulation_none _ _ (by decide) fuel, ?_⟩
  intro n
  have h : EP.after always_admitted (load scenario_A) (n + 1) =
      (EP.tick always_admitted)^[n] (EP.after always_admitted (load scenario_A) 1) := by
    unfold EP.after
    rw [Function.iterate_add_apply]
  rw [h, ep_log_quiescent always_admitted _ (by decide) (by decide) (by decide) (by decide) n]
  decide

set_option maxRecDepth 1000000 in
/-- C15 (amended): on Scenario D with admission succeeding, the Round-Robin
engine and the preemptive priority engine halt after exactly 16 iterations with
the log READY@0, RUNNING@0, WAITING@3, READY@5, RUNNING@5, WAITING@8, READY@10,
RUNNING@10, WAITING@13, READY@15, RUNNING@15, TERMINATED@16: after 9 ms of CPU
time, a multiple of 3 with 1 ms remaining, a third I/O request is issued. -/
theorem C15_scenario_D_third_io_request :
    (∀ fuel, (RR.run_simulation always_admitted (load scenario_D) fuel).map
        Sim.execution_status = if 16 ≤ fuel then some scenario_D_log else none) ∧
    (∀ fuel, (EP_RR.run_simulation always_admitted (load scenario_D) fuel).map
        Sim.execution_status = if 16 ≤ fuel then some scenario_D_log else none) :=
  ⟨fun fuel => map_while_loop_exact _ _ _ 15 _ _ (by decide) (by decide) fuel,
   fun fuel => map_while_loop_exact _ _ _ 15 _ _ (by decide) (by decide) fuel⟩

set_option maxRecDepth 1000000 in
/-- Counterexample to C15 as stated: on Scenario D, however many iterations are
allowed, neither engine ends with the log of the claim; after 13 iterations the
loop has not exited and the last event is RUNNING -> WAITING at 13. -/
theorem C15_counterexample_claimed_log :
    (∀ fuel, (RR.run_simulation always_admitted (load scenario_D) fuel).map
        Sim.execution_status ≠ some scenario_D_claimed_log) ∧
    (∀ fuel, (EP_RR.run_simulation always_admitted (load scenario_D) fuel).map
        Sim.execution_status ≠ some scenario_D_claimed_log) ∧
    (RR.after always_admitted (load scenario_D) 13).execution_status.getLast? =
      some ⟨13, 1, States.RUNNING, States.WAITING⟩ ∧
    (RR.after always_admitted (load scenario_D) 13).terminated_count = 0 := by
  have h1 : ∀ fuel, (RR.run_simulation always_admitted (load scenario_D) fuel).map
      Sim.execution_status = if 16 ≤ fuel then some scenario_D_log else none :=
    fun fuel => map_while_loop_exact _ _ _ 15 _ _ (by decide) (by decide) fuel
  have h2 : ∀ fuel, (EP_RR.run_simulation always_admitted (load scenario_D) fuel).map
      Sim.execution_status = if 16 ≤ fuel then some scenario_D_log else none :=
    fun fuel => map_while_loop_exact _ _ _ 15 _ _ (by decide) (by decide) fuel
  have hne : some scenario_D_log ≠ some scenario_D_claimed_log := by decide
  refine ⟨?_, ?_, by decide, by decide⟩
  · intro fuel
    rw [h1]
    split
    · exact hne
    · exact fun h => by cases h
  · intro fuel
    rw [h2]
    split
    · exact hne
    · exact fun h => by cases h

/-- Admission visibility with the clock read as a natural number (for the
Round-Robin engine, whose arrival loop tests the state, and for the priority
engines as long as the 32-bit clock of the source has not wrapped): in each of
the three engines, for every input, every behaviour of the admission gateway
and every number of iterations, the first event that mentions a PID is a
NEW -> READY event; a PID has no more NEW -> READY events than input processes
(at most one when PIDs are pairwise distinct); every NEW -> READY event carries
a timestamp at or after the arrival time of an input process with its PID, and
equal to it for a process that the gateway never refuses; a process that the
gateway always refuses is in no event.  A process is still NOT_ASSIGNED at
every tick boundary up to its arrival tick, and at the site where it is then
offered to the gateway for the first time (the initial loop for
arrival_time = 0, the arrival loop of tick arrival_time otherwise) a successful
call logs NEW -> READY with timestamp arrival_time. -/
theorem admission_visibility (mem : Nat → PCB → Bool) (input : List InputRecord)
    (n : Nat) :
    admission_visible mem input (RR.after mem (load input) n).execution_status ∧
    admission_visible mem input (EP.after mem (load input) n).execution_status ∧
    admission_visible mem input (EP_RR.after mem (load input) n).execution_status ∧
    pending_until_arrival (RR.after mem (load input) n) ∧
    pending_until_arrival (EP.after mem (load input) n) ∧
    pending_until_arrival (EP_RR.after mem (load input) n) ∧
    first_attempt_stamps_arrival mem :=
  ⟨admission_visible_after mem Engine.rr input n,
   admission_visible_after mem Engine.ep input n,
   admission_visible_after mem Engine.ep_rr input n,
   pending_until_arrival_after mem Engine.rr input n,
   pending_until_arrival_after mem Engine.ep input n,
   pending_until_arrival_after mem Engine.ep_rr input n,
   first_attempt_stamps_arrival_holds mem⟩

/-- C17 (the code departs from the claim): in the non-preemptive priority
engine, for every input, every admission behaviour and every tick, the running
slot is idle on entry to the execute block, so no process is executed.  On
Scenario A at tick 0 the running slot is empty and the ready queue holds PID 1
after arrivals and I/O completions; after the dispatch the queue is empty, the
READY -> RUNNING event is logged, the running slot is still idle, and at the
end of the tick PID 1 still has remaining_time 5. -/
theorem C17_ep_idle_dispatch_leaves_cpu_idle (mem : Nat → PCB → Bool) (l : List PCB)
    (n : Nat) :
    ((EP.schedule mem (EP.after mem l n)).running = idle_CPU ∧
      executing (EP.schedule mem (EP.after mem l n)) = none) ∧
    ((intake_priority always_admitted
        (EP.init always_admitted (load scenario_A))).running.PID = -1 ∧
      (intake_priority always_admitted
        (EP.init always_admitted (load scenario_A))).ready_queue.map PCB.PID = [1] ∧
      (EP.schedule always_admitted
        (EP.init always_admitted (load scenario_A))).ready_queue = [] ∧
      (EP.schedule always_admitted
        (EP.init always_admitted (load scenario_A))).execution_status =
        [⟨0, 1, States.NEW, States.READY⟩, ⟨0, 1, States.READY, States.RUNNING⟩] ∧
      (EP.schedule always_admitted
        (EP.init always_admitted (load scenario_A))).running = idle_CPU ∧
      (EP.tick always_admitted (EP.init always_admitted (load scenario_A))).list_process.map
        (fun p => (p.PID, p.state, p.start_time, p.remaining_time)) =
        [(1, States.RUNNING, 0, 5)]) := by
  have h := (ep_stuck_schedule mem _ (EP.stuck_after mem l n)).1
  refine ⟨⟨h, ?_⟩, by decide⟩
  apply executing_idle
  rw [h]
  rfl

set_option maxRecDepth 1000000 in
/-- C19 (the code departs from the claim): in the preemptive priority engine,
with PID 2 (arrival 0, processing_time 20) preempted at 5 by PID 1 (arrival 5,
processing_time 10, I/O every 2 ms for 5 ms), the event that follows
RUNNING -> WAITING of PID 1 at 7 is READY -> RUNNING of PID 1 at 7, while PID 1
waits for its I/O until 12: the copy of PID 1 left in the ready queue by the
preemption block is dispatched. -/
theorem C19_ep_rr_stale_copy_dispatched_while_waiting :
    (EP_RR.after always_admitted (load scenario_io_preempted) 7).execution_status =
      [⟨0, 2, States.NEW, States.READY⟩, ⟨0, 2, States.READY, States.RUNNING⟩,
       ⟨5, 1, States.NEW, States.READY⟩, ⟨5, 2, States.RUNNING, States.READY⟩,
       ⟨5, 1, States.READY, States.RUNNING⟩, ⟨7, 1, States.RUNNING, States.WAITING⟩] ∧
    (EP_RR.after always_admitted (load scenario_io_preempted) 7).wait_queue.map
      (fun e => (e.1.PID, e.2)) = [(1, 12)] ∧
    (EP_RR.after always_admitted (load scenario_io_preempted) 7).ready_queue.map PCB.PID = [1] ∧
    (EP_RR.after always_admitted (load scenario_io_preempted) 8).execution_status =
      [⟨0, 2, States.NEW, States.READY⟩, ⟨0, 2, States.READY, States.RUNNING⟩,
       ⟨5, 1, States.NEW, States.READY⟩, ⟨5, 2, States.RUNNING, States.READY⟩,
       ⟨5, 1, States.READY, States.RUNNING⟩, ⟨7, 1, States.RUNNING, States.WAITING⟩,
       ⟨7, 1, States.READY, States.RUNNING⟩] := by
  decide

/-- C20: in each of the three engines, for every input, every admission
behaviour and every number of iterations, an event that precedes another in the
log has a timestamp that is at most the other's (the clock is a natural number
and does not wrap). -/
theorem C20_log_timestamps_non_decreasing (mem : Nat → PCB → Bool)
    (input : List InputRecord) (n : Nat) :
    (RR.after mem (load input) n).execution_status.Pairwise (fun a b => a.time ≤ b.time) ∧
    (EP.after mem (load input) n).execution_status.Pairwise (fun a b => a.time ≤ b.time) ∧
    (EP_RR.after mem (load input) n).execution_status.Pairwise (fun a b => a.time ≤ b.time) :=
  ⟨(stamped_after mem Engine.rr input n).1, (stamped_after mem Engine.ep input n).1,
   (stamped_after mem Engine.ep_rr input n).1⟩

end Sched

namespace Sched

/-! ## The decrement of the execute block does not wrap -/

theorem unassigned_count_sync_all_le (q : PCB) (l : List PCB)
    (hq : q.state ≠ States.NOT_ASSIGNED) :
    unassigned_count (sync_all q l) ≤ unassigned_count l := by
  unfold unassigned_count sync_all
  induction l with
  | nil => simp
  | cons x xs ih =>
    rw [List.map_cons, List.countP_cons, List.countP_cons]
    by_cases hx : x.PID = q.PID
    · rw [if_pos hx]
      simp only [hq, decide_False, Bool.false_eq_true, if_false]
      omega
    · rw [if_neg hx]
      omega

theorem unassigned_count_admission (done : List PCB) (p : PCB) (todo : List PCB)
    (hs : p.state = States.NOT_ASSIGNED) :
    unassigned_count (done ++ { p with state := States.READY } :: todo) + 1 =
      unassigned_count (done ++ p :: todo) := by
  unfold unassigned_count
  rw [List.countP_append, List.countP_append, List.countP_cons, List.countP_cons]
  simp [hs]
  omega

theorem unassigned_count_load (input : List InputRecord) :
    unassigned_count (load input) = input.length := by
  unfold unassigned_count load
  induction input with
  | nil => rfl
  | cons r rs ih =>
    rw [List.map_cons, List.countP_cons, ih]
    simp

theorem pending_count_le_unassigned (pid : Int) (l : List PCB) :
    pending_count pid l ≤ unassigned_count l := by
  unfold pending_count unassigned_count
  apply List.countP_mono_left
  intro x _ h
  have h2 := of_decide_eq_true h
  exact decide_eq_true h2.2

theorem pending_count_sync_all_of_ne (pid : Int) (q : PCB) (l : List PCB)
    (hq : q.PID ≠ pid) : pending_count pid (sync_all q l) = pending_count pid l := by
  unfold pending_count sync_all
  induction l with
  | nil => simp
  | cons x xs ih =>
    rw [List.map_cons, List.countP_cons, List.countP_cons, ih]
    by_cases hx : x.PID = q.PID
    · rw [if_pos hx]
      have h1 : ¬ (q.PID = pid ∧ q.state = States.NOT_ASSIGNED) := fun h => hq h.1
      have h2 : ¬ (x.PID = pid ∧ x.state = States.NOT_ASSIGNED) := fun h => hq (hx ▸ h.1)
      simp only [h1, h2, decide_False]
    · rw [if_neg hx]

theorem accounted_move {mem : Nat → PCB → Bool} {eng : Engine} (total : Nat) {s t : Sim}
    (h : Move mem eng s t) (hs : Accounted total s) : Accounted total t := by
  unfold Accounted at hs ⊢
  have hind : ∀ x : Int, (if x = -1 then 0 else 1) ≤ 1 := by
    intro x
    split <;> omega
  cases h with
  | skip jl k => exact hs
  | admission done p todo jl hl hsp hap hm =>
    have h1 := unassigned_count_admission done p todo hsp
    rw [hl] at hs
    simp only [List.length_append, List.length_singleton]
    try simp only [] at *
    omega
  | io_done kept e todo hw hc =>
    have h1 := unassigned_count_sync_all_le { e.1 with state := States.READY } s.list_process
      (by simp)
    rw [hw] at hs
    simp only [List.length_append, List.length_singleton, List.length_cons, List.length_nil] at hs ⊢
    try simp only [] at *
    omega
  | rr_dispatch front rest he hr hq =>
    have h1 := unassigned_count_sync_all_le
      { front with state := States.RUNNING, start_time := s.current_time } s.list_process
      (by simp)
    have h2 := hind front.PID
    rw [hq, if_pos hr] at hs
    simp only [List.length_cons] at hs ⊢
    try simp only [] at *
    omega
  | sort he =>
    have h1 : (sort_ready_by_priority s.ready_queue).length = s.ready_queue.length :=
      (perm_sort_ready_by_priority s.ready_queue).length_eq
    simp only [h1]
    exact hs
  | pick_return back rest jl he hr hq hmin =>
    have h1 := unassigned_count_sync_all_le
      { back with state := States.RUNNING, start_time := s.current_time } s.list_process
      (by simp)
    rw [hq] at hs
    simp only [List.length_append, List.length_singleton] at hs ⊢
    try simp only [] at *
    omega
  | pick back rest jl he hr hq hmin =>
    have h1 := unassigned_count_sync_all_le
      { back with state := States.RUNNING, start_time := s.current_time } s.list_process
      (by simp)
    have h2 := hind back.PID
    rw [hq, if_pos hr] at hs
    simp only [List.length_append, List.length_singleton] at hs ⊢
    try simp only [] at *
    omega
  | preemption top rest he hr hq hlt =>
    have h1 := unassigned_count_sync_all_le
      { top with state := States.RUNNING, start_time := s.current_time } s.list_process
      (by simp)
    have h2 := hind top.PID
    rw [if_neg hr] at hs
    simp only []
    try simp only [] at *
    omega

theorem accounted_execute (total : Nat) (quantum : Option Nat) (s : Sim) (hb : Bounded s)
    (hs : Accounted total s) : Accounted total (advance (execute quantum s)) := by
  suffices h : Accounted total (execute quantum s) from h
  by_cases hr : s.running.PID = -1
  · rw [execute_idle quantum s hr]; exact hs
  · unfold Accounted at hs ⊢
    rw [if_neg hr] at hs
    have hst : (run_one_ms s).running.state ≠ States.NOT_ASSIGNED := (hb.running hr).1
    have h1 : unassigned_count (run_one_ms s).list_process ≤ unassigned_count s.list_process :=
      unassigned_count_sync_all_le _ _ hst
    have hidle : (if idle_CPU.PID = -1 then 0 else 1) = 0 := rfl
    rcases execute_branches quantum s hr with ⟨_, he⟩ | ⟨_, _, he⟩ | ⟨_, _, _, he⟩ | ⟨_, _, _, he⟩
    · rw [he]
      have h2 := unassigned_count_sync_all_le
        { (run_one_ms s).running with state := States.WAITING } (run_one_ms s).list_process
        (by simp)
      show s.terminated_count + s.ready_queue.length + (s.wait_queue ++ [_]).length +
        (if idle_CPU.PID = -1 then 0 else 1) +
        unassigned_count (sync_all _ (run_one_ms s).list_process) ≤ total
      rw [hidle, List.length_append, List.length_singleton]
      have h3 := le_trans h2 h1
      try simp only [] at *
      omega
    · rw [he]
      show s.terminated_count + 1 + s.ready_queue.length + s.wait_queue.length +
        (if idle_CPU.PID = -1 then 0 else 1) +
        unassigned_count (run_one_ms s).list_process ≤ total
      rw [hidle]
      try simp only [] at *
      omega
    · rw [he]
      show s.terminated_count + s.ready_queue.length + s.wait_queue.length +
        (if s.running.PID = -1 then 0 else 1) +
        unassigned_count (run_one_ms s).list_process ≤ total
      rw [if_neg hr]
      try simp only [] at *
      omega
    · rw [he]
      have h2 := unassigned_count_sync_all_le
        { (run_one_ms s).running with state := States.READY } (run_one_ms s).list_process
        (by simp)
      show s.terminated_count + (s.ready_queue ++ [_]).length + s.wait_queue.length +
        (if idle_CPU.PID = -1 then 0 else 1) +
        unassigned_count (sync_all _ (run_one_ms s).list_process) ≤ total
      rw [hidle, List.length_append, List.length_singleton]
      have h3 := le_trans h2 h1
      try simp only [] at *
      omega

theorem accounted_start (input : List InputRecord) :
    Accounted input.length (start (load input)) := by
  unfold Accounted
  show 0 + 0 + 0 + (if idle_CPU.PID = -1 then 0 else 1) + unassigned_count (load input) ≤ _
  rw [unassigned_count_load]
  have : (if idle_CPU.PID = -1 then 0 else 1) = 0 := rfl
  omega

/-! ## A process that is always refused stays pending -/

theorem pending_count_move {mem : Nat → PCB → Bool} {eng : Engine} {pid : Int}
    (hP : ∀ k p, p.PID = pid → mem k p = false) {s t : Sim} (h : Move mem eng s t)
    (hs : Unseen pid s) : pending_count pid t.list_process = pending_count pid s.list_process := by
  obtain ⟨_, h2, h3, h4⟩ := hs
  cases h with
  | skip jl k => rfl
  | admission done p todo jl hl hsp hap hm =>
    have hp : p.PID ≠ pid := by
      intro hp
      rw [hP _ p hp] at hm
      cases hm
    have h1 := pending_count_admission pid done p todo hsp
    rw [if_neg hp] at h1
    rw [hl]
    exact h1
  | io_done kept e todo hw hc =>
    exact pending_count_sync_all_of_ne pid _ _ (h3 e (by rw [hw]; simp))
  | rr_dispatch front rest he hr hq =>
    exact pending_count_sync_all_of_ne pid _ _ (h2 front (by rw [hq]; simp))
  | sort he => rfl
  | pick_return back rest jl he hr hq hmin =>
    exact pending_count_sync_all_of_ne pid _ _ (h2 back (by rw [hq]; simp))
  | pick back rest jl he hr hq hmin =>
    exact pending_count_sync_all_of_ne pid _ _ (h2 back (by rw [hq]; simp))
  | preemption top rest he hr hq hlt =>
    exact pending_count_sync_all_of_ne pid _ _ (h2 top (by rw [hq]; simp))

theorem pending_count_execute {pid : Int} (quantum : Option Nat) (s : Sim)
    (hs : Unseen pid s) :
    pending_count pid (advance (execute quantum s)).list_process =
      pending_count pid s.list_process := by
  show pending_count pid (execute quantum s).list_process = _
  by_cases hr : s.running.PID = -1
  · rw [execute_idle quantum s hr]
  · have hp : (run_one_ms s).running.PID ≠ pid := hs.running hr
    have h1 : pending_count pid (run_one_ms s).list_process =
        pending_count pid s.list_process := pending_count_sync_all_of_ne pid _ _ hp
    rcases execute_branches quantum s hr with ⟨_, he⟩ | ⟨_, _, he⟩ | ⟨_, _, _, he⟩ | ⟨_, _, _, he⟩
    · rw [he, ← h1]
      exact pending_count_sync_all_of_ne pid
        { (run_one_ms s).running with state := States.WAITING } _ hp
    · rw [he, ← h1]
      rfl
    · rw [he, ← h1]
    · rw [he, ← h1]
      exact pending_count_sync_all_of_ne pid
        { (run_one_ms s).running with state := States.READY } _ hp

/-- With a process of the input refused at every call, the termination counter
of any of the three engines stays below the number of processes. -/
theorem refused_never_all_terminated (mem : Nat → PCB → Bool) (eng : Engine)
    (input : List InputRecord) (pid : Int) (hin : pid ∈ input.map InputRecord.PID)
    (hP : ∀ k p, p.PID = pid → mem k p = false) (n : Nat) :
    (eng.after mem (load input) n).terminated_count < input.length := by
  have key := (engine_induct mem eng input
    (fun s => Bounded s ∧ Accounted input.length s ∧ Unseen pid s ∧
      1 ≤ pending_count pid s.list_process)
    ⟨bounded_start input, accounted_start input,
      ⟨by simp [start], by simp [start], by simp [start], fun h => absurd rfl h⟩, ?_⟩
    ?_ ?_ n).1
  · obtain ⟨_, ha, _, hp⟩ := key
    have h1 := pending_count_le_unassigned pid (eng.after mem (load input) n).list_process
    unfold Accounted at ha
    omega
  · show 1 ≤ pending_count pid (load input)
    rw [pending_count_load]
    exact List.count_pos_iff.2 hin
  · intro s t h ⟨hb, ha, hu, hp⟩
    refine ⟨bounded_move h hb, accounted_move _ h ha, unseen_move hP h hu, ?_⟩
    rw [pending_count_move hP h hu]
    exact hp
  · intro s ⟨hb, ha, hu, hp⟩
    refine ⟨bounded_execute _ s hb, accounted_execute _ _ s hb ha, unseen_execute _ s hu, ?_⟩
    rw [pending_count_execute _ s hu]
    exact hp

end Sched
namespace Sched

/-! ## Entries to the ready queue during the intake of a priority engine -/

theorem entered_refl (s : Sim) : entered s s :=
  ⟨rfl, [], [], by simp, by simp, rfl⟩

theorem entered_same {a b c : Sim} (h : entered a b) (hr : c.running = b.running)
    (hl : c.execution_status = b.execution_status) (hq : c.ready_queue = b.ready_queue) :
    entered a c := by
  obtain ⟨h1, evs, added, h2, h3, h4⟩ := h
  exact ⟨hr.trans h1, evs, added, hl.trans h2, hq.trans h3, h4⟩

theorem entered_snoc {a b c : Sim} (e : Event) (p : PCB) (h : entered a b)
    (hr : c.running = b.running) (hl : c.execution_status = b.execution_status ++ [e])
    (hq : c.ready_queue = b.ready_queue ++ [p]) (hp : e.pid = p.PID) : entered a c := by
  obtain ⟨h1, evs, added, h2, h3, h4⟩ := h
  refine ⟨hr.trans h1, evs ++ [e], added ++ [p], ?_, ?_, ?_⟩
  · rw [hl, h2, List.append_assoc]
  · rw [hq, h3, List.append_assoc]
  · simp [h4, hp]

theorem entered_trans {a b c : Sim} (h1 : entered a b) (h2 : entered b c) : entered a c := by
  obtain ⟨r1, evs1, added1, l1, q1, p1⟩ := h1
  obtain ⟨r2, evs2, added2, l2, q2, p2⟩ := h2
  refine ⟨r2.trans r1, evs1 ++ evs2, added1 ++ added2, ?_, ?_, ?_⟩
  · rw [l2, l1, List.append_assoc]
  · rw [q2, q1, List.append_assoc]
  · simp [p1, p2]

theorem entered_pending_body (mem : Nat → PCB → Bool) (now : Nat) (base : Sim) (done : List PCB)
    (p : PCB) (todo : List PCB) (s : Sim) (h : entered base s) :
    entered base
      { (pending_body mem now p s).2 with
        list_process := done ++ (pending_body mem now p s).1 :: todo } := by
  by_cases ha : p.arrival_time ≤ now ∧ p.state = States.NOT_ASSIGNED
  · by_cases hm : mem s.mem_calls p = true
    · simp only [pending_body, if_pos ha, if_pos hm]
      exact entered_snoc _ _ h rfl rfl rfl rfl
    · simp only [pending_body, if_pos ha, if_neg hm]
      exact entered_same h rfl rfl rfl
  · simp only [pending_body, if_neg ha]
    exact entered_same h rfl rfl rfl

theorem entered_arrival_body_priority (mem : Nat → PCB → Bool) (base : Sim) (done : List PCB)
    (p : PCB) (todo : List PCB) (s : Sim) (h : entered base s) :
    entered base
      { (arrival_body_priority mem p s).2 with
        list_process := done ++ (arrival_body_priority mem p s).1 :: todo } := by
  by_cases ha : p.arrival_time = s.current_time ∧ p.arrival_time ≠ 0
  · by_cases hm : mem s.mem_calls p = true
    · simp only [arrival_body_priority, if_pos ha, if_pos hm]
      exact entered_snoc _ _ h rfl rfl rfl rfl
    · simp only [arrival_body_priority, if_pos ha, if_neg hm]
      exact entered_same h rfl rfl rfl
  · simp only [arrival_body_priority, if_neg ha]
    exact entered_same h rfl rfl rfl

/-- Every entry that the arrivals, the pending retries and the I/O completions
of a priority engine add to the ready queue is logged with its `PID`, and
nothing else is logged. -/
theorem entered_intake_priority (mem : Nat → PCB → Bool) (s : Sim) :
    entered s (intake_priority mem s) := by
  have h1 : entered s (arrivals_priority mem s) := by
    unfold arrivals_priority
    exact for_each_process_induct _ (entered s)
      (fun done p todo s1 _ h => entered_arrival_body_priority mem s done p todo s1 h) _ _ _
      (by simp) (entered_refl s)
  have h2 : entered (arrivals_priority mem s)
      (try_assign_pending mem s.current_time (arrivals_priority mem s)) := by
    unfold try_assign_pending
    exact for_each_process_induct _ (entered (arrivals_priority mem s))
      (fun done p todo s1 _ h => entered_pending_body mem _ _ done p todo s1 h) _ _ _
      (by simp) (entered_refl _)
  have h3 : entered (try_assign_pending mem s.current_time (arrivals_priority mem s))
      (io_completions (try_assign_pending mem s.current_time (arrivals_priority mem s))) := by
    unfold io_completions
    exact io_loop_induct (entered _)
      (fun kept e todo s1 _ _ h => entered_snoc _ _ h rfl rfl rfl rfl) _ _ _ (by simp)
      (entered_refl _)
  unfold intake_priority
  exact entered_trans (entered_trans h1 h2) h3

/-! ## The running process of the preemptive engine has the smallest ready `PID` -/

theorem EP_RR.preempt_running_min (s : Sim)
    (hr : (EP_RR.preempt (EP_RR.sort_ready s)).running.PID ≠ -1) :
    ∀ q ∈ (EP_RR.preempt (EP_RR.sort_ready s)).ready_queue,
      (EP_RR.preempt (EP_RR.sort_ready s)).running.PID ≤ q.PID := by
  by_cases hlt : ∃ q ∈ s.ready_queue, q.PID < s.running.PID
  · have hrun : s.running.PID ≠ -1 := by
      intro h0
      apply hr
      unfold EP_RR.preempt
      rw [if_neg (by simpa [EP_RR.sort_ready] using h0)]
      simpa [EP_RR.sort_ready] using h0
    revert hr
    unfold EP_RR.preempt
    rw [if_pos (by simpa [EP_RR.sort_ready] using hrun)]
    split
    · rename_i hrev
      intro _ q hq
      have hnil : sort_ready_by_priority s.ready_queue = [] := by
        simpa [EP_RR.sort_ready] using hrev
      have hq2 : q ∈ sort_ready_by_priority s.ready_queue := hq
      rw [hnil] at hq2
      simp at hq2
    · rename_i top rest hrev
      obtain ⟨_, hmin⟩ := sorted_back_min s.ready_queue top rest hrev
      split
      · intro _ q hq
        have hq2 : q ∈ sort_ready_by_priority s.ready_queue := by
          simpa [EP_RR.sort_ready] using hq
        exact hmin q hq2
      · rename_i hnlt
        intro _ q hq
        have hq2 : q ∈ sort_ready_by_priority s.ready_queue := hq
        have h1 : (EP_RR.sort_ready s).running.PID ≤ top.PID := not_lt.1 hnlt
        exact le_trans h1 (hmin q hq2)
  · rw [EP_RR.preempt_quiet s hlt]
    intro q hq
    have hq2 : q ∈ s.ready_queue := (mem_sort_ready_by_priority s.ready_queue q).1 hq
    exact not_lt.1 (fun h => hlt ⟨q, hq2, h⟩)

theorem EP_RR.dispatch_running_min (s : Sim)
    (h0 : s.running.PID ≠ -1 → ∀ q ∈ s.ready_queue, s.running.PID ≤ q.PID)
    (hr : (EP_RR.dispatch s).running.PID ≠ -1) :
    ∀ q ∈ (EP_RR.dispatch s).ready_queue, (EP_RR.dispatch s).running.PID ≤ q.PID := by
  by_cases hrun : s.running.PID = -1
  · revert hr
    unfold EP_RR.dispatch
    rw [if_pos hrun]
    split
    · intro hr
      exact absurd hrun hr
    · rename_i back rest hrev
      obtain ⟨hsorted, hmin⟩ := sorted_back_min s.ready_queue back rest hrev
      intro _ q hq
      have hq2 : q ∈ rest.reverse := hq
      exact hmin q (by rw [hsorted]; exact List.mem_append_left _ hq2)
  · rw [EP_RR.dispatch_of_busy s hrun] at hr ⊢
    exact h0 hr

/-- On entry to the execute block of the preemptive engine, no entry of the
ready queue has a `PID` below the one of the running process. -/
theorem EP_RR.schedule_running_min (mem : Nat → PCB → Bool) (s : Sim)
    (hr : (EP_RR.schedule mem s).running.PID ≠ -1) :
    ∀ q ∈ (EP_RR.schedule mem s).ready_queue, (EP_RR.schedule mem s).running.PID ≤ q.PID :=
  EP_RR.dispatch_running_min _ (EP_RR.preempt_running_min (intake_priority mem s)) hr

/-! ## The quantum rule of the execute block -/

/-- The only event of the execute block that enters `READY` is the one of the
quantum rule. -/
theorem quantum_event_state (quantum : Option Nat) (s : Sim) (e : Event)
    (he : e ∈ new_events s (execute quantum s)) (hn : e.new_state = States.READY) :
    s.running.PID ≠ -1 ∧
      e = ⟨s.current_time + 1, s.running.PID, States.RUNNING, States.READY⟩ ∧
      execute quantum s = quantum_expiry (run_one_ms s).running (run_one_ms s) := by
  by_cases hr : s.running.PID = -1
  · rw [new_events_execute_idle quantum s hr] at he
    simp at he
  · rcases execute_branches quantum s hr with ⟨_, hx⟩ | ⟨_, _, hx⟩ | ⟨_, _, _, hx⟩ | ⟨_, _, _, hx⟩
    · have hev : new_events s (execute quantum s) =
          [⟨s.current_time + 1, s.running.PID, States.RUNNING, States.WAITING⟩] := by
        rw [hx]
        exact new_events_of_eq rfl
      rw [hev] at he
      rw [List.mem_singleton.1 he] at hn
      have hn2 : States.WAITING = States.READY := hn
      exact absurd hn2 (by decide)
    · have hev : new_events s (execute quantum s) =
          [⟨s.current_time + 1, s.running.PID, States.RUNNING, States.TERMINATED⟩] := by
        rw [hx]
        exact new_events_of_eq rfl
      rw [hev] at he
      rw [List.mem_singleton.1 he] at hn
      have hn2 : States.TERMINATED = States.READY := hn
      exact absurd hn2 (by decide)
    · have hev : new_events s (execute quantum s) = [] := by
        rw [hx]
        exact new_events_of_eq (by simp [run_one_ms])
      rw [hev] at he
      simp at he
    · have hev : new_events s (execute quantum s) =
          [⟨s.current_time + 1, s.running.PID, States.RUNNING, States.READY⟩] := by
        rw [hx]
        exact new_events_of_eq rfl
      rw [hev] at he
      exact ⟨hr, List.mem_singleton.1 he, hx⟩

theorem EP_RR.preempt_idle (s : Sim) (h : s.running.PID = -1) : EP_RR.preempt s = s := by
  unfold EP_RR.preempt
  rw [if_neg (not_not.2 h)]

theorem EP_RR.dispatch_idle_min (s : Sim) (h : s.running.PID = -1) (m : Int)
    (hm : min_pid s.ready_queue m) :
    (EP_RR.dispatch s).execution_status =
      s.execution_status ++ [⟨s.current_time, m, States.READY, States.RUNNING⟩] := by
  unfold EP_RR.dispatch
  rw [if_pos h]
  split
  · rename_i hrev
    have hnil : sort_ready_by_priority s.ready_queue = [] := by simpa using hrev
    obtain ⟨x, hx, _⟩ := List.mem_map.1 hm.1
    have := (mem_sort_ready_by_priority s.ready_queue x).2 hx
    rw [hnil] at this
    simp at this
  · rename_i back rest hrev
    have hback : back.PID = m := min_pid_unique _ _ _ (back_is_min s.ready_queue back rest hrev) hm
    simp [hback]

/-- After a quantum expiry, the next iteration of the preemptive engine logs
the entries to the ready queue, then the dispatch of the expired process, then
the events of the execute block, provided no entry has a smaller `PID`. -/
theorem EP_RR.expiry_redispatch (mem : Nat → PCB → Bool) (s : Sim) (pid : Int) (time : Nat)
    (hmin : s.running.PID ≠ -1 → ∀ q ∈ s.ready_queue, s.running.PID ≤ q.PID)
    (hev : ⟨time, pid, States.RUNNING, States.READY⟩ ∈
      new_events s (execute (some EP_RR.RR_ER_QUANTUM) s))
    (hno : ∀ e ∈ new_events (advance (execute (some EP_RR.RR_ER_QUANTUM) s))
      (intake_priority mem (advance (execute (some EP_RR.RR_ER_QUANTUM) s))), pid ≤ e.pid) :
    ∃ ivs xvs, (EP_RR.tick mem (advance (execute (some EP_RR.RR_ER_QUANTUM) s))).execution_status =
        (advance (execute (some EP_RR.RR_ER_QUANTUM) s)).execution_status ++
          (ivs ++ ⟨s.current_time + 1, pid, States.READY, States.RUNNING⟩ :: xvs) ∧
      (∀ e ∈ ivs, e.new_state = States.READY) ∧ (∀ e ∈ xvs, e.old_state = States.RUNNING) := by
  obtain ⟨hr, heq, hx⟩ := quantum_event_state _ s _ hev rfl
  have hpid : pid = s.running.PID := by
    have := congrArg Event.pid heq
    exact this
  rw [hx] at hno ⊢
  generalize hs2 : advance (quantum_expiry (run_one_ms s).running (run_one_ms s)) = s2 at hno ⊢
  have hq2 : s2.ready_queue =
      s.ready_queue ++ [{ (run_one_ms s).running with state := States.READY }] := by
    rw [← hs2]
    rfl
  have hrun2 : s2.running.PID = -1 := by
    rw [← hs2]
    rfl
  have ht2 : s2.current_time = s.current_time + 1 := by
    rw [← hs2]
    rfl
  obtain ⟨hrun3, ivs, added, hl3, hq3, hp3⟩ := entered_intake_priority mem s2
  have hivs : ∀ e ∈ ivs, e.new_state = States.READY := by
    intro e he
    apply mem_new_events (appended_intake_priority mem s2) e
    rw [new_events_of_eq hl3]
    exact he
  rw [new_events_of_eq hl3] at hno
  have hminP : min_pid (intake_priority mem s2).ready_queue pid := by
    rw [hq3, hq2]
    constructor
    · simp [hpid, run_one_ms]
    · intro q hq
      rcases List.mem_append.1 hq with hq | hq
      · rcases List.mem_append.1 hq with hq | hq
        · rw [hpid]
          exact hmin hr q hq
        · rw [List.mem_singleton.1 hq, hpid]
          exact le_refl _
      · have h1 : q.PID ∈ added.map PCB.PID := List.mem_map.2 ⟨q, hq, rfl⟩
        rw [← hp3] at h1
        obtain ⟨e, he, hep⟩ := List.mem_map.1 h1
        rw [← hep]
        exact hno e he
  have hidle : (EP_RR.sort_ready (intake_priority mem s2)).running.PID = -1 := by
    show (intake_priority mem s2).running.PID = -1
    rw [hrun3]
    exact hrun2
  have hd := EP_RR.dispatch_idle_min (EP_RR.sort_ready (intake_priority mem s2)) hidle pid
    ((min_pid_sorted _ _).2 hminP)
  have hsched : (EP_RR.schedule mem s2).execution_status =
      s2.execution_status ++ (ivs ++ [⟨s.current_time + 1, pid, States.READY, States.RUNNING⟩]) := by
    unfold EP_RR.schedule
    rw [EP_RR.preempt_idle _ hidle, hd]
    show (intake_priority mem s2).execution_status ++
      [⟨(intake_priority mem s2).current_time, pid, States.READY, States.RUNNING⟩] = _
    rw [hl3, current_time_intake_priority, ht2, List.append_assoc]
  obtain ⟨xvs, hl4, hxvs⟩ := appended_execute (some EP_RR.RR_ER_QUANTUM) (EP_RR.schedule mem s2)
  refine ⟨ivs, xvs, ?_, hivs, hxvs⟩
  show (execute (some EP_RR.RR_ER_QUANTUM) (EP_RR.schedule mem s2)).execution_status = _
  rw [hl4, hsched]
  simp

/-! ## The clock and the iteration that logs a dispatch -/

theorem moves_log {mem : Nat → PCB → Bool} {eng : Engine} {s t : Sim} (h : Moves mem eng s t) :
    ∃ evs, t.execution_status = s.execution_status ++ evs ∧
      ∀ e ∈ evs, e.time = s.current_time := by
  induction h with
  | refl => exact ⟨[], by simp, by simp⟩
  | tail h1 h2 ih =>
    obtain ⟨evs1, hl1, ht1⟩ := ih
    obtain ⟨evs2, hl2, ht2⟩ := move_log h2
    refine ⟨evs1 ++ evs2, by rw [hl2, hl1, List.append_assoc], ?_⟩
    intro e he
    rcases List.mem_append.1 he with he | he
    · exact ht1 e he
    · rw [ht2 e he]
      exact moves_current_time h1

theorem engine_clock (mem : Nat → PCB → Bool) (eng : Engine) (input : List InputRecord)
    (n : Nat) : (eng.after mem (load input) n).current_time = n := by
  induction n with
  | zero => exact moves_current_time (init_moves mem eng input)
  | succ n ih =>
    rw [engine_after_succ]
    show (execute eng.quantum (eng.schedule mem (eng.after mem (load input) n))).current_time + 1
      = n + 1
    rw [execute_current_time,
      moves_current_time (schedule_moves mem eng _ (Or.inr (punctual_after mem eng input n))), ih]

/-- The events of one iteration: those of the steps before the execute block
carry the time of the iteration, those of the execute block leave `RUNNING`. -/
theorem engine_tick_log (mem : Nat → PCB → Bool) (eng : Engine) (input : List InputRecord)
    (n : Nat) :
    ∃ evs xvs, (eng.after mem (load input) (n + 1)).execution_status =
        (eng.after mem (load input) n).execution_status ++ (evs ++ xvs) ∧
      (∀ e ∈ evs, e.time = n) ∧ (∀ e ∈ xvs, e.old_state = States.RUNNING) := by
  obtain ⟨evs, hl1, ht1⟩ :=
    moves_log (schedule_moves mem eng _ (Or.inr (punctual_after mem eng input n)))
  obtain ⟨xvs, hl2, hx2⟩ :=
    appended_execute eng.quantum (eng.schedule mem (eng.after mem (load input) n))
  refine ⟨evs, xvs, ?_, ?_, hx2⟩
  · rw [engine_after_succ]
    show (execute eng.quantum (eng.schedule mem (eng.after mem (load input) n))).execution_status
      = _
    rw [hl2, hl1, List.append_assoc]
  · intro e he
    rw [ht1 e he]
    exact engine_clock mem eng input n

/-- A dispatch stamped `k`, with `k` at least 1, is logged by iteration `k`. -/
theorem dispatch_logged_in_tick (mem : Nat → PCB → Bool) (eng : Engine)
    (input : List InputRecord) (k : Nat) (hk : 1 ≤ k) (m : Nat) (e : Event)
    (he : e ∈ (eng.after mem (load input) m).execution_status) (hd : is_dispatch e)
    (ht : e.time = k) :
    e ∈ new_events (eng.after mem (load input) k) (eng.after mem (load input) (k + 1)) := by
  induction m with
  | zero =>
    have h1 := (stamped_after mem eng input 0).2 e he
    rw [engine_clock] at h1
    omega
  | succ m ih =>
    obtain ⟨evs, xvs, hl, ht1, hx1⟩ := engine_tick_log mem eng input m
    rw [hl] at he
    rcases List.mem_append.1 he with he | he
    · exact ih he
    · rcases List.mem_append.1 he with he2 | he2
      · have hmk : m = k := by rw [← ht1 e he2, ht]
        rw [← hmk, new_events_of_eq hl]
        exact he
      · exact absurd ((hx1 e he2).symm.trans hd.1) (by decide)

end Sched
namespace Sched

/-! ## Claims C21 to C23 -/

theorem filter_dispatch_around (ivs xvs : List Event) (d : Event) (hd : is_dispatch d)
    (hi : ∀ e ∈ ivs, e.new_state = States.READY)
    (hx : ∀ e ∈ xvs, e.old_state = States.RUNNING) :
    (ivs ++ d :: xvs).filter (fun e => decide (is_dispatch e)) = [d] := by
  have h1 : ivs.filter (fun e => decide (is_dispatch e)) = [] := by
    rw [List.filter_eq_nil_iff]
    intro e he h
    have h2 := of_decide_eq_true h
    exact absurd ((hi e he).symm.trans h2.2) (by decide)
  have h2 : xvs.filter (fun e => decide (is_dispatch e)) = [] := by
    rw [List.filter_eq_nil_iff]
    intro e he h
    have h2 := of_decide_eq_true h
    exact absurd ((hx e he).symm.trans h2.1) (by decide)
  have h3 : (d :: xvs).filter (fun e => decide (is_dispatch e)) = [d] := by
    rw [List.filter_cons, if_pos (decide_eq_true hd), h2]
  rw [List.filter_append, h1, h3]
  rfl

theorem ep_rr_after_succ (mem : Nat → PCB → Bool) (l : List PCB) (n : Nat) :
    EP_RR.after mem l (n + 1) =
      advance (execute (some EP_RR.RR_ER_QUANTUM) (EP_RR.schedule mem (EP_RR.after mem l n))) := by
  unfold EP_RR.after
  rw [Function.iterate_succ_apply']
  rfl

/-- C21: in the preemptive priority engine, for every input (PIDs unique or
not), every admission behaviour and every iteration n: if the quantum rule of
the execute block of iteration n logs RUNNING -> READY for PID P at time n + 1,
and every entry to the ready queue logged by the arrivals, the pending retries
and the I/O completions of iteration n + 1 has a PID of at least P, then the
READY -> RUNNING events of iteration n + 1 are exactly one event, at time n + 1
and for PID P, and every READY -> RUNNING event stamped n + 1 in the log of any
later state is for PID P. -/
theorem C21_ep_rr_quantum_expiry_returns_cpu (mem : Nat → PCB → Bool)
    (input : List InputRecord) (n : Nat) (pid : Int)
    (hq : ⟨n + 1, pid, States.RUNNING, States.READY⟩ ∈
      new_events (EP_RR.schedule mem (EP_RR.after mem (load input) n))
        (execute (some EP_RR.RR_ER_QUANTUM)
          (EP_RR.schedule mem (EP_RR.after mem (load input) n))))
    (hno : ∀ e ∈ new_events (EP_RR.after mem (load input) (n + 1))
      (intake_priority mem (EP_RR.after mem (load input) (n + 1))), pid ≤ e.pid) :
    (new_events (EP_RR.after mem (load input) (n + 1))
        (EP_RR.after mem (load input) (n + 2))).filter (fun e => decide (is_dispatch e)) =
      [⟨n + 1, pid, States.READY, States.RUNNING⟩] ∧
    ∀ m, ∀ e ∈ (EP_RR.after mem (load input) m).execution_status,
      e.time = n + 1 → is_dispatch e → e.pid = pid := by
  have hclock : (EP_RR.schedule mem (EP_RR.after mem (load input) n)).current_time = n := by
    have h1 := moves_current_time (schedule_moves mem Engine.ep_rr
      (Engine.after mem Engine.ep_rr (load input) n)
      (Or.inr (punctual_after mem Engine.ep_rr input n)))
    have h2 := engine_clock mem Engine.ep_rr input n
    rw [h2] at h1
    exact h1
  rw [ep_rr_after_succ mem (load input) n] at hno
  obtain ⟨ivs, xvs, hl, hi, hx⟩ := EP_RR.expiry_redispatch mem _ pid (n + 1)
    (EP_RR.schedule_running_min mem _) hq hno
  rw [hclock, ← ep_rr_after_succ mem (load input) n] at hl
  have hl2 : (EP_RR.after mem (load input) (n + 2)).execution_status =
      (EP_RR.after mem (load input) (n + 1)).execution_status ++
        (ivs ++ ⟨n + 1, pid, States.READY, States.RUNNING⟩ :: xvs) := by
    rw [← hl, ep_rr_after_succ mem (load input) (n + 1)]
    rfl
  have hnew := new_events_of_eq hl2
  constructor
  · rw [hnew]
    exact filter_dispatch_around ivs xvs _ ⟨rfl, rfl⟩ hi hx
  · intro m e he ht hd
    have h1 := dispatch_logged_in_tick mem Engine.ep_rr input (n + 1) (Nat.le_add_left 1 n) m e
      he hd ht
    have h2 : e ∈ ivs ++ ⟨n + 1, pid, States.READY, States.RUNNING⟩ :: xvs := by
      rw [← hnew]
      exact h1
    rcases List.mem_append.1 h2 with h3 | h3
    · exact absurd ((hi e h3).symm.trans hd.2) (by decide)
    · rcases List.mem_cons.1 h3 with h4 | h4
      · rw [h4]
      · exact absurd ((hx e h4).symm.trans hd.1) (by decide)

set_option maxRecDepth 1000000 in
/-- Witness for C21: two processes arriving at time 0, PID 1 with 150 ms of
work and PID 2 with 10 ms.  PID 1 exhausts its quantum in iteration 99, nothing
enters the ready queue in iteration 100, and PID 1 is dispatched again at
time 100 ahead of PID 2. -/
theorem C21_ep_rr_quantum_expiry_returns_cpu_witness :
    ⟨100, 1, States.RUNNING, States.READY⟩ ∈
      new_events (EP_RR.schedule always_admitted (EP_RR.after always_admitted
          (load scenario_long_pair) 99))
        (execute (some EP_RR.RR_ER_QUANTUM)
          (EP_RR.schedule always_admitted (EP_RR.after always_admitted
            (load scenario_long_pair) 99))) ∧
    (EP_RR.after always_admitted (load scenario_long_pair) 100).ready_queue.map PCB.PID =
      [2, 1] ∧
    ((new_events (EP_RR.after always_admitted (load scenario_long_pair) 100)
        (EP_RR.after always_admitted (load scenario_long_pair) 101)).filter
          (fun e => decide (is_dispatch e)) =
      [⟨100, 1, States.READY, States.RUNNING⟩] ∧
    ∀ m, ∀ e ∈ (EP_RR.after always_admitted (load scenario_long_pair) m).execution_status,
      e.time = 100 → is_dispatch e → e.pid = 1) :=
  ⟨by decide!, by decide!,
   C21_ep_rr_quantum_expiry_returns_cpu always_admitted scenario_long_pair 99 1
     (by decide!) (by decide!)⟩

/-- C23: in the Round-Robin engine, for every input (PIDs unique or not) and
every admission behaviour that refuses, at every call, the process whose PID is
P, where P is the PID of some input record: after every number of iterations
terminated_count is strictly below the number of input processes, and
run_simulation returns nothing, whatever the bound on the number of
iterations. -/
theorem C23_rr_hangs_when_admission_fails (mem : Nat → PCB → Bool)
    (input : List InputRecord) (pid : Int) (hin : pid ∈ input.map InputRecord.PID)
    (hP : ∀ k p, p.PID = pid → mem k p = false) :
    (∀ n, (RR.after mem (load input) n).terminated_count < input.length) ∧
    (load input).length = input.length ∧
    ∀ fuel, RR.run_simulation mem (load input) fuel = none := by
  have h1 : ∀ n, (RR.after mem (load input) n).terminated_count < input.length :=
    fun n => refused_never_all_terminated mem Engine.rr input pid hin hP n
  have h2 : (load input).length = input.length := by simp [load]
  refine ⟨h1, h2, ?_⟩
  intro fuel
  unfold RR.run_simulation
  apply while_loop_none
  intro k
  rw [h2]
  exact h1 k

/-- Witness for C23: Scenario B with a gateway that refuses PID 2 at every call
and admits PID 1. -/
theorem C23_rr_hangs_when_admission_fails_witness :
    (2 : Int) ∈ scenario_B.map InputRecord.PID ∧
    (∀ k p, p.PID = 2 → refuse 2 k p = false) ∧
    (∀ n, (RR.after (refuse 2) (load scenario_B) n).terminated_count < 2) ∧
    ∀ fuel, RR.run_simulation (refuse 2) (load scenario_B) fuel = none :=
  ⟨by decide, fun _ p h => by simp [refuse, h],
   (C23_rr_hangs_when_admission_fails (refuse 2) scenario_B 2 (by decide)
     (fun _ p h => by simp [refuse, h])).1,
   (C23_rr_hangs_when_admission_fails (refuse 2) scenario_B 2 (by decide)
     (fun _ p h => by simp [refuse, h])).2.2⟩

end Sched
namespace Sched

/-! ## The preemption rule on inputs with non-negative PIDs -/

theorem ready_pid_of_input (mem : Nat → PCB → Bool) (input : List InputRecord) (n : Nat) :
    ∀ q ∈ (intake_priority mem (EP_RR.after mem (load input) n)).ready_queue,
      ∃ r ∈ input, r.PID = q.PID := by
  have hp := punctual_after mem Engine.ep_rr input n
  have hd := (descends_after mem Engine.ep_rr input n).1
  have hm := intake_priority_moves mem Engine.ep_rr _ hp
  have hE := moves_preserve (Everywhere (descends input))
    (fun _ _ h => everywhere_move (static_descends input) h) hm hd
  intro q hq
  obtain ⟨r, hr, hpid, _⟩ := hE.ready q hq
  exact ⟨r, hr, hpid⟩

/-- C10: in the preemptive engine, for every input whose PIDs are non-negative,
every admission behaviour and every iteration `n` of the loop (tick `t = n`):
if after arrivals, retries and I/O completions the running slot is occupied by
R and some ready process has a PID strictly below R's, the preemption block
appends to the log exactly RUNNING -> READY for R and then READY -> RUNNING for
the smallest ready PID `m`, both with timestamp `n`, and `m` is the process run
by the execute block of that iteration; if no ready PID is strictly below the
one in the running slot, the preemption block appends nothing. -/
theorem C10_ep_rr_preemption_rule (mem : Nat → PCB → Bool) (input : List InputRecord)
    (hpid : ∀ r ∈ input, 0 ≤ r.PID) (n : Nat) (m : Int) :
    ((intake_priority mem (EP_RR.after mem (load input) n)).running.PID ≠ -1 →
      (∃ q ∈ (intake_priority mem (EP_RR.after mem (load input) n)).ready_queue,
        q.PID < (intake_priority mem (EP_RR.after mem (load input) n)).running.PID) →
      min_pid (intake_priority mem (EP_RR.after mem (load input) n)).ready_queue m →
      (new_events (intake_priority mem (EP_RR.after mem (load input) n))
          (EP_RR.preempt (EP_RR.sort_ready
            (intake_priority mem (EP_RR.after mem (load input) n)))) =
        [⟨n, (intake_priority mem (EP_RR.after mem (load input) n)).running.PID,
            States.RUNNING, States.READY⟩,
         ⟨n, m, States.READY, States.RUNNING⟩] ∧
        executing (EP_RR.schedule mem (EP_RR.after mem (load input) n)) = some m)) ∧
    ((¬ ∃ q ∈ (intake_priority mem (EP_RR.after mem (load input) n)).ready_queue,
        q.PID < (intake_priority mem (EP_RR.after mem (load input) n)).running.PID) →
      new_events (intake_priority mem (EP_RR.after mem (load input) n))
        (EP_RR.preempt (EP_RR.sort_ready
          (intake_priority mem (EP_RR.after mem (load input) n)))) = []) := by
  have hclock : (EP_RR.after mem (load input) n).current_time = n :=
    engine_clock mem Engine.ep_rr input n
  have h := ep_rr_preemption_rule mem (EP_RR.after mem (load input) n) m
  rw [hclock] at h
  refine ⟨fun hrun hlt hm => ?_, h.2⟩
  obtain ⟨h1, h2⟩ := h.1 hrun hlt hm
  refine ⟨h1, h2 ?_⟩
  obtain ⟨q, hq, hqm⟩ := List.mem_map.1 hm.1
  obtain ⟨r, hr, hrq⟩ := ready_pid_of_input mem input n q hq
  have := hpid r hr
  omega

/-- Witness of C10 on Scenario E at tick 5: PID 2 is demoted and PID 1 is
dispatched and run. -/
theorem C10_ep_rr_preemption_rule_witness :
    (∀ r ∈ scenario_E, 0 ≤ r.PID) ∧
    (intake_priority always_admitted
      (EP_RR.after always_admitted (load scenario_E) 5)).running.PID = 2 ∧
    (∃ q ∈ (intake_priority always_admitted
        (EP_RR.after always_admitted (load scenario_E) 5)).ready_queue,
      q.PID < (intake_priority always_admitted
        (EP_RR.after always_admitted (load scenario_E) 5)).running.PID) ∧
    min_pid (intake_priority always_admitted
      (EP_RR.after always_admitted (load scenario_E) 5)).ready_queue 1 ∧
    new_events (intake_priority always_admitted
        (EP_RR.after always_admitted (load scenario_E) 5))
      (EP_RR.preempt (EP_RR.sort_ready (intake_priority always_admitted
        (EP_RR.after always_admitted (load scenario_E) 5)))) =
      [⟨5, (intake_priority always_admitted
            (EP_RR.after always_admitted (load scenario_E) 5)).running.PID,
          States.RUNNING, States.READY⟩,
        ⟨5, 1, States.READY, States.RUNNING⟩] ∧
    executing (EP_RR.schedule always_admitted
      (EP_RR.after always_admitted (load scenario_E) 5)) = some 1 :=
  ⟨by decide, by decide, by decide, by decide,
   ((C10_ep_rr_preemption_rule always_admitted scenario_E (by decide) 5 1).1
      (by decide) (by decide) (by decide)).1,
   ((C10_ep_rr_preemption_rule always_admitted scenario_E (by decide) 5 1).1
      (by decide) (by decide) (by decide)).2⟩

/-! ## The non-preemptive priority engine across the wrap of the clock -/

theorem for_each_process_skip (body : PCB → Sim → PCB × Sim) (s : Sim)
    (hb : ∀ p ∈ s.list_process, body p s = (p, s)) :
    for_each_process body [] s.list_process s = s := by
  have key : ∀ todo done, s.list_process = done ++ todo →
      for_each_process body done todo s = s := by
    intro todo
    induction todo with
    | nil =>
      intro done _
      rfl
    | cons p todo ih =>
      intro done hd
      have hp : p ∈ s.list_process := by rw [hd]; simp
      rw [for_each_process, hb p hp]
      have hs : ({ s with list_process := done ++ p :: todo } : Sim) = s := by
        rw [← hd]
      simp only [hs]
      exact ih _ (by rw [hd]; simp)
  exact key _ _ (by simp)

/-- With the running slot idle, both queues empty, no record waiting for
admission and no record arriving at this tick, an iteration of the
non-preemptive priority engine only advances the 32-bit clock. -/
theorem ep_tick32_quiescent (mem : Nat → PCB → Bool) (s : Sim) (hr : s.running.PID = -1)
    (hq : s.ready_queue = []) (hw : s.wait_queue = [])
    (hl : ∀ p ∈ s.list_process, p.state ≠ States.NOT_ASSIGNED ∧
      (p.arrival_time = s.current_time → p.arrival_time = 0)) :
    EP.tick32 mem s = advance32 s := by
  have h1 : arrivals_priority mem s = s := by
    unfold arrivals_priority
    apply for_each_process_skip
    intro p hp
    unfold arrival_body_priority
    rw [if_neg]
    intro h
    exact h.2 ((hl p hp).2 h.1)
  have h2 : try_assign_pending mem s.current_time s = s := by
    unfold try_assign_pending
    apply for_each_process_skip
    intro p hp
    unfold pending_body
    rw [if_neg]
    intro h
    exact (hl p hp).1 h.2
  have h3 : io_completions s = s := by
    unfold io_completions
    rw [hw]
    rfl
  have h4 : execute32 none s = s := by
    unfold execute32
    rw [if_neg (not_not.2 hr)]
  unfold EP.tick32 EP.schedule intake_priority
  rw [h1, h2, h3]
  unfold EP.dispatch
  rw [if_pos hr, if_neg (by rw [hq]; simp), h4]

/-- As long as no record arrives, a quiescent state of the non-preemptive
priority engine only sees its 32-bit clock advance, wrap included. -/
theorem ep_tick32_idle_run (mem : Nat → PCB → Bool) (s : Sim) (hr : s.running.PID = -1)
    (hq : s.ready_queue = []) (hw : s.wait_queue = []) (hc : s.current_time < 4294967296)
    (hl : ∀ p ∈ s.list_process, p.state ≠ States.NOT_ASSIGNED) (k : Nat)
    (hk : ∀ j < k, ∀ p ∈ s.list_process,
      p.arrival_time = (s.current_time + j) % 4294967296 → p.arrival_time = 0) :
    (EP.tick32 mem)^[k] s = { s with current_time := (s.current_time + k) % 4294967296 } := by
  induction k with
  | zero =>
    simp only [Function.iterate_zero, id_eq, Nat.add_zero]
    rw [Nat.mod_eq_of_lt hc]
  | succ k ih =>
    rw [Function.iterate_succ_apply', ih (fun j hj => hk j (Nat.lt_succ_of_lt hj))]
    rw [ep_tick32_quiescent mem { s with current_time := (s.current_time + k) % 4294967296 }
      hr hq hw (fun p hp => ⟨hl p hp, hk k (Nat.lt_succ_self k) p hp⟩)]
    unfold advance32
    simp only [Nat.mod_add_mod]
    rfl

/-- Before the 32-bit clock wraps, the loop of the non-preemptive priority
engine with the 32-bit clock goes through the same states as with the clock
read as a natural number. -/
theorem ep_after32_eq_after (mem : Nat → PCB → Bool) (input : List InputRecord) (n : Nat)
    (hn : n < 4294967296) :
    EP.after32 mem (load input) n = EP.after mem (load input) n := by
  induction n with
  | zero => rfl
  | succ n ih =>
    have h1 : EP.after32 mem (load input) (n + 1) =
        EP.tick32 mem (EP.after32 mem (load input) n) := by
      unfold EP.after32
      rw [Function.iterate_succ_apply']
    have h2 : EP.after mem (load input) (n + 1) = EP.tick mem (EP.after mem (load input) n) := by
      unfold EP.after
      rw [Function.iterate_succ_apply']
    rw [h1, h2, ih (by omega)]
    have hs := ep_stuck_schedule mem _ (EP.stuck_after mem (load input) n)
    have hidle : (EP.schedule mem (EP.after mem (load input) n)).running.PID = -1 := by
      rw [hs.1]
      rfl
    have hct : (EP.schedule mem (EP.after mem (load input) n)).current_time = n := by
      have h3 := moves_current_time (schedule_moves mem Engine.ep
        (Engine.after mem Engine.ep (load input) n)
        (Or.inr (punctual_after mem Engine.ep input n)))
      have h4 := engine_clock mem Engine.ep input n
      rw [h4] at h3
      exact h3
    have hx : execute32 none (EP.schedule mem (EP.after mem (load input) n)) =
        EP.schedule mem (EP.after mem (load input) n) := by
      unfold execute32
      rw [if_neg (not_not.2 hidle)]
    unfold EP.tick32 EP.tick
    rw [execute_idle none _ hidle, hx]
    unfold advance32 advance
    rw [hct, Nat.mod_eq_of_lt (by omega)]

set_option maxRecDepth 1000000 in
/-- C16 (the code departs from the claim): the arrival loop of the
non-preemptive priority engine offers to the gateway every process whose
arrival_time equals the clock, whatever its state (the Round-Robin loop tests
the state), the loop of that engine never exits, and the clock is a 32-bit
unsigned value.  On the input PID=1 arrival_time=5 processing_time=5 with
admission succeeding at every call, the log after 6 iterations is NEW -> READY
at 5, READY -> RUNNING at 5; after 4294967301 iterations the log is the same
and the clock reads 5 again; the next iteration admits PID 1 a second time, so
that after 4294967302 iterations the log holds two NEW -> READY events of
PID 1. -/
theorem C16_ep_readmits_after_clock_wrap :
    (EP.after32 always_admitted (load scenario_late) 6).execution_status =
      [⟨5, 1, States.NEW, States.READY⟩, ⟨5, 1, States.READY, States.RUNNING⟩] ∧
    (EP.after32 always_admitted (load scenario_late) 4294967301).execution_status =
      [⟨5, 1, States.NEW, States.READY⟩, ⟨5, 1, States.READY, States.RUNNING⟩] ∧
    (EP.after32 always_admitted (load scenario_late) 4294967301).current_time = 5 ∧
    (EP.after32 always_admitted (load scenario_late) 4294967302).execution_status =
      [⟨5, 1, States.NEW, States.READY⟩, ⟨5, 1, States.READY, States.RUNNING⟩,
       ⟨5, 1, States.NEW, States.READY⟩, ⟨5, 1, States.READY, States.RUNNING⟩] ∧
    (admitted_pids
      (EP.after32 always_admitted (load scenario_late) 4294967302).execution_status).count 1
      = 2 := by
  have h5 : ∀ p ∈ (EP.after32 always_admitted (load scenario_late) 6).list_process,
      p.arrival_time = 5 := by decide
  have hc : (EP.after32 always_admitted (load scenario_late) 6).current_time = 6 := by decide
  have hidle := ep_tick32_idle_run always_admitted
    (EP.after32 always_admitted (load scenario_late) 6) (by decide) (by decide) (by decide)
    (by decide) (by decide) 4294967295
    (by
      intro j hj p hp h
      rw [h5 p hp, hc] at h
      omega)
  have e1 : EP.after32 always_admitted (load scenario_late) 4294967301 =
      (EP.tick32 always_admitted)^[4294967295]
        (EP.after32 always_admitted (load scenario_late) 6) :=
    Function.iterate_add_apply (EP.tick32 always_admitted) 4294967295 6 _
  have e2 : EP.after32 always_admitted (load scenario_late) 4294967302 =
      EP.tick32 always_admitted (EP.after32 always_admitted (load scenario_late) 4294967301) :=
    Function.iterate_succ_apply' (EP.tick32 always_admitted) 4294967301 _
  rw [e2, e1, hidle]
  decide

end Sched
